import Mathlib

/-!
# A verification development for a Quoridor engine

Shallow embedding of the engine (board geometry, wall legality, BFS and A*
pathfinding, game state with apply/undo, and the negamax search driver) as
executable Lean definitions, followed by theorems checking the specification
claims against them.

Modelling conventions (explained where used):
* JS numbers holding integer coordinates and counters are modelled as `Int`
  (or `ℕ` for distances, which the code only ever derives from `0` and `+1`).
* JS `Set` objects keyed by the string template "r,c" are modelled as ordered
  duplicate-free `List (Int × Int)`; the string encoding of integer pairs is
  injective, and JS sets preserve insertion order, as lists do.
* JS `Map` objects are modelled as ordered association lists with the same
  update-in-place / append-if-fresh / delete semantics as JS maps.
* Imperative while-loops whose termination rests on a finiteness argument are
  modelled with an explicit fuel parameter; the fuel chosen is proved (or, for
  loops whose result the claims do not depend on, argued in a comment) large
  enough that the exhaustion branch is unreachable.
* Score arithmetic uses `ℚ`.  All constants involved (10, 0.5, 2.0, 1.5, 0.7,
  0.001, 1e6) give exact rational results; the only float rounding in the
  source (on 0.7 and 0.001) happens after at most one operation and cannot
  reorder any comparison between the scores that actually arise, and no claim
  below depends on score values.
* Wall-clock time (performance.now) is modelled by an oracle `timeUp : ℕ → Bool`
  telling whether the time budget is exceeded after a given deepening step.
-/

namespace Quoridor

/-- A board cell: integer row and column (JS object with fields r, c). -/
structure Cell where
  r : Int
  c : Int
deriving DecidableEq

instance : Inhabited Cell := ⟨⟨0, 0⟩⟩

/-- Wall orientation, the JS string constants H and V. -/
inductive Orient
  | H
  | V
deriving DecidableEq

/-- A wall specification: anchor plus orientation. -/
structure Wall where
  r : Int
  c : Int
  o : Orient
deriving DecidableEq

/-- Key of a wall anchor; models the JS string key "r,c" (injective on ints). -/
abbrev WKey := Int × Int

/-- JS Set.add: append if absent (JS sets iterate in insertion order). -/
def jsSetAdd {α : Type} [DecidableEq α] (l : List α) (k : α) : List α :=
  if k ∈ l then l else l ++ [k]

/-- JS Set.delete / Map.delete key removal: drop the (unique) occurrence. -/
def jsErase {α : Type} [DecidableEq α] : List α → α → List α
  | [], _ => []
  | b :: t, a => if b = a then t else b :: jsErase t a

/-- JS Map.set: overwrite in place if the key is present, else append. -/
def jsMapSet {κ ν : Type} [DecidableEq κ] : List (κ × ν) → κ → ν → List (κ × ν)
  | [], k, v => [(k, v)]
  | (k0, v0) :: t, k, v =>
    if k0 = k then (k, v) :: t else (k0, v0) :: jsMapSet t k v

/-- JS Map.delete: remove the entry with the given key. -/
def jsMapDelete {κ ν : Type} [DecidableEq κ] : List (κ × ν) → κ → List (κ × ν)
  | [], _ => []
  | (k0, v0) :: t, k => if k0 = k then t else (k0, v0) :: jsMapDelete t k

/-- JS Map.get: value at a key, none when absent. -/
def jsMapGet {κ ν : Type} [DecidableEq κ] : List (κ × ν) → κ → Option ν
  | [], _ => none
  | (k0, v) :: t, k => if k0 = k then some v else jsMapGet t k

/-- The Board class: size, wall-anchor sets, and cosmetic owner maps. -/
structure Board where
  N : Int
  hWalls : List WKey
  vWalls : List WKey
  hOwners : List (WKey × Fin 2)
  vOwners : List (WKey × Fin 2)
deriving DecidableEq

/-- H wall at (r,c) spans columns c..c+1; an H wall at c-1 or c+1 in the same
row would share one segment. -/
def Board.hHalfOverlap (b : Board) (r c : Int) : Bool :=
  decide ((r, c - 1) ∈ b.hWalls) || decide ((r, c + 1) ∈ b.hWalls)

/-- V wall at (r,c) spans rows r..r+1; a V wall at r-1 or r+1 in the same
column would share one segment. -/
def Board.vHalfOverlap (b : Board) (r c : Int) : Bool :=
  decide ((r - 1, c) ∈ b.vWalls) || decide ((r + 1, c) ∈ b.vWalls)

/-- wallLegal: in-range anchor, no exact duplicate, no crossing at the same
anchor, no half-overlap with an adjacent same-orientation wall. -/
def Board.wallLegal (b : Board) (w : Wall) : Bool :=
  if ¬ (0 ≤ w.r ∧ w.r < b.N - 1 ∧ 0 ≤ w.c ∧ w.c < b.N - 1) then false
  else
    match w.o with
    | .H =>
      if (w.r, w.c) ∈ b.hWalls then false
      else if (w.r, w.c) ∈ b.vWalls then false
      else if b.hHalfOverlap w.r w.c then false
      else true
    | .V =>
      if (w.r, w.c) ∈ b.vWalls then false
      else if (w.r, w.c) ∈ b.hWalls then false
      else if b.vHalfOverlap w.r w.c then false
      else true

/-- The mutation part of placeWall (after its wallLegal guard, which every call
site in the engine has already established, so the throw path is dead code).
Owner is optional to support legality probing without attribution. -/
def Board.addWall (b : Board) (w : Wall) (owner : Option (Fin 2)) : Board :=
  match w.o with
  | .H =>
    { b with
      hWalls := jsSetAdd b.hWalls (w.r, w.c)
      hOwners := match owner with
        | some me => jsMapSet b.hOwners (w.r, w.c) me
        | none => b.hOwners }
  | .V =>
    { b with
      vWalls := jsSetAdd b.vWalls (w.r, w.c)
      vOwners := match owner with
        | some me => jsMapSet b.vOwners (w.r, w.c) me
        | none => b.vOwners }

/-- removeWall: idempotent removal of the wall key and its owner entry. -/
def Board.removeWall (b : Board) (w : Wall) : Board :=
  match w.o with
  | .H =>
    { b with
      hWalls := jsErase b.hWalls (w.r, w.c)
      hOwners := jsMapDelete b.hOwners (w.r, w.c) }
  | .V =>
    { b with
      vWalls := jsErase b.vWalls (w.r, w.c)
      vOwners := jsMapDelete b.vOwners (w.r, w.c) }

/-- blockedEdge: true when the move from a to q is not an orthogonal unit step
or a wall segment separates the two cells. -/
def Board.blockedEdge (b : Board) (a q : Cell) : Bool :=
  if a.r = q.r then
    if (a.c - q.c).natAbs ≠ 1 then true
    else
      let cmin := min a.c q.c
      decide ((a.r, cmin) ∈ b.vWalls) || decide ((a.r - 1, cmin) ∈ b.vWalls)
  else if a.c = q.c then
    if (a.r - q.r).natAbs ≠ 1 then true
    else
      let rmin := min a.r q.r
      decide ((rmin, a.c) ∈ b.hWalls) || decide ((rmin, a.c - 1) ∈ b.hWalls)
  else true

/-- neighbors: the up-to-4 in-bounds orthogonal cells not wall-separated,
enumerated in the fixed order up, down, left, right. -/
def Board.neighbors (b : Board) (p : Cell) : List Cell :=
  let cand : List Cell :=
    (if 0 < p.r then [⟨p.r - 1, p.c⟩] else []) ++
    (if p.r + 1 < b.N then [⟨p.r + 1, p.c⟩] else []) ++
    (if 0 < p.c then [⟨p.r, p.c - 1⟩] else []) ++
    (if p.c + 1 < b.N then [⟨p.r, p.c + 1⟩] else [])
  cand.filter (fun q => ! b.blockedEdge p q)

/-- The BFS while-loop of bfsDistToGoal.  The queue holds (cell, distance)
pairs, popped from the front and pushed at the back; seen is the visited set.
The fuel argument only bounds the number of iterations: each iteration either
pops an entry or is the unreachable exhaustion branch. -/
def Board.bfsAux (b : Board) (goalRows : List Int) :
    ℕ → List (Cell × ℕ) → List Cell → Option ℕ
  | _, [], _ => none
  | 0, _ :: _, _ => none
  | fuel + 1, (u, d) :: q, seen =>
    if u.r ∈ goalRows then some d
    else
      let st := (b.neighbors u).foldl
        (fun (st : List (Cell × ℕ) × List Cell) v =>
          if v ∈ st.2 then st else (st.1 ++ [(v, d + 1)], st.2 ++ [v]))
        (q, seen)
      b.bfsAux goalRows fuel st.1 st.2

/-- Fuel sufficient for BFS from an in-bounds start: the number of pops is at
most 1 + the number of in-bounds cells (each pushed cell is newly seen). -/
def Board.bfsFuel (b : Board) : ℕ :=
  b.N.toNat * b.N.toNat + 2

/-- bfsDistToGoal: unweighted shortest distance to any row in goalRows, or
none when unreachable. -/
def Board.bfsDistToGoal (b : Board) (start : Cell) (goalRows : List Int) : Option ℕ :=
  b.bfsAux goalRows b.bfsFuel [(start, 0)] [start]

/-- pathExistsFor: bfsDistToGoal is not null. -/
def Board.pathExistsFor (b : Board) (start : Cell) (goalRows : List Int) : Bool :=
  (b.bfsDistToGoal start goalRows).isSome

/-- Result record of the next-step path queries. -/
structure PathStep where
  dist : Option ℕ
  next : Option Cell
deriving DecidableEq

/-- The helper _reconstructDist: walk the parent chain from a cell, counting
steps.  The chain is acyclic (each entry points to an earlier-discovered
cell), so parent.length + 1 fuel covers the walk. -/
def reconstructDist (parent : List (Cell × Cell)) : ℕ → Cell → ℕ → ℕ
  | 0, _, d => d
  | fuel + 1, cur, d =>
    match jsMapGet parent cur with
    | none => d
    | some p => reconstructDist parent fuel p (d + 1)

/-- The first-step reconstruction loop of bfsNextStepToGoal: walk the parent
chain until the predecessor is the start cell (or absent). -/
def firstStepWalk (parent : List (Cell × Cell)) (start : Cell) : ℕ → Cell → Cell
  | 0, cur => cur
  | fuel + 1, cur =>
    match jsMapGet parent cur with
    | none => cur
    | some prev =>
      if prev.r = start.r ∧ prev.c = start.c then cur
      else firstStepWalk parent start fuel prev

/-- The BFS while-loop of bfsNextStepToGoal, with parent tracking. -/
def Board.bfsNextAux (b : Board) (start : Cell) (goalRows : List Int) :
    ℕ → List Cell → List Cell → List (Cell × Cell) → PathStep
  | _, [], _, _ => ⟨none, none⟩
  | 0, _ :: _, _, _ => ⟨none, none⟩
  | fuel + 1, u :: q, seen, parent =>
    if u.r ∈ goalRows then
      let cur := firstStepWalk parent start (parent.length + 1) u
      let dist := reconstructDist parent (parent.length + 1) u 0
      let next := if cur.r = start.r ∧ cur.c = start.c then start else cur
      ⟨some dist, some next⟩
    else
      let st := (b.neighbors u).foldl
        (fun (st : List Cell × List Cell × List (Cell × Cell)) v =>
          if v ∈ st.2.1 then st
          else (st.1 ++ [v], st.2.1 ++ [v], jsMapSet st.2.2 v u))
        (q, seen, parent)
      b.bfsNextAux start goalRows fuel st.1 st.2.1 st.2.2

/-- bfsNextStepToGoal: distance plus the first cell stepped onto along a
shortest path (the start itself when already on a goal row). -/
def Board.bfsNextStepToGoal (b : Board) (start : Cell) (goalRows : List Int) : PathStep :=
  b.bfsNextAux start goalRows b.bfsFuel [start] [start] []

/-- Heuristic _hToGoal: minimum over goal rows of the row distance; 0 for an
empty goal set (JS folds min starting from Infinity). -/
def Board.hToGoal (_b : Board) (goalRows : List Int) (p : Cell) : ℕ :=
  match goalRows with
  | [] => 0
  | g :: gs => gs.foldl (fun best g2 => min best ((p.r - g2).natAbs)) ((p.r - g).natAbs)

/-- Priority of heap slot i (entries are (key, priority); out-of-range reads
never occur on the valid indices the heap code uses). -/
def heapPrio (a : List (Cell × ℕ)) (i : ℕ) : ℕ :=
  ((a.get? i).getD (default, 0)).2

/-- Swap two slots of the heap array. -/
def listSwap {α : Type} (a : List α) (i j : ℕ) : List α :=
  match a.get? i, a.get? j with
  | some x, some y => (a.set i y).set j x
  | _, _ => a

theorem listSwap_length {α : Type} (a : List α) (i j : ℕ) :
    (listSwap a i j).length = a.length := by
  unfold listSwap
  cases a.get? i <;> cases a.get? j <;> simp

/-- MinPQ._siftUp: bubble slot i up while its parent has larger priority. -/
def siftUp : List (Cell × ℕ) → ℕ → List (Cell × ℕ)
  | a, 0 => a
  | a, i + 1 =>
    let p := i / 2
    if heapPrio a p ≤ heapPrio a (i + 1) then a
    else siftUp (listSwap a p (i + 1)) p
termination_by _ i => i
decreasing_by
  exact Nat.lt_succ_of_le (Nat.div_le_self i 2)

/-- The child-selection step of MinPQ._siftDown: the index among i and its
two in-range children holding the smallest priority (ties keep the parent,
then the left child, exactly as the two comparisons in the source). -/
def sdTarget (a : List (Cell × ℕ)) (i : ℕ) : ℕ :=
  let n := a.length
  let l := i * 2 + 1
  let r := l + 1
  let s1 := if l < n ∧ heapPrio a l < heapPrio a i then l else i
  if r < n ∧ heapPrio a r < heapPrio a s1 then r else s1

theorem sdTarget_eq_or_lt (a : List (Cell × ℕ)) (i : ℕ) :
    sdTarget a i = i ∨ (i < sdTarget a i ∧ sdTarget a i < a.length) := by
  unfold sdTarget
  dsimp only
  split <;> split <;> omega

/-- MinPQ._siftDown: push slot i down towards the smaller child. -/
def siftDown (a : List (Cell × ℕ)) (i : ℕ) : List (Cell × ℕ) :=
  if _h : sdTarget a i = i then a
  else siftDown (listSwap a (sdTarget a i) i) (sdTarget a i)
termination_by a.length - i
decreasing_by
  rw [listSwap_length]
  rcases sdTarget_eq_or_lt a i with h | ⟨h1, h2⟩
  · exact absurd h _h
  · omega

/-- MinPQ.push: append then sift up from the last slot. -/
def heapPush (a : List (Cell × ℕ)) (k : Cell) (pri : ℕ) : List (Cell × ℕ) :=
  siftUp (a ++ [(k, pri)]) a.length

/-- MinPQ.pop: return the root key; move the last entry to the root and sift
down (null on an empty heap). -/
def heapPop (a : List (Cell × ℕ)) : Option Cell × List (Cell × ℕ) :=
  match a with
  | [] => (none, [])
  | top :: rest =>
    match rest with
    | [] => (some top.1, [])
    | _ :: _ =>
      let all := top :: rest
      (some top.1, siftDown (all.dropLast.set 0 (all.getLast (by simp))) 0)

/-- The A* while-loop of astarDistToGoal, with lazy deletion: stale pops (keys
already settled) are skipped; a settle relaxes the neighbors. -/
def Board.astarAux (b : Board) (goalRows : List Int) :
    ℕ → List (Cell × ℕ) → List (Cell × ℕ) → List (Cell × ℕ) → List Cell → Option ℕ
  | _, [], _, _, _ => none
  | 0, _ :: _, _, _, _ => none
  | fuel + 1, e :: op1, gScore, fScore, seen =>
    let u := e.1
    let op2 := (heapPop (e :: op1)).2
    if u ∈ seen then b.astarAux goalRows fuel op2 gScore fScore seen
    else
      let seen1 := seen ++ [u]
      if u.r ∈ goalRows then jsMapGet gScore u
      else
        let gu := jsMapGet gScore u
        let st := (b.neighbors u).foldl
          (fun (st : List (Cell × ℕ) × List (Cell × ℕ) × List (Cell × ℕ)) v =>
            match gu with
            | none => st
            | some g =>
              let tentative := g + 1
              if (match jsMapGet st.2.1 v with
                  | none => true
                  | some gv => decide (tentative < gv)) then
                let fv := tentative + b.hToGoal goalRows v
                (heapPush st.1 v fv, jsMapSet st.2.1 v tentative, jsMapSet st.2.2 v fv)
              else st)
          (op2, gScore, fScore)
        b.astarAux goalRows fuel st.1 st.2.1 st.2.2 seen1

/-- Fuel sufficient for A* from an in-bounds start: each settle pushes at most
4 entries and each cell settles once, so iterations (pops) are bounded by
1 + 4 * (number of in-bounds cells). -/
def Board.astarFuel (b : Board) : ℕ :=
  5 * (b.N.toNat * b.N.toNat) + 5

/-- astarDistToGoal: A* distance to any row in goalRows, or none when
unreachable. -/
def Board.astarDistToGoal (b : Board) (start : Cell) (goalRows : List Int) : Option ℕ :=
  let h0 := b.hToGoal goalRows start
  b.astarAux goalRows b.astarFuel (heapPush [] start h0) [(start, 0)] [(start, h0)] []

/-! ## GameState -/

/-- The two pawns, indexed 0 (Blue) and 1 (Red). -/
structure Pawns where
  p0 : Cell
  p1 : Cell
deriving DecidableEq

def Pawns.get (ps : Pawns) (i : Fin 2) : Cell :=
  if i = 0 then ps.p0 else ps.p1

def Pawns.set (ps : Pawns) (i : Fin 2) (c : Cell) : Pawns :=
  if i = 0 then { ps with p0 := c } else { ps with p1 := c }

/-- Walls-left counters per player. -/
structure WallCounts where
  w0 : Int
  w1 : Int
deriving DecidableEq

def WallCounts.get (w : WallCounts) (i : Fin 2) : Int :=
  if i = 0 then w.w0 else w.w1

def WallCounts.set (w : WallCounts) (i : Fin 2) (v : Int) : WallCounts :=
  if i = 0 then { w with w0 := v } else { w with w1 := v }

/-- A history snapshot: deep copy of pawns, wall sets, owner maps (as entry
lists, exactly what Array.from over a JS Map yields), walls-left, turn. -/
structure Snap where
  pawns : Pawns
  h : List WKey
  v : List WKey
  hOwn : List (WKey × Fin 2)
  vOwn : List (WKey × Fin 2)
  wl : WallCounts
  tm : Fin 2
deriving DecidableEq

/-- The GameState class.  N duplicates board.N exactly as in the source. -/
structure GameState where
  board : Board
  N : Int
  pawns : Pawns
  wallsLeft : WallCounts
  toMove : Fin 2
  history : List Snap
deriving DecidableEq

/-- The constructor: fresh board, pawns at row 0 / N-1 in column floor(N/2)
(Int division matches Math.floor for the nonnegative N used), 10 walls each,
Blue to move.  -/
def GameState.initial (N : Int) : GameState :=
  { board := { N := N, hWalls := [], vWalls := [], hOwners := [], vOwners := [] }
    N := N
    pawns := ⟨⟨0, N / 2⟩, ⟨N - 1, N / 2⟩⟩
    wallsLeft := ⟨10, 10⟩
    toMove := 0
    history := [] }

/-- goalRows: player 0 aims for row N-1, player 1 for row 0. -/
def GameState.goalRows (s : GameState) (p : Fin 2) : List Int :=
  if p = 0 then [s.N - 1] else [0]

def GameState.inBounds (s : GameState) (p : Cell) : Bool :=
  decide (0 ≤ p.r ∧ p.r < s.N ∧ 0 ≤ p.c ∧ p.c < s.N)

/-- The dedup at the end of legalPawnMoves: first occurrences kept, order
preserved (seen-set plus uniq array in the source). -/
def jsUniqCells (l : List Cell) : List Cell :=
  l.foldl (fun acc m => if m ∈ acc then acc else acc ++ [m]) []

/-- legalPawnMoves.  Sequential pushes into the out array are rendered as
flatMap (which preserves order); the four-direction probe list is the literal
direction table of the source. -/
def GameState.legalPawnMoves (s : GameState) : List Cell :=
  let me := s.toMove
  let you := 1 - me
  let myp := s.pawns.get me
  let opp := s.pawns.get you
  let nbrs := s.board.neighbors myp
  let dirs : List Cell := [⟨-1, 0⟩, ⟨1, 0⟩, ⟨0, -1⟩, ⟨0, 1⟩]
  let out := nbrs.flatMap (fun q =>
    if q.r = opp.r ∧ q.c = opp.c then
      let dr := opp.r - myp.r
      let dc := opp.c - myp.c
      let dest : Cell := ⟨opp.r + dr, opp.c + dc⟩
      if s.inBounds dest ∧ ¬ s.board.blockedEdge opp dest then [dest]
      else
        dirs.flatMap (fun d =>
          let side : Cell := ⟨opp.r + d.r, opp.c + d.c⟩
          if ¬ s.inBounds side then []
          else if ¬ s.board.blockedEdge opp side ∧ ¬ s.board.blockedEdge myp opp then
            [side]
          else [])
    else [q])
  jsUniqCells out

/-- The integers 0, 1, ..., n-1 (empty when n is not positive), the range of
the JS for-loop counters. -/
def intsBelow (n : Int) : List Int :=
  (List.range n.toNat).map Int.ofNat

/-- legalWallMoves: empty with no walls left; otherwise every in-range
anchor/orientation passing wallLegal whose tentative placement (no owner)
keeps both players connected.  The probe's place-then-remove pair cancels on
the wall sets (the anchor is fresh by wallLegal), so the probe is rendered by
evaluating connectivity on the board with the wall added. -/
def GameState.legalWallMoves (s : GameState) : List Wall :=
  if s.wallsLeft.get s.toMove ≤ 0 then []
  else
    (intsBelow (s.N - 1)).flatMap fun r =>
      (intsBelow (s.N - 1)).flatMap fun c =>
        ([Orient.H, Orient.V]).filterMap fun o =>
          let w : Wall := ⟨r, c, o⟩
          if ¬ s.board.wallLegal w then none
          else
            let b1 := s.board.addWall w none
            if b1.pathExistsFor (s.pawns.get 0) (s.goalRows 0) &&
               b1.pathExistsFor (s.pawns.get 1) (s.goalRows 1) then some w
            else none

inductive ApplyError
  | illegalPawn
  | noWallsLeft
  | illegalPlacement
  | blocksAllPaths
deriving DecidableEq

inductive Move
  | pawn (dst : Cell)
  | wall (w : Wall)
deriving DecidableEq

/-- snapshot: deep copy of all mutable fields except the history itself. -/
def GameState.snapshot (s : GameState) : Snap :=
  ⟨s.pawns, s.board.hWalls, s.board.vWalls, s.board.hOwners, s.board.vOwners,
    s.wallsLeft, s.toMove⟩

/-- restore: overwrite every snapshotted field; the history is untouched. -/
def GameState.restore (s : GameState) (sn : Snap) : GameState :=
  { s with
    pawns := sn.pawns
    board := { s.board with
      hWalls := sn.h, vWalls := sn.v, hOwners := sn.hOwn, vOwners := sn.vOwn }
    wallsLeft := sn.wl
    toMove := sn.tm }

/-- The history push at the top of apply: append a pre-mutation snapshot when
recordHistory is set. -/
def GameState.pushSnap (s : GameState) (rh : Bool) : GameState :=
  if rh then { s with history := s.history ++ [s.snapshot] } else s

/-- apply.  A throw in the source leaves the object exactly as mutated so far;
the model returns that state next to the error.  The pre-mutation snapshot is
appended to history first when recordHistory is set. -/
def GameState.apply (s0 : GameState) (mv : Move) (recordHistory : Bool) :
    Option ApplyError × GameState :=
  let s := s0.pushSnap recordHistory
  match mv with
  | .pawn dst =>
    if s.legalPawnMoves.any (fun p => decide (p.r = dst.r ∧ p.c = dst.c)) then
      (none, { s with pawns := s.pawns.set s.toMove ⟨dst.r, dst.c⟩, toMove := 1 - s.toMove })
    else (some .illegalPawn, s)
  | .wall w =>
    let me := s.toMove
    if s.wallsLeft.get me ≤ 0 then (some .noWallsLeft, s)
    else if ¬ s.board.wallLegal w then (some .illegalPlacement, s)
    else
      let b1 := s.board.addWall w (some me)
      if b1.pathExistsFor (s.pawns.get 0) (s.goalRows 0) &&
         b1.pathExistsFor (s.pawns.get 1) (s.goalRows 1) then
        let s2 := { s with
          board := b1
          wallsLeft := s.wallsLeft.set me (s.wallsLeft.get me - 1)
          toMove := 1 - me }
        (none, s2)
      else (some .blocksAllPaths, { s with board := b1.removeWall w })

/-- legalMoves: pawn moves first, then wall placements. -/
def GameState.legalMoves (s : GameState) : List Move :=
  s.legalPawnMoves.map Move.pawn ++ s.legalWallMoves.map Move.wall

/-- undo: pop the last snapshot and restore it; no-op when history is empty. -/
def GameState.undo (s : GameState) : GameState :=
  match s.history.getLast? with
  | none => s
  | some sn => GameState.restore { s with history := s.history.dropLast } sn

/-- winner: player 0 at row N-1, player 1 at row 0, else null. -/
def GameState.winner (s : GameState) : Option (Fin 2) :=
  if s.pawns.p0.r = s.N - 1 then some 0
  else if s.pawns.p1.r = 0 then some 1
  else none

/-- evaluate: 10 * (opponent distance - own distance) + 0.5 * walls-left
difference; 0 when either distance is null. -/
def GameState.evaluate (s : GameState) (me : Fin 2) : ℚ :=
  let you := 1 - me
  match s.board.bfsDistToGoal (s.pawns.get me) (s.goalRows me),
        s.board.bfsDistToGoal (s.pawns.get you) (s.goalRows you) with
  | some dMe, some dYou =>
    ((dYou : ℚ) - (dMe : ℚ)) * 10 +
      ((s.wallsLeft.get me : ℚ) - (s.wallsLeft.get you : ℚ)) * (1 / 2)
  | _, _ => 0

/-- shortestPathNext: BFS distance and first step for the given player. -/
def GameState.shortestPathNext (s : GameState) (me : Fin 2) : PathStep :=
  s.board.bfsNextStepToGoal (s.pawns.get me) (s.goalRows me)

/-! ## The search driver (ai/search.js)

The search mutates the GameState transiently (apply with recordHistory off,
then restore from a snapshot), so its model threads the state explicitly and
propagates a thrown apply error together with the state as mutated at the
throw, exactly as a JS exception would leave the object. -/

/-- Result of a stateful search computation: value plus the state object as
left behind, or a propagated exception plus the state at the throw. -/
inductive SRes (α : Type) where
  | ok (a : α) (st : GameState)
  | err (e : ApplyError) (st : GameState)

/-- The state left behind by a stateful search computation. -/
def SRes.state {α : Type} : SRes α → GameState
  | .ok _ st => st
  | .err _ st => st

/-- Whether the computation returned normally. -/
def SRes.isOk {α : Type} : SRes α → Bool
  | .ok _ _ => true
  | .err _ _ => false

/-- Extended rationals modelling the JS values built from -Infinity/Infinity
and finite scores in the search. -/
inductive XQ
  | ninf
  | fin (x : ℚ)
  | pinf
deriving DecidableEq

/-- Negation (exact on the values used). -/
def XQ.neg : XQ → XQ
  | ninf => pinf
  | pinf => ninf
  | fin x => fin (-x)

/-- Strict less-than, matching IEEE comparisons on these values
(Infinity > Infinity is false). -/
def XQ.blt : XQ → XQ → Bool
  | ninf, ninf => false
  | ninf, _ => true
  | fin _, ninf => false
  | fin x, fin y => decide (x < y)
  | fin _, pinf => true
  | pinf, _ => false

/-- Non-strict comparison: a >= b rendered as not (a < b). -/
def XQ.ble (a b : XQ) : Bool := ! XQ.blt b a

/-- posKey: the canonical repetition key (pawns, both wall lists in insertion
order, side to move), modelling the JSON string, which is injective in these
components. -/
def GameState.posKey (s : GameState) : Pawns × List WKey × List WKey × Fin 2 :=
  (s.pawns, s.board.hWalls, s.board.vWalls, s.toMove)

/-- The repetition key type. -/
abbrev PosKeyT := Pawns × List WKey × List WKey × Fin 2

/-- The back-square read in orderedMoves: the mover's pawn in the snapshot
taken before its previous turn (two plies back), when history is long enough. -/
def backSquare (s : GameState) (me : Fin 2) : Option Cell :=
  if 2 ≤ s.history.length then
    (s.history.get? (s.history.length - 2)).map fun sn => sn.pawns.get me
  else none

/-- The loop of recentMySquares: step the index down two at a time collecting
up to k squares.  The fuel covers the at most length/2 + 1 iterations. -/
def recentAux (hist : List Snap) (me : Fin 2) (k : ℕ) :
    ℕ → Int → List Cell → List Cell
  | 0, _, acc => acc
  | fuel + 1, i, acc =>
    if 0 ≤ i ∧ acc.length < k then
      let acc2 := match hist.get? i.toNat with
        | some sn => acc ++ [sn.pawns.get me]
        | none => acc
      recentAux hist me k fuel (i - 2) acc2
    else acc

/-- recentMySquares: the mover's last k turn-start squares from history. -/
def recentMySquares (hist : List Snap) (me : Fin 2) (k : ℕ) : List Cell :=
  recentAux hist me k (hist.length + 1) ((hist.length : Int) - 2) []

/-- The score assigned to a move by orderedMoves, computed on the state after
the transient apply.  Constants 2.0, 1.5, 0.7 as exact rationals. -/
def scoreOf (stAfter : GameState) (me you : Fin 2) (myGoal oppGoal : List Int)
    (sp : PathStep) (back : Option Cell) (recent : List Cell) (mv : Move) : ℚ :=
  let dMe : ℕ := (stAfter.board.astarDistToGoal (stAfter.pawns.get me) myGoal).getD 99
  let dYou : ℕ := (stAfter.board.astarDistToGoal (stAfter.pawns.get you) oppGoal).getD 99
  let base : ℚ := (dYou : ℚ) - (dMe : ℚ)
  match mv with
  | .wall _ => base
  | .pawn _ =>
    let dest := stAfter.pawns.get me
    let s1 := base + (match sp.next with
      | some nx => if dest.r = nx.r ∧ dest.c = nx.c then 2 else 0
      | none => 0)
    let s2 := s1 - (match back with
      | some bq => if dest.r = bq.r ∧ dest.c = bq.c then 3 / 2 else 0
      | none => 0)
    s2 - (if recent.any (fun cq => decide (cq.r = dest.r ∧ cq.c = dest.c)) then 7 / 10 else 0)

/-- The snapshot/apply/score/restore loop of orderedMoves over the legal
moves.  A throw inside apply propagates with the mutated state. -/
def scoreLoop (me you : Fin 2) (myGoal oppGoal : List Int) (sp : PathStep)
    (back : Option Cell) (recent : List Cell) :
    List Move → GameState → List (ℚ × Move) → SRes (List (ℚ × Move))
  | [], st, acc => .ok acc st
  | mv :: rest, st, acc =>
    let snap := st.snapshot
    match st.apply mv false with
    | (some e, stE) => .err e stE
    | (none, st1) =>
      let sc := scoreOf st1 me you myGoal oppGoal sp back recent mv
      let st2 := st1.restore snap
      scoreLoop me you myGoal oppGoal sp back recent rest st2 (acc ++ [(sc, mv)])

/-- Stable descending insertion: keep strictly-greater scores ahead, place the
new element before ties arriving later.  A stable sort is deterministic, so
this agrees with the JS stable Array.sort under the comparator b - a. -/
def insertDesc (x : ℚ × Move) : List (ℚ × Move) → List (ℚ × Move)
  | [] => [x]
  | y :: t => if x.1 < y.1 then y :: insertDesc x t else x :: y :: t

/-- Stable descending sort by score. -/
def sortDesc (l : List (ℚ × Move)) : List (ℚ × Move) :=
  l.foldr insertDesc []

/-- orderedMoves: score every legal move transiently, then sort descending. -/
def orderedMovesSt (s : GameState) : SRes (List Move) :=
  let me := s.toMove
  let you := 1 - me
  let myGoal := s.goalRows me
  let oppGoal := s.goalRows you
  let back := backSquare s me
  let recent := recentMySquares s.history me 6
  let sp := s.shortestPathNext me
  match scoreLoop me you myGoal oppGoal sp back recent s.legalMoves s [] with
  | .err e st => .err e st
  | .ok scored st => .ok ((sortDesc scored).map (fun p => p.2)) st

/-- The move loop of negamax: snapshot, transient apply, recurse with negated
swapped bounds, restore, update best value / best move / alpha, cut off when
alpha >= beta.  The recursion at depth - 1 is passed in as recur. -/
def negaLoop
    (recur : GameState → XQ → XQ → List PosKeyT → SRes ((XQ × Option Move) × List PosKeyT)) :
    List Move → GameState → XQ → XQ → XQ → Option Move → List PosKeyT →
    SRes ((XQ × Option Move) × List PosKeyT)
  | [], st, _, _, bv, bm, seen => .ok ((bv, bm), seen) st
  | mv :: rest, st, alpha, beta, bv, bm, seen =>
    let snap := st.snapshot
    match st.apply mv false with
    | (some e, stE) => .err e stE
    | (none, st1) =>
      match recur st1 beta.neg alpha.neg seen with
      | .err e stE => .err e stE
      | .ok ((vc, _), seen1) st2 =>
        let val := vc.neg
        let st3 := st2.restore snap
        let bv2 := if XQ.blt bv val then val else bv
        let bm2 := if XQ.blt bv val then some mv else bm
        let alpha2 := if XQ.blt alpha bv2 then bv2 else alpha
        if XQ.ble beta alpha2 then .ok ((bv2, bm2), seen1) st3
        else negaLoop recur rest st3 alpha2 beta bv2 bm2 seen1

/-- negamax with alpha-beta and repetition penalty.  The seen set of position
keys is threaded; it is restored on every exit path (the key is deleted after
the loop, and the repetition early-exit never added it). -/
def negamaxSt (st : GameState) : ℕ → XQ → XQ → List PosKeyT →
    SRes ((XQ × Option Move) × List PosKeyT)
  | depth, alpha, beta, seen =>
    let k := st.posKey
    if k ∈ seen then .ok ((XQ.fin (-(1 / 1000) * (depth : ℚ)), none), seen) st
    else
      let seen1 := seen ++ [k]
      match st.winner with
      | some w =>
        .ok ((XQ.fin (if w = st.toMove then 1000000 else -1000000), none), jsErase seen1 k) st
      | none =>
        match depth with
        | 0 => .ok ((XQ.fin (st.evaluate st.toMove), none), jsErase seen1 k) st
        | d + 1 =>
          match orderedMovesSt st with
          | .err e stE => .err e stE
          | .ok mvs st1 =>
            match negaLoop (fun st2 a b sn => negamaxSt st2 d a b sn)
                mvs st1 alpha beta .ninf none seen1 with
            | .err e stE => .err e stE
            | .ok ((bv, bm), seen2) st2 => .ok ((bv, bm), jsErase seen2 k) st2
termination_by depth _ _ _ => depth

/-- The iterative-deepening loop: run negamax at each depth, keep the last
non-null move, stop when the time oracle reports the budget exceeded. -/
def idLoop (timeUp : ℕ → Bool) :
    List ℕ → GameState → Option Move → SRes (Option Move)
  | [], st, best => .ok best st
  | d :: rest, st, best =>
    match negamaxSt st d .ninf .pinf [] with
    | .err e stE => .err e stE
    | .ok ((_, mv), _) st1 =>
      let best2 := match mv with
        | some m => some m
        | none => best
      if timeUp d then .ok best2 st1
      else idLoop timeUp rest st1 best2

/-- searchWithTime: wall-less fast path (step along the shortest path when
that step is legal), otherwise iterative deepening at depths 1..maxDepth with
the time oracle, falling back to the first legal move (none models the JS
undefined read of an empty legal-move array). -/
def searchWithTimeSt (s : GameState) (maxDepth : ℕ) (timeUp : ℕ → Bool) :
    SRes (Option Move) :=
  let me := s.toMove
  let fast : Option Move :=
    if s.wallsLeft.get me ≤ 0 then
      match (s.shortestPathNext me).next with
      | some nx =>
        if s.legalPawnMoves.any (fun p => decide (p.r = nx.r ∧ p.c = nx.c)) then
          some (.pawn nx)
        else none
      | none => none
    else none
  match fast with
  | some mv => .ok (some mv) s
  | none =>
    match idLoop timeUp (List.range' 1 maxDepth) s none with
    | .err e stE => .err e stE
    | .ok best st1 =>
      .ok (match best with
        | some bm => some bm
        | none => st1.legalMoves.head?) st1

/-! ## Basic lemmas about the JS collection models -/

theorem jsUniq_mem_aux (l acc : List Cell) (x : Cell) :
    x ∈ l.foldl (fun acc m => if m ∈ acc then acc else acc ++ [m]) acc ↔
      x ∈ acc ∨ x ∈ l := by
  induction l generalizing acc with
  | nil => simp
  | cons a t ih =>
    simp only [List.foldl_cons, List.mem_cons]
    rw [ih]
    by_cases h : a ∈ acc
    · simp only [if_pos h]
      constructor
      · tauto
      · rintro (hx | rfl | hx) <;> tauto
    · simp only [if_neg h, List.mem_append, List.mem_singleton]
      tauto

theorem jsUniqCells_mem (l : List Cell) (x : Cell) : x ∈ jsUniqCells l ↔ x ∈ l := by
  unfold jsUniqCells
  rw [jsUniq_mem_aux]
  simp

theorem jsErase_concat {α : Type} [DecidableEq α] (l : List α) (k : α) (h : k ∉ l) :
    jsErase (l ++ [k]) k = l := by
  induction l with
  | nil => simp [jsErase]
  | cons a t ih =>
    simp only [List.mem_cons, not_or] at h
    simp only [List.cons_append, jsErase, if_neg (Ne.symm h.1)]
    exact congrArg (a :: ·) (ih h.2)

/-- Keys of an association list. -/
def mapKeys {κ ν : Type} (l : List (κ × ν)) : List κ := l.map Prod.fst

theorem jsMapSet_fresh {κ ν : Type} [DecidableEq κ] (l : List (κ × ν)) (k : κ) (v : ν)
    (h : k ∉ mapKeys l) : jsMapSet l k v = l ++ [(k, v)] := by
  induction l with
  | nil => simp [jsMapSet]
  | cons a t ih =>
    simp only [mapKeys, List.map_cons, List.mem_cons, not_or] at h
    cases a with
    | mk k0 v0 =>
      simp only [jsMapSet, List.cons_append, if_neg (fun hh => h.1 (Eq.symm hh))]
      exact congrArg ((k0, v0) :: ·) (ih (by simpa [mapKeys] using h.2))

theorem jsMapDelete_concat {κ ν : Type} [DecidableEq κ] (l : List (κ × ν)) (k : κ) (v : ν)
    (h : k ∉ mapKeys l) : jsMapDelete (l ++ [(k, v)]) k = l := by
  induction l with
  | nil => simp [jsMapDelete]
  | cons a t ih =>
    simp only [mapKeys, List.map_cons, List.mem_cons, not_or] at h
    cases a with
    | mk k0 v0 =>
      simp only [jsMapDelete, List.cons_append, if_neg (fun hh => h.1 (Eq.symm hh))]
      exact congrArg ((k0, v0) :: ·) (ih (by simpa [mapKeys] using h.2))

theorem jsMapDelete_not_mem {κ ν : Type} [DecidableEq κ] (l : List (κ × ν)) (k : κ)
    (h : k ∉ mapKeys l) : jsMapDelete l k = l := by
  induction l with
  | nil => rfl
  | cons a t ih =>
    simp only [mapKeys, List.map_cons, List.mem_cons, not_or] at h
    cases a with
    | mk k0 v0 =>
      simp only [jsMapDelete, if_neg (fun hh => h.1 (Eq.symm hh))]
      exact congrArg ((k0, v0) :: ·) (ih (by simpa [mapKeys] using h.2))

/-! ## Well-formedness of owner maps

Real game states only ever hold an owner entry for a wall that is actually
placed (placeWall adds both, removeWall deletes both, restore copies both
from a snapshot with the same property), so owner keys are wall keys. -/

/-- Owner entries only exist for placed walls. -/
def BoardWf (b : Board) : Prop :=
  (∀ kv ∈ b.hOwners, kv.1 ∈ b.hWalls) ∧ (∀ kv ∈ b.vOwners, kv.1 ∈ b.vWalls)

instance (b : Board) : Decidable (BoardWf b) := by
  unfold BoardWf
  infer_instance

theorem wallLegal_not_mem_h (b : Board) (r c : Int)
    (hw : b.wallLegal ⟨r, c, .H⟩ = true) : (r, c) ∉ b.hWalls := by
  simp only [Board.wallLegal] at hw
  split_ifs at hw
  simp_all

theorem wallLegal_not_mem_v (b : Board) (r c : Int)
    (hw : b.wallLegal ⟨r, c, .V⟩ = true) : (r, c) ∉ b.vWalls := by
  simp only [Board.wallLegal] at hw
  split_ifs at hw
  simp_all

/-- Placing a legal wall and removing it restores the board exactly (the
anchor is fresh in the wall set by wallLegal and hence, on a well-formed
board, fresh in the owner map too). -/
theorem removeWall_addWall (b : Board) (w : Wall) (owner : Option (Fin 2))
    (hwf : BoardWf b) (hw : b.wallLegal w = true) :
    (b.addWall w owner).removeWall w = b := by
  rcases w with ⟨r, c, o⟩
  cases o with
  | H =>
    have hmem : (r, c) ∉ b.hWalls := wallLegal_not_mem_h b r c hw
    have hkey : (r, c) ∉ mapKeys b.hOwners := by
      intro hk
      rcases List.mem_map.mp hk with ⟨kv, hkv, hfst⟩
      exact hmem (hfst ▸ hwf.1 kv hkv)
    cases owner with
    | none =>
      simp only [Board.addWall, Board.removeWall, jsSetAdd, if_neg hmem]
      rw [jsErase_concat _ _ hmem, jsMapDelete_not_mem _ _ hkey]
    | some me =>
      simp only [Board.addWall, Board.removeWall, jsSetAdd, if_neg hmem]
      rw [jsErase_concat _ _ hmem, jsMapSet_fresh _ _ _ hkey, jsMapDelete_concat _ _ _ hkey]
  | V =>
    have hmem : (r, c) ∉ b.vWalls := wallLegal_not_mem_v b r c hw
    have hkey : (r, c) ∉ mapKeys b.vOwners := by
      intro hk
      rcases List.mem_map.mp hk with ⟨kv, hkv, hfst⟩
      exact hmem (hfst ▸ hwf.2 kv hkv)
    cases owner with
    | none =>
      simp only [Board.addWall, Board.removeWall, jsSetAdd, if_neg hmem]
      rw [jsErase_concat _ _ hmem, jsMapDelete_not_mem _ _ hkey]
    | some me =>
      simp only [Board.addWall, Board.removeWall, jsSetAdd, if_neg hmem]
      rw [jsErase_concat _ _ hmem, jsMapSet_fresh _ _ _ hkey, jsMapDelete_concat _ _ _ hkey]

/-! ## Characterizing neighbors and legalPawnMoves -/

theorem mem_if_singleton {α : Type} (c : Prop) [Decidable c] (x q : α) :
    q ∈ (if c then [x] else []) ↔ c ∧ q = x := by
  split_ifs with h <;> simp [h]

/-- Membership in the neighbor list: one of the four candidate offsets with
its bound check, and the connecting edge unblocked. -/
theorem mem_neighbors_iff (b : Board) (p q : Cell) :
    q ∈ b.neighbors p ↔
      b.blockedEdge p q = false ∧
      ((0 < p.r ∧ q = ⟨p.r - 1, p.c⟩) ∨ (p.r + 1 < b.N ∧ q = ⟨p.r + 1, p.c⟩) ∨
       (0 < p.c ∧ q = ⟨p.r, p.c - 1⟩) ∨ (p.c + 1 < b.N ∧ q = ⟨p.r, p.c + 1⟩)) := by
  unfold Board.neighbors
  simp only [List.mem_filter, List.mem_append, mem_if_singleton, Bool.not_eq_eq_eq_not,
    Bool.not_true, and_comm]
  tauto

theorem mem_neighbors_unblocked (b : Board) (p q : Cell) (h : q ∈ b.neighbors p) :
    b.blockedEdge p q = false :=
  ((mem_neighbors_iff b p q).mp h).1

theorem cell_ext (a b : Cell) (hr : a.r = b.r) (hc : a.c = b.c) : a = b := by
  cases a; cases b; simp_all

theorem mem_neighbors_ne (b : Board) (p q : Cell) (h : q ∈ b.neighbors p) : q ≠ p := by
  rcases ((mem_neighbors_iff b p q).mp h).2 with ⟨_, rfl⟩ | ⟨_, rfl⟩ | ⟨_, rfl⟩ | ⟨_, rfl⟩ <;>
    (intro heq
     have hr := congrArg Cell.r heq
     have hc := congrArg Cell.c heq
     simp only [] at hr hc
     omega)

/-- The mover's pawn. -/
def GameState.myPawn (s : GameState) : Cell := s.pawns.get s.toMove

/-- The opponent's pawn. -/
def GameState.oppPawn (s : GameState) : Cell := s.pawns.get (1 - s.toMove)

/-- The straight-jump destination: two cells onward in the direction from the
mover's pawn to the opponent's pawn. -/
def GameState.jumpDest (s : GameState) : Cell :=
  ⟨s.oppPawn.r + (s.oppPawn.r - s.myPawn.r), s.oppPawn.c + (s.oppPawn.c - s.myPawn.c)⟩

/-- The straight jump is available: destination in bounds and not blocked
(the literal branch condition of the source). -/
def GameState.straightOk (s : GameState) : Prop :=
  s.inBounds s.jumpDest = true ∧ ¬ s.board.blockedEdge s.oppPawn s.jumpDest = true

instance (s : GameState) : Decidable s.straightOk := by
  unfold GameState.straightOk
  infer_instance

/-- The direction table probed by the jump branch. -/
def jumpDirs : List Cell := [⟨-1, 0⟩, ⟨1, 0⟩, ⟨0, -1⟩, ⟨0, 1⟩]

/-- Full membership characterization of legalPawnMoves: ordinary neighbors
not holding the opponent; the straight jump when available; otherwise the
four side cells around the opponent passing the branch's checks. -/
theorem mem_legalPawnMoves_iff (s : GameState) (x : Cell) :
    x ∈ s.legalPawnMoves ↔
      (∃ q ∈ s.board.neighbors s.myPawn, q ≠ s.oppPawn ∧ x = q) ∨
      (s.oppPawn ∈ s.board.neighbors s.myPawn ∧
        ((s.straightOk ∧ x = s.jumpDest) ∨
         (¬ s.straightOk ∧ ∃ d ∈ jumpDirs,
            x = ⟨s.oppPawn.r + d.r, s.oppPawn.c + d.c⟩ ∧
            s.inBounds x = true ∧
            ¬ s.board.blockedEdge s.oppPawn x = true ∧
            ¬ s.board.blockedEdge s.myPawn s.oppPawn = true))) := by
  unfold GameState.straightOk GameState.jumpDest GameState.oppPawn GameState.myPawn
    GameState.legalPawnMoves jumpDirs
  rw [jsUniqCells_mem, List.mem_flatMap]
  simp only []
  set myp := s.pawns.get s.toMove with hmyp
  set opp := s.pawns.get (1 - s.toMove) with hopp
  set dest : Cell := ⟨opp.r + (opp.r - myp.r), opp.c + (opp.c - myp.c)⟩ with hdest
  constructor
  · rintro ⟨q, hq, hx⟩
    by_cases hqo : q = opp
    · subst hqo
      rw [if_pos ⟨rfl, rfl⟩] at hx
      right
      refine ⟨hq, ?_⟩
      by_cases hso : s.inBounds dest = true ∧ ¬ s.board.blockedEdge opp dest = true
      · left
        rw [if_pos hso] at hx
        simp only [List.mem_singleton] at hx
        exact ⟨hso, hx⟩
      · right
        refine ⟨hso, ?_⟩
        rw [if_neg hso] at hx
        rcases List.mem_flatMap.mp hx with ⟨d, hd, hxd⟩
        by_cases hib : s.inBounds ⟨opp.r + d.r, opp.c + d.c⟩ = true
        · rw [if_neg (by simp [hib])] at hxd
          by_cases hbl : ¬ s.board.blockedEdge opp ⟨opp.r + d.r, opp.c + d.c⟩ = true
              ∧ ¬ s.board.blockedEdge myp opp = true
          · rw [if_pos hbl] at hxd
            simp only [List.mem_singleton] at hxd
            subst hxd
            exact ⟨d, hd, rfl, hib, hbl.1, hbl.2⟩
          · rw [if_neg hbl] at hxd
            simp at hxd
        · rw [if_pos (by simpa using hib)] at hxd
          simp at hxd
    · left
      rw [if_neg (by
        rintro ⟨h1, h2⟩
        exact hqo (cell_ext q opp h1 h2))] at hx
      simp only [List.mem_singleton] at hx
      exact ⟨q, hq, hqo, hx⟩
  · rintro (⟨q, hq, hqo, rfl⟩ | ⟨hq, ⟨hso, rfl⟩ | ⟨hso, d, hd, rfl, hib, hbl1, hbl2⟩⟩)
    · refine ⟨x, hq, ?_⟩
      rw [if_neg (by
        rintro ⟨h1, h2⟩
        exact hqo (cell_ext x opp h1 h2))]
      simp
    · refine ⟨opp, hq, ?_⟩
      rw [if_pos ⟨rfl, rfl⟩, if_pos hso]
      simp
    · refine ⟨opp, hq, ?_⟩
      rw [if_pos ⟨rfl, rfl⟩, if_neg hso]
      refine List.mem_flatMap.mpr ⟨d, hd, ?_⟩
      rw [if_neg (by simp [hib]), if_pos ⟨hbl1, hbl2⟩]
      simp

/-- Neighbors of an in-bounds cell stay in bounds (wrt the board size). -/
theorem mem_neighbors_bounds (b : Board) (p q : Cell)
    (hp : 0 ≤ p.r ∧ p.r < b.N ∧ 0 ≤ p.c ∧ p.c < b.N) (h : q ∈ b.neighbors p) :
    0 ≤ q.r ∧ q.r < b.N ∧ 0 ≤ q.c ∧ q.c < b.N := by
  rcases ((mem_neighbors_iff b p q).mp h).2 with ⟨hb, rfl⟩ | ⟨hb, rfl⟩ | ⟨hb, rfl⟩ | ⟨hb, rfl⟩ <;>
    (simp only []
     omega)

/-! ## Claim C8: characterization of wallLegal -/

/-- C8: wallLegal w is false exactly when the anchor is outside
[0,N-2] x [0,N-2], or a same-orientation wall occupies the same anchor, or an
opposite-orientation wall occupies the same anchor, or an adjacent
same-orientation wall shares one of the two segments; otherwise it is true.
The model is a pure function of the board, so the call cannot modify board
state. -/
theorem C8_wallLegal_spec (b : Board) (w : Wall) :
    b.wallLegal w = false ↔
      ¬ (0 ≤ w.r ∧ w.r ≤ b.N - 2 ∧ 0 ≤ w.c ∧ w.c ≤ b.N - 2) ∨
      (w.o = .H ∧ ((w.r, w.c) ∈ b.hWalls ∨ (w.r, w.c) ∈ b.vWalls ∨
        (w.r, w.c - 1) ∈ b.hWalls ∨ (w.r, w.c + 1) ∈ b.hWalls)) ∨
      (w.o = .V ∧ ((w.r, w.c) ∈ b.vWalls ∨ (w.r, w.c) ∈ b.hWalls ∨
        (w.r - 1, w.c) ∈ b.vWalls ∨ (w.r + 1, w.c) ∈ b.vWalls)) := by
  rcases w with ⟨r, c, o⟩
  cases o <;>
    (simp only [Board.wallLegal, Board.hHalfOverlap, Board.vHalfOverlap]
     split_ifs with h1 <;>
       simp_all [Bool.or_eq_true, decide_eq_true_eq] <;> omega)

/-! ## Claim C10: pawn moves stay on the board and off the opponent -/

/-- C10: every cell returned by legalPawnMoves lies within the N x N board and
is never the opponent's pawn cell.  Hypotheses: the board size equals the
game-state size (the constructor guarantees it and nothing changes either),
and the mover's pawn is in bounds (true in every reachable state). -/
theorem C10_pawn_moves_in_bounds (s : GameState) (hN : s.board.N = s.N)
    (hme : s.inBounds s.myPawn = true) :
    ∀ x ∈ s.legalPawnMoves, s.inBounds x = true ∧ x ≠ s.oppPawn := by
  intro x hx
  simp only [GameState.inBounds, decide_eq_true_eq] at hme
  rcases (mem_legalPawnMoves_iff s x).mp hx with
    ⟨q, hq, hqo, rfl⟩ | ⟨hq, ⟨hso, rfl⟩ | ⟨hso, d, hd, rfl, hib, hbl1, hbl2⟩⟩
  · have hb := mem_neighbors_bounds s.board s.myPawn x (by rw [hN]; exact hme) hq
    rw [hN] at hb
    exact ⟨by simpa [GameState.inBounds] using hb, hqo⟩
  · refine ⟨hso.1, ?_⟩
    have hne := mem_neighbors_ne s.board s.myPawn s.oppPawn hq
    intro heq
    have hr := congrArg Cell.r heq
    have hc := congrArg Cell.c heq
    simp only [GameState.jumpDest] at hr hc
    exact hne (cell_ext _ _ (by omega) (by omega)).symm
  · refine ⟨hib, ?_⟩
    intro heq
    have hr := congrArg Cell.r heq
    have hc := congrArg Cell.c heq
    simp only [jumpDirs, List.mem_cons, List.not_mem_nil, or_false] at hd
    rcases hd with rfl | rfl | rfl | rfl <;> (dsimp only at hr hc; omega)

/-! ## Claim C6: the diagonal-jump branch

The claim (following the spec) says the branch offers exactly the two cells
perpendicular to the jump direction, each conditioned on being in bounds, not
wall-blocked from the opponent cell, and the straight-behind edge being
wall-blocked.  The code differs: it probes all four directions around the
opponent (so the mover's own cell is always offered back), and it never
requires the straight-behind edge to be wall-blocked (the branch also fires
when the straight jump is merely out of bounds). -/

/-- A concrete refutation state: pawns side by side against the right edge of
an empty 9 x 9 board, mover to the left of the opponent. -/
def sC6 : GameState :=
  { board := { N := 9, hWalls := [], vWalls := [], hOwners := [], vOwners := [] }
    N := 9
    pawns := ⟨⟨4, 7⟩, ⟨4, 8⟩⟩
    wallsLeft := ⟨10, 10⟩
    toMove := 0
    history := [] }

/-- C6 counterexample: with the opponent against the board edge, the straight
jump is out of bounds but its edge is NOT wall-blocked, and yet the
perpendicular cell (3,8) is offered; moreover the mover's own cell (4,7) is
offered, which is not one of the two perpendicular cells.  Both contradict
the claim's "exactly ... if and only if ... the straight-behind path ... is
itself wall-blocked". -/
theorem C6_claim_counterexample :
    (sC6.inBounds sC6.jumpDest = false ∧
     sC6.board.blockedEdge sC6.oppPawn sC6.jumpDest = false) ∧
    (⟨3, 8⟩ : Cell) ∈ sC6.legalPawnMoves ∧
    (⟨4, 7⟩ : Cell) ∈ sC6.legalPawnMoves ∧
    (⟨4, 7⟩ : Cell) = sC6.myPawn := by
  decide

/-- C6 amended: when a neighbor holds the opponent and the straight jump is
unavailable (out of bounds or wall-blocked), the cells offered by the jump
branch are exactly the orthogonal side cells of the opponent in the four
probe directions (which include the mover's own cell, and exclude the
straight-behind cell only because it fails these checks) that are in bounds
and not wall-blocked from the opponent's cell; no wall-blocked requirement is
made of the straight-behind path. -/
theorem C6_amended_jump_offers (s : GameState)
    (hadj : s.oppPawn ∈ s.board.neighbors s.myPawn)
    (hns : ¬ s.straightOk) :
    ∀ x : Cell, x ∈ s.legalPawnMoves ↔
      (∃ q ∈ s.board.neighbors s.myPawn, q ≠ s.oppPawn ∧ x = q) ∨
      (∃ d ∈ jumpDirs, x = ⟨s.oppPawn.r + d.r, s.oppPawn.c + d.c⟩ ∧
        s.inBounds x = true ∧ ¬ s.board.blockedEdge s.oppPawn x = true) := by
  intro x
  rw [mem_legalPawnMoves_iff]
  have hbl : ¬ s.board.blockedEdge s.myPawn s.oppPawn = true := by
    have h := mem_neighbors_unblocked _ _ _ hadj
    simp [h]
  constructor
  · rintro (h | ⟨_, ⟨hso, _⟩ | ⟨_, d, hd, hxd, hib, h1, _⟩⟩)
    · exact Or.inl h
    · exact absurd hso hns
    · exact Or.inr ⟨d, hd, hxd, hib, h1⟩
  · rintro (h | ⟨d, hd, hxd, hib, h1⟩)
    · exact Or.inl h
    · exact Or.inr ⟨hadj, Or.inr ⟨hns, d, hd, hxd, hib, h1, hbl⟩⟩

/-- Witness for the amended C6 theorem at the concrete refutation state. -/
theorem C6_amended_jump_offers_witness :
    (sC6.oppPawn ∈ sC6.board.neighbors sC6.myPawn ∧ ¬ sC6.straightOk) ∧
    (∀ x : Cell, x ∈ sC6.legalPawnMoves ↔
      (∃ q ∈ sC6.board.neighbors sC6.myPawn, q ≠ sC6.oppPawn ∧ x = q) ∨
      (∃ d ∈ jumpDirs, x = ⟨sC6.oppPawn.r + d.r, sC6.oppPawn.c + d.c⟩ ∧
        sC6.inBounds x = true ∧ ¬ sC6.board.blockedEdge sC6.oppPawn x = true)) :=
  ⟨⟨by decide, by decide⟩, C6_amended_jump_offers sC6 (by decide) (by decide)⟩

/-- Witness for C10 at the freshly constructed 9 x 9 state. -/
theorem C10_pawn_moves_in_bounds_witness :
    ((GameState.initial 9).board.N = (GameState.initial 9).N ∧
     (GameState.initial 9).inBounds (GameState.initial 9).myPawn = true) ∧
    (∀ x ∈ (GameState.initial 9).legalPawnMoves,
      (GameState.initial 9).inBounds x = true ∧ x ≠ (GameState.initial 9).oppPawn) :=
  ⟨⟨by decide, by decide⟩,
    C10_pawn_moves_in_bounds (GameState.initial 9) (by decide) (by decide)⟩

/-! ## Claims C3, C4, C9: apply and undo -/

/-- pushSnap only touches the history. -/
theorem pushSnap_board (s : GameState) (rh : Bool) : (s.pushSnap rh).board = s.board := by
  cases rh <;> rfl

theorem pushSnap_pawns (s : GameState) (rh : Bool) : (s.pushSnap rh).pawns = s.pawns := by
  cases rh <;> rfl

theorem pushSnap_wallsLeft (s : GameState) (rh : Bool) :
    (s.pushSnap rh).wallsLeft = s.wallsLeft := by
  cases rh <;> rfl

theorem pushSnap_toMove (s : GameState) (rh : Bool) : (s.pushSnap rh).toMove = s.toMove := by
  cases rh <;> rfl

theorem pushSnap_N (s : GameState) (rh : Bool) : (s.pushSnap rh).N = s.N := by
  cases rh <;> rfl

theorem pushSnap_goalRows (s : GameState) (rh : Bool) (p : Fin 2) :
    (s.pushSnap rh).goalRows p = s.goalRows p := by
  cases rh <;> rfl

theorem pushSnap_true (s : GameState) :
    s.pushSnap true = { s with history := s.history ++ [s.snapshot] } := rfl

/-- legalPawnMoves only reads board, pawns, side to move and size, so the
history push does not affect it. -/
theorem pushSnap_legalPawnMoves (s : GameState) (rh : Bool) :
    (s.pushSnap rh).legalPawnMoves = s.legalPawnMoves := by
  cases rh <;> rfl

/-- Anatomy of the PAWN branch of apply. -/
theorem apply_pawn_anatomy (s : GameState) (dst : Cell) (rh : Bool) :
    (s.legalPawnMoves.any (fun p => decide (p.r = dst.r ∧ p.c = dst.c)) = true →
      s.apply (.pawn dst) rh =
        (none, { s.pushSnap rh with
          pawns := s.pawns.set s.toMove ⟨dst.r, dst.c⟩
          toMove := 1 - s.toMove })) ∧
    (¬ s.legalPawnMoves.any (fun p => decide (p.r = dst.r ∧ p.c = dst.c)) = true →
      s.apply (.pawn dst) rh = (some .illegalPawn, s.pushSnap rh)) := by
  unfold GameState.apply
  dsimp only
  simp only [pushSnap_pawns, pushSnap_toMove, pushSnap_legalPawnMoves]
  constructor
  · intro hleg
    rw [if_pos hleg]
  · intro hleg
    rw [if_neg hleg]

/-- Anatomy of the WALL branch of apply: the four disjoint regimes. -/
theorem apply_wall_anatomy (s : GameState) (w : Wall) (rh : Bool) :
    (s.wallsLeft.get s.toMove ≤ 0 →
      s.apply (.wall w) rh = (some .noWallsLeft, s.pushSnap rh)) ∧
    (0 < s.wallsLeft.get s.toMove → s.board.wallLegal w = false →
      s.apply (.wall w) rh = (some .illegalPlacement, s.pushSnap rh)) ∧
    (0 < s.wallsLeft.get s.toMove → s.board.wallLegal w = true →
      ¬ ((s.board.addWall w (some s.toMove)).pathExistsFor (s.pawns.get 0) (s.goalRows 0) = true ∧
         (s.board.addWall w (some s.toMove)).pathExistsFor (s.pawns.get 1) (s.goalRows 1) = true) →
      s.apply (.wall w) rh =
        (some .blocksAllPaths,
          { s.pushSnap rh with board := (s.board.addWall w (some s.toMove)).removeWall w })) ∧
    (0 < s.wallsLeft.get s.toMove → s.board.wallLegal w = true →
      (s.board.addWall w (some s.toMove)).pathExistsFor (s.pawns.get 0) (s.goalRows 0) = true →
      (s.board.addWall w (some s.toMove)).pathExistsFor (s.pawns.get 1) (s.goalRows 1) = true →
      s.apply (.wall w) rh =
        (none, { s.pushSnap rh with
          board := s.board.addWall w (some s.toMove)
          wallsLeft := s.wallsLeft.set s.toMove (s.wallsLeft.get s.toMove - 1)
          toMove := 1 - s.toMove })) := by
  unfold GameState.apply
  dsimp only
  simp only [pushSnap_board, pushSnap_pawns, pushSnap_wallsLeft, pushSnap_toMove,
    pushSnap_goalRows]
  refine ⟨?_, ?_, ?_, ?_⟩
  · intro h0
    rw [if_pos h0]
  · intro h0 hleg
    rw [if_neg (by omega), if_pos (by simp [hleg])]
  · intro h0 hleg hconn
    rw [if_neg (by omega), if_neg (by simp [hleg]),
      if_neg (by simpa [Bool.and_eq_true] using hconn)]
  · intro h0 hleg hp0 hp1
    rw [if_neg (by omega), if_neg (by simp [hleg]),
      if_pos (by simp [Bool.and_eq_true, hp0, hp1])]

/-- addWall does not change the board size. -/
theorem addWall_N (b : Board) (w : Wall) (o : Option (Fin 2)) : (b.addWall w o).N = b.N := by
  rcases w with ⟨r, c, wo⟩
  cases wo <;> rfl

/-- removeWall does not change the board size. -/
theorem removeWall_N (b : Board) (w : Wall) : (b.removeWall w).N = b.N := by
  rcases w with ⟨r, c, wo⟩
  cases wo <;> rfl

/-- Undo on a state whose history ends with a snapshot of s and whose other
fields are arbitrary (board size preserved) restores s exactly. -/
theorem undo_update (s : GameState) (b : Board) (pw : Pawns) (wl : WallCounts)
    (tm : Fin 2) (hN : b.N = s.board.N) :
    GameState.undo
      { board := b
        N := s.N
        pawns := pw
        wallsLeft := wl
        toMove := tm
        history := s.history ++ [s.snapshot] } = s := by
  unfold GameState.undo
  simp only [List.getLast?_concat, List.dropLast_concat]
  unfold GameState.restore GameState.snapshot
  dsimp only
  rw [hN]

/-- Undoing a state that only has one extra snapshot of itself restores it. -/
theorem undo_pushed (s : GameState) :
    GameState.undo { s with history := s.history ++ [s.snapshot] } = s :=
  undo_update s s.board s.pawns s.wallsLeft s.toMove rfl

/-- C3: the WALL branch of apply.  Throws NoWallsLeft first, then
IllegalPlacement on a wallLegal failure, then BlocksAllPaths after retracting
the wall when connectivity breaks; every failure leaves pawns, wall sets,
owner maps, walls-left and side-to-move exactly as before (only the history
push of recordHistory remains); on success the wall is recorded with the
mover as owner, walls-left decrements, and the side to move flips.  The
owner-map rollback in the BlocksAllPaths case relies on owners only existing
for placed walls (BoardWf), which every reachable state satisfies. -/
theorem C3_apply_wall_spec (s : GameState) (w : Wall) (rh : Bool)
    (hwf : BoardWf s.board) :
    (s.wallsLeft.get s.toMove ≤ 0 →
      s.apply (.wall w) rh = (some .noWallsLeft, s.pushSnap rh)) ∧
    (0 < s.wallsLeft.get s.toMove → s.board.wallLegal w = false →
      s.apply (.wall w) rh = (some .illegalPlacement, s.pushSnap rh)) ∧
    (0 < s.wallsLeft.get s.toMove → s.board.wallLegal w = true →
      ¬ ((s.board.addWall w (some s.toMove)).pathExistsFor (s.pawns.get 0) (s.goalRows 0) = true ∧
         (s.board.addWall w (some s.toMove)).pathExistsFor (s.pawns.get 1) (s.goalRows 1) = true) →
      s.apply (.wall w) rh = (some .blocksAllPaths, s.pushSnap rh)) ∧
    (0 < s.wallsLeft.get s.toMove → s.board.wallLegal w = true →
      (s.board.addWall w (some s.toMove)).pathExistsFor (s.pawns.get 0) (s.goalRows 0) = true →
      (s.board.addWall w (some s.toMove)).pathExistsFor (s.pawns.get 1) (s.goalRows 1) = true →
      s.apply (.wall w) rh =
        (none, { s.pushSnap rh with
          board := s.board.addWall w (some s.toMove)
          wallsLeft := s.wallsLeft.set s.toMove (s.wallsLeft.get s.toMove - 1)
          toMove := 1 - s.toMove })) := by
  obtain ⟨h1, h2, h3, h4⟩ := apply_wall_anatomy s w rh
  refine ⟨h1, h2, ?_, h4⟩
  intro h0 hleg hconn
  rw [h3 h0 hleg hconn, removeWall_addWall _ _ _ hwf hleg]
  cases rh <;> rfl

/-- C4: a successful recorded apply followed by undo restores the state
exactly (pawns, wall sets, owner maps, walls-left, side-to-move, and the
history back at its previous length). -/
theorem C4_apply_then_undo (s s2 : GameState) (mv : Move)
    (h : s.apply mv true = (none, s2)) :
    s2.undo = s ∧ s2.history.length = s.history.length + 1 := by
  cases mv with
  | pawn dst =>
    by_cases hleg : s.legalPawnMoves.any (fun p => decide (p.r = dst.r ∧ p.c = dst.c)) = true
    · rw [(apply_pawn_anatomy s dst true).1 hleg, Prod.mk.injEq, pushSnap_true] at h
      rw [← h.2]
      exact ⟨undo_update s s.board _ _ _ rfl, by simp⟩
    · rw [(apply_pawn_anatomy s dst true).2 hleg] at h
      simp at h
  | wall w =>
    obtain ⟨h1, h2, h3, h4⟩ := apply_wall_anatomy s w true
    by_cases h0 : s.wallsLeft.get s.toMove ≤ 0
    · rw [h1 h0] at h
      simp at h
    · have h0lt : 0 < s.wallsLeft.get s.toMove := by omega
      by_cases hleg : s.board.wallLegal w = true
      · by_cases hc :
          (s.board.addWall w (some s.toMove)).pathExistsFor (s.pawns.get 0) (s.goalRows 0) = true ∧
          (s.board.addWall w (some s.toMove)).pathExistsFor (s.pawns.get 1) (s.goalRows 1) = true
        · rw [h4 h0lt hleg hc.1 hc.2, Prod.mk.injEq, pushSnap_true] at h
          rw [← h.2]
          exact ⟨undo_update s _ _ _ _ (addWall_N s.board w (some s.toMove)), by simp⟩
        · rw [h3 h0lt hleg hc] at h
          simp at h
      · rw [h2 h0lt (by simpa using hleg)] at h
        simp at h

/-- C9: a recorded apply that throws still appends one snapshot of the
pre-call state to history and changes nothing else, and undo then restores
the exact pre-call state.  The BlocksAllPaths rollback of the owner map
relies on BoardWf, as in C3. -/
theorem C9_apply_error_state (s s2 : GameState) (mv : Move) (e : ApplyError)
    (hwf : BoardWf s.board)
    (h : s.apply mv true = (some e, s2)) :
    s2 = { s with history := s.history ++ [s.snapshot] } ∧ s2.undo = s := by
  have hmain : s2 = { s with history := s.history ++ [s.snapshot] } := by
    cases mv with
    | pawn dst =>
      by_cases hleg : s.legalPawnMoves.any (fun p => decide (p.r = dst.r ∧ p.c = dst.c)) = true
      · rw [(apply_pawn_anatomy s dst true).1 hleg] at h
        simp at h
      · rw [(apply_pawn_anatomy s dst true).2 hleg, Prod.mk.injEq, pushSnap_true] at h
        exact h.2.symm
    | wall w =>
      obtain ⟨h1, h2, h3, h4⟩ := apply_wall_anatomy s w true
      by_cases h0 : s.wallsLeft.get s.toMove ≤ 0
      · rw [h1 h0, Prod.mk.injEq, pushSnap_true] at h
        exact h.2.symm
      · have h0lt : 0 < s.wallsLeft.get s.toMove := by omega
        by_cases hleg : s.board.wallLegal w = true
        · by_cases hc :
            (s.board.addWall w (some s.toMove)).pathExistsFor (s.pawns.get 0) (s.goalRows 0) = true ∧
            (s.board.addWall w (some s.toMove)).pathExistsFor (s.pawns.get 1) (s.goalRows 1) = true
          · rw [h4 h0lt hleg hc.1 hc.2] at h
            simp at h
          · rw [h3 h0lt hleg hc, removeWall_addWall _ _ _ hwf hleg, Prod.mk.injEq,
              pushSnap_true] at h
            exact h.2.symm
        · rw [h2 h0lt (by simpa using hleg), Prod.mk.injEq, pushSnap_true] at h
          exact h.2.symm
  refine ⟨hmain, ?_⟩
  rw [hmain]
  exact undo_pushed s

/-- Witness for C3 at a fresh 2 x 2 state and the wall (0,0,H). -/
theorem C3_apply_wall_spec_witness :
    BoardWf (GameState.initial 2).board ∧
    (((GameState.initial 2).wallsLeft.get (GameState.initial 2).toMove ≤ 0 →
      (GameState.initial 2).apply (.wall ⟨0, 0, .H⟩) true =
        (some .noWallsLeft, (GameState.initial 2).pushSnap true)) ∧
    (0 < (GameState.initial 2).wallsLeft.get (GameState.initial 2).toMove →
      (GameState.initial 2).board.wallLegal ⟨0, 0, .H⟩ = false →
      (GameState.initial 2).apply (.wall ⟨0, 0, .H⟩) true =
        (some .illegalPlacement, (GameState.initial 2).pushSnap true)) ∧
    (0 < (GameState.initial 2).wallsLeft.get (GameState.initial 2).toMove →
      (GameState.initial 2).board.wallLegal ⟨0, 0, .H⟩ = true →
      ¬ (((GameState.initial 2).board.addWall ⟨0, 0, .H⟩ (some (GameState.initial 2).toMove)).pathExistsFor
            ((GameState.initial 2).pawns.get 0) ((GameState.initial 2).goalRows 0) = true ∧
         ((GameState.initial 2).board.addWall ⟨0, 0, .H⟩ (some (GameState.initial 2).toMove)).pathExistsFor
            ((GameState.initial 2).pawns.get 1) ((GameState.initial 2).goalRows 1) = true) →
      (GameState.initial 2).apply (.wall ⟨0, 0, .H⟩) true =
        (some .blocksAllPaths, (GameState.initial 2).pushSnap true)) ∧
    (0 < (GameState.initial 2).wallsLeft.get (GameState.initial 2).toMove →
      (GameState.initial 2).board.wallLegal ⟨0, 0, .H⟩ = true →
      ((GameState.initial 2).board.addWall ⟨0, 0, .H⟩ (some (GameState.initial 2).toMove)).pathExistsFor
          ((GameState.initial 2).pawns.get 0) ((GameState.initial 2).goalRows 0) = true →
      ((GameState.initial 2).board.addWall ⟨0, 0, .H⟩ (some (GameState.initial 2).toMove)).pathExistsFor
          ((GameState.initial 2).pawns.get 1) ((GameState.initial 2).goalRows 1) = true →
      (GameState.initial 2).apply (.wall ⟨0, 0, .H⟩) true =
        (none, { (GameState.initial 2).pushSnap true with
          board := (GameState.initial 2).board.addWall ⟨0, 0, .H⟩ (some (GameState.initial 2).toMove)
          wallsLeft := (GameState.initial 2).wallsLeft.set (GameState.initial 2).toMove
            ((GameState.initial 2).wallsLeft.get (GameState.initial 2).toMove - 1)
          toMove := 1 - (GameState.initial 2).toMove }))) :=
  ⟨by decide, C3_apply_wall_spec (GameState.initial 2) ⟨0, 0, .H⟩ true (by decide)⟩

/-- Witness for C4: a legal pawn move applied to a fresh 2 x 2 state. -/
theorem C4_apply_then_undo_witness :
    (GameState.initial 2).apply (Move.pawn ⟨1, 0⟩) true =
      (none, ((GameState.initial 2).apply (Move.pawn ⟨1, 0⟩) true).2) ∧
    (((GameState.initial 2).apply (Move.pawn ⟨1, 0⟩) true).2.undo = GameState.initial 2 ∧
      ((GameState.initial 2).apply (Move.pawn ⟨1, 0⟩) true).2.history.length =
        (GameState.initial 2).history.length + 1) :=
  ⟨by decide,
    C4_apply_then_undo (GameState.initial 2)
      (((GameState.initial 2).apply (Move.pawn ⟨1, 0⟩) true).2) (Move.pawn ⟨1, 0⟩)
      (by decide)⟩

/-- Witness for C9: an illegal pawn move (onto the opponent) applied to a
fresh 2 x 2 state. -/
theorem C9_apply_error_state_witness :
    (BoardWf (GameState.initial 2).board ∧
      (GameState.initial 2).apply (Move.pawn ⟨1, 1⟩) true =
        (some .illegalPawn, ((GameState.initial 2).apply (Move.pawn ⟨1, 1⟩) true).2)) ∧
    (((GameState.initial 2).apply (Move.pawn ⟨1, 1⟩) true).2 =
        { GameState.initial 2 with
          history := (GameState.initial 2).history ++ [(GameState.initial 2).snapshot] } ∧
      ((GameState.initial 2).apply (Move.pawn ⟨1, 1⟩) true).2.undo = GameState.initial 2) :=
  ⟨⟨by decide, by decide⟩,
    C9_apply_error_state (GameState.initial 2)
      (((GameState.initial 2).apply (Move.pawn ⟨1, 1⟩) true).2) (Move.pawn ⟨1, 1⟩)
      ApplyError.illegalPawn (by decide) (by decide)⟩

/-! ## Machinery for the search claims (C2, C7)

The connectivity probes only read the wall sets and the board size, never the
owner maps, so the probe board (wall added without owner) and the committed
board (wall added with owner) agree on connectivity. -/

theorem blockedEdge_congr (b1 b2 : Board) (hh : b1.hWalls = b2.hWalls)
    (hv : b1.vWalls = b2.vWalls) (a q : Cell) :
    b1.blockedEdge a q = b2.blockedEdge a q := by
  unfold Board.blockedEdge
  rw [hh, hv]

theorem neighbors_congr (b1 b2 : Board) (hN : b1.N = b2.N) (hh : b1.hWalls = b2.hWalls)
    (hv : b1.vWalls = b2.vWalls) (p : Cell) : b1.neighbors p = b2.neighbors p := by
  unfold Board.neighbors
  rw [hN]
  have hf : (fun q => ! b1.blockedEdge p q) = (fun q => ! b2.blockedEdge p q) := by
    funext q
    rw [blockedEdge_congr b1 b2 hh hv]
  rw [hf]

theorem bfsAux_congr (b1 b2 : Board) (hN : b1.N = b2.N) (hh : b1.hWalls = b2.hWalls)
    (hv : b1.vWalls = b2.vWalls) (g : List Int) :
    ∀ fuel q seen, b1.bfsAux g fuel q seen = b2.bfsAux g fuel q seen := by
  intro fuel
  induction fuel with
  | zero =>
    intro q seen
    cases q <;> rfl
  | succ f ih =>
    intro q seen
    cases q with
    | nil => rfl
    | cons e t =>
      rcases e with ⟨u, d⟩
      unfold Board.bfsAux
      rw [neighbors_congr b1 b2 hN hh hv]
      by_cases hg : u.r ∈ g
      · rw [if_pos hg, if_pos hg]
      · rw [if_neg hg, if_neg hg]
        exact ih _ _

theorem bfsDistToGoal_congr (b1 b2 : Board) (hN : b1.N = b2.N)
    (hh : b1.hWalls = b2.hWalls) (hv : b1.vWalls = b2.vWalls) (start : Cell)
    (g : List Int) : b1.bfsDistToGoal start g = b2.bfsDistToGoal start g := by
  unfold Board.bfsDistToGoal Board.bfsFuel
  rw [hN]
  exact bfsAux_congr b1 b2 hN hh hv g _ _ _

theorem pathExistsFor_congr (b1 b2 : Board) (hN : b1.N = b2.N)
    (hh : b1.hWalls = b2.hWalls) (hv : b1.vWalls = b2.vWalls) (start : Cell)
    (g : List Int) : b1.pathExistsFor start g = b2.pathExistsFor start g := by
  unfold Board.pathExistsFor
  rw [bfsDistToGoal_congr b1 b2 hN hh hv]

/-- The owner argument does not change the wall sets or the size. -/
theorem addWall_walls (b : Board) (w : Wall) (o : Option (Fin 2)) :
    (b.addWall w o).hWalls = (b.addWall w none).hWalls ∧
    (b.addWall w o).vWalls = (b.addWall w none).vWalls ∧
    (b.addWall w o).N = (b.addWall w none).N := by
  rcases w with ⟨r, c, wo⟩
  cases wo <;> cases o <;> exact ⟨rfl, rfl, rfl⟩

/-- What membership in legalWallMoves gives: walls in hand, wallLegal, and
both connectivity probes passing on the tentatively extended board. -/
theorem mem_legalWallMoves (s : GameState) (w : Wall) (h : w ∈ s.legalWallMoves) :
    0 < s.wallsLeft.get s.toMove ∧ s.board.wallLegal w = true ∧
    ((s.board.addWall w none).pathExistsFor (s.pawns.get 0) (s.goalRows 0) &&
     (s.board.addWall w none).pathExistsFor (s.pawns.get 1) (s.goalRows 1)) = true := by
  unfold GameState.legalWallMoves at h
  split_ifs at h with h0
  · simp at h
  · rcases List.mem_flatMap.mp h with ⟨r, _, h⟩
    rcases List.mem_flatMap.mp h with ⟨c, _, h⟩
    rcases List.mem_filterMap.mp h with ⟨o, _, hfo⟩
    refine ⟨by omega, ?_⟩
    by_cases hleg : s.board.wallLegal ⟨r, c, o⟩ = true
    · rw [if_neg (by simp [hleg])] at hfo
      dsimp only at hfo
      split_ifs at hfo with hprobe
      obtain rfl := Option.some_inj.mp hfo
      exact ⟨hleg, hprobe⟩
    · rw [if_pos (by simp [hleg])] at hfo
      simp at hfo

/-- A legal move never throws inside apply. -/
theorem apply_legal_ok (st : GameState) (mv : Move) (h : mv ∈ st.legalMoves) :
    (st.apply mv false).1 = none := by
  unfold GameState.legalMoves at h
  rcases List.mem_append.mp h with hp | hw
  · rcases List.mem_map.mp hp with ⟨dst, hdst, rfl⟩
    have hany : st.legalPawnMoves.any (fun p => decide (p.r = dst.r ∧ p.c = dst.c)) = true := by
      rw [List.any_eq_true]
      exact ⟨dst, hdst, by simp⟩
    rw [(apply_pawn_anatomy st dst false).1 hany]
  · rcases List.mem_map.mp hw with ⟨w, hwm, rfl⟩
    obtain ⟨h0, hleg, hprobe⟩ := mem_legalWallMoves st w hwm
    obtain ⟨hh, hv, hN⟩ := addWall_walls st.board w (some st.toMove)
    rw [Bool.and_eq_true] at hprobe
    have hp0 : (st.board.addWall w (some st.toMove)).pathExistsFor
        (st.pawns.get 0) (st.goalRows 0) = true := by
      rw [pathExistsFor_congr _ _ hN hh hv]
      exact hprobe.1
    have hp1 : (st.board.addWall w (some st.toMove)).pathExistsFor
        (st.pawns.get 1) (st.goalRows 1) = true := by
      rw [pathExistsFor_congr _ _ hN hh hv]
      exact hprobe.2
    rw [(apply_wall_anatomy st w false).2.2.2 h0 hleg hp0 hp1]

/-- Transient exploration is exactly undone: applying any move with the
history left alone and then restoring the prior snapshot gives back the very
same state. -/
theorem apply_restore (st : GameState) (mv : Move) :
    ((st.apply mv false).2).restore st.snapshot = st := by
  cases mv with
  | pawn dst =>
    unfold GameState.apply
    dsimp only
    split_ifs <;> rfl
  | wall w =>
    rcases w with ⟨r, c, o⟩
    unfold GameState.apply
    dsimp only
    cases o <;> (split_ifs <;> rfl)

theorem insertDesc_perm (x : ℚ × Move) (l : List (ℚ × Move)) :
    (insertDesc x l).Perm (x :: l) := by
  induction l with
  | nil => exact List.Perm.refl _
  | cons y t ih =>
    unfold insertDesc
    split_ifs
    · exact (ih.cons y).trans (List.Perm.swap x y t)
    · exact List.Perm.refl _

theorem sortDesc_perm (l : List (ℚ × Move)) : (sortDesc l).Perm l := by
  induction l with
  | nil => exact List.Perm.refl _
  | cons x t ih =>
    unfold sortDesc
    simp only [List.foldr_cons]
    exact (insertDesc_perm x _).trans (ih.cons x)

/-- The score loop returns normally, leaves the state as it found it, and
scores exactly the input moves in order (appended to the accumulator). -/
theorem scoreLoop_spec (me you : Fin 2) (myGoal oppGoal : List Int) (sp : PathStep)
    (back : Option Cell) (recent : List Cell) :
    ∀ (mvs : List Move) (st : GameState) (acc : List (ℚ × Move)),
      (∀ mv ∈ mvs, mv ∈ st.legalMoves) →
      ∃ scored,
        scoreLoop me you myGoal oppGoal sp back recent mvs st acc = .ok scored st ∧
        scored.map (fun p => p.2) = acc.map (fun p => p.2) ++ mvs := by
  intro mvs
  induction mvs with
  | nil =>
    intro st acc _
    exact ⟨acc, rfl, by simp⟩
  | cons mv rest ih =>
    intro st acc h
    have hok := apply_legal_ok st mv (h mv (List.mem_cons_self _ _))
    have hres := apply_restore st mv
    unfold scoreLoop
    rcases happ : st.apply mv false with ⟨oe, st1⟩
    rw [happ] at hok hres
    dsimp only at hok hres
    subst hok
    dsimp only
    rw [hres]
    obtain ⟨scored, hrun, hmap⟩ :=
      ih st (acc ++ [(scoreOf st1 me you myGoal oppGoal sp back recent mv, mv)])
        (fun m hm => h m (List.mem_cons_of_mem _ hm))
    refine ⟨scored, hrun, ?_⟩
    rw [hmap]
    simp

/-- orderedMoves returns normally, leaves the state as it found it, and every
returned move is legal in that state. -/
theorem orderedMovesSt_spec (s : GameState) :
    ∃ mvs, orderedMovesSt s = .ok mvs s ∧ ∀ m ∈ mvs, m ∈ s.legalMoves := by
  unfold orderedMovesSt
  dsimp only
  obtain ⟨scored, hrun, hmap⟩ :=
    scoreLoop_spec s.toMove (1 - s.toMove) (s.goalRows s.toMove) (s.goalRows (1 - s.toMove))
      (s.shortestPathNext s.toMove) (backSquare s s.toMove)
      (recentMySquares s.history s.toMove 6) s.legalMoves s [] (fun _ hm => hm)
  rw [hrun]
  refine ⟨_, rfl, ?_⟩
  intro m hm
  rcases List.mem_map.mp hm with ⟨p, hp, rfl⟩
  have hmem : p ∈ scored := (sortDesc_perm scored).mem_iff.mp hp
  have : p.2 ∈ scored.map (fun p => p.2) := List.mem_map_of_mem _ hmem
  rw [hmap] at this
  simpa using this

/-- The negamax move loop: given a recursion that returns normally preserving
state and seen set, the loop does too, and its best move is the input best or
one of the looped moves. -/
theorem negaLoop_spec
    (recur : GameState → XQ → XQ → List PosKeyT → SRes ((XQ × Option Move) × List PosKeyT))
    (Hrec : ∀ st2 a b sn, ∃ v bm, recur st2 a b sn = .ok ((v, bm), sn) st2) :
    ∀ (mvs : List Move) (st : GameState) (alpha beta bv : XQ) (bm : Option Move)
      (seen : List PosKeyT),
      (∀ mv ∈ mvs, mv ∈ st.legalMoves) →
      ∃ v2 bm2,
        negaLoop recur mvs st alpha beta bv bm seen = .ok ((v2, bm2), seen) st ∧
        (bm2 = bm ∨ ∃ m ∈ mvs, bm2 = some m) := by
  intro mvs
  induction mvs with
  | nil =>
    intro st alpha beta bv bm seen _
    exact ⟨bv, bm, rfl, Or.inl rfl⟩
  | cons mv rest ih =>
    intro st alpha beta bv bm seen h
    have hok := apply_legal_ok st mv (h mv (List.mem_cons_self _ _))
    have hres := apply_restore st mv
    unfold negaLoop
    rcases happ : st.apply mv false with ⟨oe, st1⟩
    rw [happ] at hok hres
    dsimp only at hok hres
    subst hok
    dsimp only
    obtain ⟨v, bm1, hrec⟩ := Hrec st1 beta.neg alpha.neg seen
    rw [hrec]
    dsimp only
    rw [hres]
    generalize hbm2g : (if XQ.blt bv v.neg = true then some mv else bm) = bm2
    have hbm2 : bm2 = bm ∨ bm2 = some mv := by
      rw [← hbm2g]
      split_ifs
      · exact Or.inr rfl
      · exact Or.inl rfl
    split_ifs <;> first
      | (refine ⟨_, bm2, rfl, ?_⟩
         rcases hbm2 with hb | hb
         · exact Or.inl hb
         · exact Or.inr ⟨mv, List.mem_cons_self _ _, hb⟩)
      | (obtain ⟨v2, bm3, hloop, hprop⟩ :=
           ih st _ beta _ bm2 seen (fun m hm => h m (List.mem_cons_of_mem _ hm))
         refine ⟨v2, bm3, hloop, ?_⟩
         rcases hprop with hb | ⟨m, hm, hb⟩
         · rcases hbm2 with hc | hc
           · exact Or.inl (hb.trans hc)
           · exact Or.inr ⟨mv, List.mem_cons_self _ _, hb.trans hc⟩
         · exact Or.inr ⟨m, List.mem_cons_of_mem _ hm, hb⟩)

/-- negamax returns normally, restores the seen set, leaves the state as it
found it, and its move (when not null) is legal in that state. -/
theorem negamaxSt_spec :
    ∀ (depth : ℕ) (st : GameState) (alpha beta : XQ) (seen : List PosKeyT),
      ∃ v bm,
        negamaxSt st depth alpha beta seen = .ok ((v, bm), seen) st ∧
        (bm = none ∨ ∃ m ∈ st.legalMoves, bm = some m) := by
  intro depth
  induction depth with
  | zero =>
    intro st alpha beta seen
    unfold negamaxSt
    dsimp only
    by_cases hk : st.posKey ∈ seen
    · rw [if_pos hk]
      exact ⟨_, none, rfl, Or.inl rfl⟩
    · rw [if_neg hk]
      rcases hw : st.winner with _ | w <;>
        (simp only [hw]
         rw [jsErase_concat _ _ hk]
         exact ⟨_, none, rfl, Or.inl rfl⟩)
  | succ d ih =>
    intro st alpha beta seen
    unfold negamaxSt
    dsimp only
    by_cases hk : st.posKey ∈ seen
    · rw [if_pos hk]
      exact ⟨_, none, rfl, Or.inl rfl⟩
    · rw [if_neg hk]
      rcases hw : st.winner with _ | w
      · simp only [hw]
        obtain ⟨mvs, hord, hmem⟩ := orderedMovesSt_spec st
        rw [hord]
        dsimp only
        have Hrec : ∀ st2 a b sn, ∃ v bm,
            negamaxSt st2 d a b sn = .ok ((v, bm), sn) st2 := by
          intro st2 a b sn
          obtain ⟨v, bm, heq, _⟩ := ih st2 a b sn
          exact ⟨v, bm, heq⟩
        obtain ⟨v2, bm2, hloop, hprop⟩ :=
          negaLoop_spec _ Hrec mvs st alpha beta .ninf none (seen ++ [st.posKey]) hmem
        rw [hloop]
        dsimp only
        rw [jsErase_concat _ _ hk]
        refine ⟨v2, bm2, rfl, ?_⟩
        rcases hprop with hb | ⟨m, hm, hb⟩
        · exact Or.inl hb
        · exact Or.inr ⟨m, hmem m hm, hb⟩
      · simp only [hw]
        rw [jsErase_concat _ _ hk]
        exact ⟨_, none, rfl, Or.inl rfl⟩

/-- Iterative deepening returns normally, leaves the state as it found it,
and its best move is the input best or a legal move. -/
theorem idLoop_spec (timeUp : ℕ → Bool) :
    ∀ (ds : List ℕ) (st : GameState) (best : Option Move),
      ∃ best2,
        idLoop timeUp ds st best = .ok best2 st ∧
        (best2 = best ∨ ∃ m ∈ st.legalMoves, best2 = some m) := by
  intro ds
  induction ds with
  | nil =>
    intro st best
    exact ⟨best, rfl, Or.inl rfl⟩
  | cons d rest ih =>
    intro st best
    unfold idLoop
    obtain ⟨v, bm, hng, hprop⟩ := negamaxSt_spec d st .ninf .pinf []
    rw [hng]
    dsimp only
    rcases bm with _ | m
    · dsimp only
      split_ifs with ht
      · exact ⟨best, rfl, Or.inl rfl⟩
      · exact ih st best
    · dsimp only
      have hm : m ∈ st.legalMoves := by
        rcases hprop with hb | ⟨m2, hm2, hb⟩
        · cases hb
        · cases Option.some_inj.mp hb
          exact hm2
      split_ifs with ht
      · exact ⟨some m, rfl, Or.inr ⟨m, hm, rfl⟩⟩
      · obtain ⟨best2, hloop, hprop2⟩ := ih st (some m)
        refine ⟨best2, hloop, ?_⟩
        rcases hprop2 with hb | hb
        · exact Or.inr ⟨m, hm, hb⟩
        · exact Or.inr hb

/-- C7: searchWithTime leaves the caller's state observably unchanged: the
returned state (after all transient apply/restore exploration) equals the
input state in every field, including the permanent history log, and no
apply failure escapes. -/
theorem C7_search_preserves_state (s : GameState) (maxDepth : ℕ) (timeUp : ℕ → Bool) :
    (searchWithTimeSt s maxDepth timeUp).state = s ∧
    (searchWithTimeSt s maxDepth timeUp).isOk = true := by
  unfold searchWithTimeSt
  dsimp only
  by_cases hwl : s.wallsLeft.get s.toMove ≤ 0
  · rw [if_pos hwl]
    rcases hnext : (s.shortestPathNext s.toMove).next with _ | nx
    · dsimp only
      obtain ⟨best2, hloop, _⟩ := idLoop_spec timeUp (List.range' 1 maxDepth) s none
      rw [hloop]
      exact ⟨rfl, rfl⟩
    · dsimp only
      split_ifs with hany
      · exact ⟨rfl, rfl⟩
      · obtain ⟨best2, hloop, _⟩ := idLoop_spec timeUp (List.range' 1 maxDepth) s none
        rw [hloop]
        exact ⟨rfl, rfl⟩
  · rw [if_neg hwl]
    dsimp only
    obtain ⟨best2, hloop, _⟩ := idLoop_spec timeUp (List.range' 1 maxDepth) s none
    rw [hloop]
    exact ⟨rfl, rfl⟩

/-- The iterative-deepening tail of searchWithTime returns a legal move when
any legal move exists. -/
theorem searchTail_spec (s : GameState) (maxDepth : ℕ) (timeUp : ℕ → Bool)
    (h : s.legalMoves ≠ []) :
    ∃ m, (match idLoop timeUp (List.range' 1 maxDepth) s none with
      | SRes.err e stE => SRes.err e stE
      | SRes.ok best st1 =>
        SRes.ok (match best with
          | some bm => some bm
          | none => st1.legalMoves.head?) st1) = SRes.ok (some m) s ∧
      m ∈ s.legalMoves := by
  obtain ⟨best2, hloop, hprop⟩ := idLoop_spec timeUp (List.range' 1 maxDepth) s none
  rw [hloop]
  rcases best2 with _ | m
  · rcases hL : s.legalMoves with _ | ⟨m0, t⟩
    · exact absurd hL h
    · exact ⟨m0, by simp [hL], by simp [hL]⟩
  · have hm : m ∈ s.legalMoves := by
      rcases hprop with hb | ⟨m2, hm2, hb⟩
      · cases hb
      · cases Option.some_inj.mp hb
        exact hm2
    exact ⟨m, rfl, hm⟩

/-- C2: when the state has at least one legal move, searchWithTime returns a
move from that state's legal-move set (and leaves the state unchanged). -/
theorem C2_search_returns_legal (s : GameState) (maxDepth : ℕ) (timeUp : ℕ → Bool)
    (h : s.legalMoves ≠ []) :
    ∃ m, searchWithTimeSt s maxDepth timeUp = SRes.ok (some m) s ∧ m ∈ s.legalMoves := by
  unfold searchWithTimeSt
  dsimp only
  by_cases hwl : s.wallsLeft.get s.toMove ≤ 0
  · rw [if_pos hwl]
    rcases hnext : (s.shortestPathNext s.toMove).next with _ | nx
    · exact searchTail_spec s maxDepth timeUp h
    · dsimp only
      split_ifs with hany
      · refine ⟨.pawn nx, rfl, ?_⟩
        rcases List.any_eq_true.mp hany with ⟨p, hp, hdec⟩
        rw [decide_eq_true_eq] at hdec
        have : p = nx := cell_ext p nx hdec.1 hdec.2
        subst this
        unfold GameState.legalMoves
        exact List.mem_append.mpr (Or.inl (List.mem_map_of_mem _ hp))
      · exact searchTail_spec s maxDepth timeUp h
  · rw [if_neg hwl]
    exact searchTail_spec s maxDepth timeUp h

/-- Witness for C2 at a fresh 2 x 2 state with depth 0 and no time budget. -/
theorem C2_search_returns_legal_witness :
    (GameState.initial 2).legalMoves ≠ [] ∧
    (∃ m, searchWithTimeSt (GameState.initial 2) 0 (fun _ => false) =
        SRes.ok (some m) (GameState.initial 2) ∧ m ∈ (GameState.initial 2).legalMoves) :=
  ⟨by decide, C2_search_returns_legal (GameState.initial 2) 0 (fun _ => false) (by decide)⟩

/-! ## Graph reachability and BFS correctness

Mathematical specification of the neighbor graph, against which the BFS and
A* loops are verified.  Walks follow the (directed) neighbor relation; on
in-bounds cells it is symmetric. -/

/-- One unblocked orthogonal step. -/
def Board.Adj (b : Board) (u v : Cell) : Prop := v ∈ b.neighbors u

/-- Walks of a given length in the neighbor graph. -/
inductive WalkN (b : Board) : ℕ → Cell → Cell → Prop
  | refl (u : Cell) : WalkN b 0 u u
  | cons {u v w : Cell} {n : ℕ} : b.Adj u v → WalkN b n v w → WalkN b (n + 1) u w

/-- The exact graph distance. -/
def IsDist (b : Board) (s u : Cell) (d : ℕ) : Prop :=
  WalkN b d s u ∧ ∀ m, WalkN b m s u → d ≤ m

/-- The exact least distance from s to any cell on a goal row. -/
def IsLeastGoalDist (b : Board) (s : Cell) (g : List Int) (d : ℕ) : Prop :=
  (∃ z, z.r ∈ g ∧ WalkN b d s z) ∧ ∀ m z, z.r ∈ g → WalkN b m s z → d ≤ m

/-- In-bounds predicate at the Board level. -/
abbrev InB (b : Board) (p : Cell) : Prop :=
  0 ≤ p.r ∧ p.r < b.N ∧ 0 ≤ p.c ∧ p.c < b.N

theorem WalkN.append {b : Board} {m n : ℕ} {u v w : Cell}
    (h1 : WalkN b m u v) (h2 : WalkN b n v w) : WalkN b (m + n) u w := by
  induction h1 with
  | refl => simpa using h2
  | cons ha _ ih =>
    have := WalkN.cons ha (ih h2)
    simpa [Nat.add_right_comm] using this

theorem WalkN.single {b : Board} {u v : Cell} (h : b.Adj u v) : WalkN b 1 u v :=
  WalkN.cons h (WalkN.refl v)

/-- Decompose a walk at its last edge. -/
theorem WalkN.snoc_iff (b : Board) (n : ℕ) (s z : Cell) :
    WalkN b (n + 1) s z ↔ ∃ y, WalkN b n s y ∧ b.Adj y z := by
  constructor
  · intro h
    induction n generalizing s with
    | zero =>
      rcases h with _ | ⟨ha, htail⟩
      rcases htail with _ | _
      · exact ⟨s, WalkN.refl s, ha⟩
    | succ k ih =>
      rcases h with _ | ⟨ha, htail⟩
      rcases ih _ htail with ⟨y, hy, hadj⟩
      exact ⟨y, WalkN.cons ha hy, hadj⟩
  · rintro ⟨y, hy, hadj⟩
    have := hy.append (WalkN.single hadj)
    simpa using this

/-- Walks started at an in-bounds cell stay in bounds. -/
theorem WalkN.inB {b : Board} {n : ℕ} {s z : Cell} (h : WalkN b n s z) (hs : InB b s) :
    InB b z := by
  induction h with
  | refl => exact hs
  | cons ha _ ih => exact ih (mem_neighbors_bounds _ _ _ hs ha)

/-- The in-bounds cells as a finite set. -/
def gridFinset (b : Board) : Finset Cell :=
  ((Finset.Icc 0 (b.N - 1)) ×ˢ (Finset.Icc 0 (b.N - 1))).image (fun rc => Cell.mk rc.1 rc.2)

theorem mem_gridFinset (b : Board) (z : Cell) : z ∈ gridFinset b ↔ InB b z := by
  unfold gridFinset InB
  simp only [Finset.mem_image, Finset.mem_product, Finset.mem_Icc, Prod.exists]
  constructor
  · rintro ⟨r, c, ⟨⟨h1, h2⟩, h3, h4⟩, rfl⟩
    refine ⟨?_, ?_, ?_, ?_⟩ <;> (dsimp only; omega)
  · rintro ⟨h1, h2, h3, h4⟩
    exact ⟨z.r, z.c, ⟨⟨h1, by omega⟩, h3, by omega⟩, rfl⟩

theorem gridFinset_card_le (b : Board) : (gridFinset b).card ≤ b.N.toNat * b.N.toNat := by
  classical
  calc (gridFinset b).card
      ≤ ((Finset.Icc 0 (b.N - 1)) ×ˢ (Finset.Icc 0 (b.N - 1))).card := Finset.card_image_le
    _ = (Finset.Icc (0 : ℤ) (b.N - 1)).card * (Finset.Icc (0 : ℤ) (b.N - 1)).card :=
        Finset.card_product _ _
    _ ≤ b.N.toNat * b.N.toNat := by
        have : (Finset.Icc (0 : ℤ) (b.N - 1)).card = (b.N - 1 + 1 - 0).toNat := Int.card_Icc _ _
        rw [this]
        have : (b.N - 1 + 1 - 0).toNat = b.N.toNat := by omega
        rw [this]

/-- Number of in-bounds cells not yet seen. -/
def unseenCount (b : Board) (seen : List Cell) : ℕ :=
  ((gridFinset b).filter (fun z => z ∉ seen)).card

theorem unseenCount_le (b : Board) (seen : List Cell) :
    unseenCount b seen ≤ b.N.toNat * b.N.toNat :=
  le_trans (Finset.card_filter_le _ _) (gridFinset_card_le b)

/-- Appending fresh in-bounds cells to seen decreases the unseen count by
exactly their number. -/
theorem unseenCount_append (b : Board) (seen nw : List Cell) (hnd : nw.Nodup)
    (hfresh : ∀ v ∈ nw, v ∉ seen) (hin : ∀ v ∈ nw, InB b v) :
    unseenCount b seen = unseenCount b (seen ++ nw) + nw.length := by
  classical
  have hdisj : Disjoint ((gridFinset b).filter (fun z => z ∉ seen ++ nw)) nw.toFinset := by
    rw [Finset.disjoint_left]
    intro z hz hzn
    rw [Finset.mem_filter] at hz
    exact hz.2 (List.mem_append.mpr (Or.inr (List.mem_toFinset.mp hzn)))
  have hsplit : (gridFinset b).filter (fun z => z ∉ seen) =
      ((gridFinset b).filter (fun z => z ∉ seen ++ nw)) ∪ nw.toFinset := by
    ext z
    rw [Finset.mem_union, Finset.mem_filter, Finset.mem_filter, List.mem_toFinset]
    constructor
    · rintro ⟨hz, hns⟩
      by_cases hzn : z ∈ nw
      · exact Or.inr hzn
      · refine Or.inl ⟨hz, ?_⟩
        rw [List.mem_append]
        tauto
    · rintro (⟨hz, hns⟩ | hzn)
      · refine ⟨hz, fun hc => hns ?_⟩
        rw [List.mem_append]
        exact Or.inl hc
      · exact ⟨(mem_gridFinset b z).mpr (hin z hzn), hfresh z hzn⟩
  unfold unseenCount
  rw [hsplit, Finset.card_union_of_disjoint hdisj, List.toFinset_card_of_nodup hnd]

theorem bfsAux_nil (b : Board) (g : List Int) (fuel : ℕ) (seen : List Cell) :
    b.bfsAux g fuel [] seen = none := by
  cases fuel <;> rfl

theorem bfsAux_cons (b : Board) (g : List Int) (fuel : ℕ) (u : Cell) (d : ℕ)
    (t : List (Cell × ℕ)) (seen : List Cell) :
    b.bfsAux g (fuel + 1) ((u, d) :: t) seen =
      if u.r ∈ g then some d
      else
        b.bfsAux g fuel
          ((b.neighbors u).foldl
            (fun (st : List (Cell × ℕ) × List Cell) v =>
              if v ∈ st.2 then st else (st.1 ++ [(v, d + 1)], st.2 ++ [v])) (t, seen)).1
          ((b.neighbors u).foldl
            (fun (st : List (Cell × ℕ) × List Cell) v =>
              if v ∈ st.2 then st else (st.1 ++ [(v, d + 1)], st.2 ++ [v])) (t, seen)).2 :=
  rfl

/-- What the neighbor-expansion fold of the BFS body does: it appends the
freshly seen neighbors (in order) to the queue with label d+1 and to the
seen set. -/
theorem bfsFold_spec (d : ℕ) (l : List Cell) :
    ∀ (q : List (Cell × ℕ)) (seen : List Cell),
      ∃ nw : List Cell,
        l.foldl (fun (st : List (Cell × ℕ) × List Cell) v =>
            if v ∈ st.2 then st else (st.1 ++ [(v, d + 1)], st.2 ++ [v])) (q, seen) =
          (q ++ nw.map (fun v => (v, d + 1)), seen ++ nw) ∧
        nw.Nodup ∧ (∀ v ∈ nw, v ∈ l ∧ v ∉ seen) ∧ (∀ v ∈ l, v ∈ seen ∨ v ∈ nw) := by
  induction l with
  | nil =>
    intro q seen
    exact ⟨[], by simp, List.nodup_nil, by simp, by simp⟩
  | cons v t ih =>
    intro q seen
    simp only [List.foldl_cons]
    by_cases hv : v ∈ seen
    · rw [if_pos hv]
      obtain ⟨nw, heq, hnd, hprop, hcov⟩ := ih q seen
      refine ⟨nw, heq, hnd, ?_, ?_⟩
      · exact fun x hx => ⟨List.mem_cons_of_mem _ (hprop x hx).1, (hprop x hx).2⟩
      · intro x hx
        rcases List.mem_cons.mp hx with rfl | hx2
        · exact Or.inl hv
        · exact hcov x hx2
    · rw [if_neg hv]
      obtain ⟨nw, heq, hnd, hprop, hcov⟩ := ih (q ++ [(v, d + 1)]) (seen ++ [v])
      refine ⟨v :: nw, ?_, ?_, ?_, ?_⟩
      · rw [heq]
        simp
      · refine List.nodup_cons.mpr ⟨?_, hnd⟩
        intro hvnw
        have := (hprop v hvnw).2
        simp at this
      · intro x hx
        rcases List.mem_cons.mp hx with rfl | hx2
        · exact ⟨List.mem_cons_self _ _, hv⟩
        · have h2 := (hprop x hx2).2
          refine ⟨List.mem_cons_of_mem _ (hprop x hx2).1, fun hc => h2 ?_⟩
          simp [hc]
      · intro x hx
        rcases List.mem_cons.mp hx with rfl | hx2
        · exact Or.inr (List.mem_cons_self _ _)
        · rcases hcov x hx2 with hs | hn
          · rcases List.mem_append.mp hs with hs2 | hs2
            · exact Or.inl hs2
            · simp only [List.mem_singleton] at hs2
              exact Or.inr (hs2 ▸ List.mem_cons_self _ _)
          · exact Or.inr (List.mem_cons_of_mem _ hn)

/-- All invariants carried through the BFS loop.  The settled list is the
ghost record of the already-processed (popped and goal-checked) cells. -/
structure BfsInv (b : Board) (g : List Int) (start : Cell)
    (q : List (Cell × ℕ)) (seen settled : List Cell) : Prop where
  dist : ∀ e ∈ q, IsDist b start e.1 e.2
  sorted : q.Pairwise (fun a a2 => a.2 ≤ a2.2)
  window : ∀ a ∈ q, ∀ a2 ∈ q, a.2 ≤ a2.2 + 1
  seen_iff : ∀ z, z ∈ seen ↔ z ∈ settled ∨ ∃ dz, (z, dz) ∈ q
  settled_nogoal : ∀ z ∈ settled, z.r ∉ g
  settled_closed : ∀ z ∈ settled, ∀ v ∈ b.neighbors z, v ∈ seen
  start_seen : start ∈ seen
  qInB : ∀ e ∈ q, InB b e.1
  threshold : ∀ z m, WalkN b m start z →
    ∀ u dd, q.head? = some (u, dd) → m ≤ dd → z ∈ seen

/-- With an empty queue every cell reachable from start is settled. -/
theorem bfs_empty_all_settled (b : Board) (g : List Int) (start : Cell)
    (seen settled : List Cell) (hinv : BfsInv b g start [] seen settled) :
    ∀ n z, WalkN b n start z → z ∈ settled := by
  intro n
  induction n with
  | zero =>
    intro z hz
    cases hz
    rcases (hinv.seen_iff start).mp hinv.start_seen with hs | ⟨dz, hdz⟩
    · exact hs
    · simp at hdz
  | succ k ih =>
    intro z hz
    rcases (WalkN.snoc_iff b k start z).mp hz with ⟨y, hy, hadj⟩
    have hys := ih y hy
    have hzseen := hinv.settled_closed y hys z hadj
    rcases (hinv.seen_iff z).mp hzseen with hs | ⟨dz, hdz⟩
    · exact hs
    · simp at hdz

/-- With an empty queue no goal-row cell is reachable (they would have been
settled, and settled cells were goal-checked). -/
theorem bfs_empty_none (b : Board) (g : List Int) (start : Cell)
    (seen settled : List Cell) (hinv : BfsInv b g start [] seen settled) :
    ∀ n z, z.r ∈ g → ¬ WalkN b n start z := by
  intro n z hg hw
  exact hinv.settled_nogoal z (bfs_empty_all_settled b g start seen settled hinv n z hw) hg

theorem pairwise_const {α : Type} (R : α → α → Prop) (l : List α)
    (h : ∀ a a2, R a a2) : l.Pairwise R := by
  induction l with
  | nil => exact List.Pairwise.nil
  | cons x t ih => exact List.Pairwise.cons (fun a _ => h x a) ih

theorem head_min_of_sorted (q : List (Cell × ℕ))
    (hs : q.Pairwise (fun a a2 => a.2 ≤ a2.2)) (hd : Cell × ℕ) (hh : q.head? = some hd) :
    ∀ e ∈ q, hd.2 ≤ e.2 := by
  cases q with
  | nil => cases hh
  | cons e0 t =>
    cases hh
    intro e he
    rcases List.mem_cons.mp he with rfl | he2
    · exact le_refl _
    · exact (List.pairwise_cons.mp hs).1 e he2

/-- Master correctness of the BFS loop: with the invariant and enough fuel,
a some result is the exact least goal distance and a none result means no
goal-row cell is reachable. -/
theorem bfsAux_correct (b : Board) (g : List Int) (start : Cell) :
    ∀ (fuel : ℕ) (q : List (Cell × ℕ)) (seen settled : List Cell),
      BfsInv b g start q seen settled →
      q.length + unseenCount b seen ≤ fuel →
      (∀ dd, b.bfsAux g fuel q seen = some dd → IsLeastGoalDist b start g dd) ∧
      (b.bfsAux g fuel q seen = none → ∀ n z, z.r ∈ g → ¬ WalkN b n start z) := by
  intro fuel
  induction fuel with
  | zero =>
    intro q seen settled hinv hfuel
    have hq : q = [] := by
      cases q with
      | nil => rfl
      | cons e t => simp at hfuel
    subst hq
    rw [bfsAux_nil]
    exact ⟨fun dd h => Option.noConfusion h,
      fun _ => bfs_empty_none b g start seen settled hinv⟩
  | succ f ihf =>
    intro q seen settled hinv hfuel
    cases q with
    | nil =>
      rw [bfsAux_nil]
      exact ⟨fun dd h => Option.noConfusion h,
        fun _ => bfs_empty_none b g start seen settled hinv⟩
    | cons e t =>
      rcases e with ⟨u, d⟩
      rw [bfsAux_cons]
      by_cases hgoal : u.r ∈ g
      · rw [if_pos hgoal]
        refine ⟨?_, fun hnone => by cases hnone⟩
        intro dd hdd
        obtain rfl : d = dd := Option.some_inj.mp hdd
        constructor
        · exact ⟨u, hgoal, (hinv.dist (u, d) (List.mem_cons_self _ _)).1⟩
        · intro m z hzg hwz
          by_contra hlt
          push_neg at hlt
          have hzseen := hinv.threshold z m hwz u d rfl (by omega)
          rcases (hinv.seen_iff z).mp hzseen with hzset | ⟨dz, hdzq⟩
          · exact hinv.settled_nogoal z hzset hzg
          · have hdz := hinv.dist (z, dz) hdzq
            have h1 : dz ≤ m := hdz.2 m hwz
            have h2 : d ≤ dz :=
              head_min_of_sorted _ hinv.sorted (u, d) rfl (z, dz) hdzq
            omega
      · rw [if_neg hgoal]
        obtain ⟨nw, heq, hnd, hprop, hcov⟩ := bfsFold_spec d (b.neighbors u) t seen
        rw [heq]
        have hdU : IsDist b start u d := hinv.dist (u, d) (List.mem_cons_self _ _)
        have hUin : InB b u := hinv.qInB (u, d) (List.mem_cons_self _ _)
        have hnwAdj : ∀ v ∈ nw, b.Adj u v := fun v hv => (hprop v hv).1
        have hnwIn : ∀ v ∈ nw, InB b v :=
          fun v hv => mem_neighbors_bounds b u v hUin (hnwAdj v hv)
        have htail_ge : ∀ e2 ∈ t, d ≤ e2.2 :=
          fun e2 he2 => (List.pairwise_cons.mp hinv.sorted).1 e2 he2
        have htail_le : ∀ e2 ∈ t, e2.2 ≤ d + 1 := fun e2 he2 =>
          hinv.window e2 (List.mem_cons_of_mem _ he2) (u, d) (List.mem_cons_self _ _)
        have hPushDist : ∀ v ∈ nw, IsDist b start v (d + 1) := by
          intro v hv
          constructor
          · have := hdU.1.append (WalkN.single (hnwAdj v hv))
            simpa using this
          · intro m hm
            by_contra hcon
            push_neg at hcon
            have := hinv.threshold v m hm u d rfl (by omega)
            exact (hprop v hv).2 this
        have hsortedNew : (t ++ nw.map (fun v => (v, d + 1))).Pairwise
            (fun a a2 => a.2 ≤ a2.2) := by
          rw [List.pairwise_append]
          refine ⟨(List.pairwise_cons.mp hinv.sorted).2, ?_, ?_⟩
          · rw [List.pairwise_map]
            exact pairwise_const _ _ (fun a a2 => le_refl _)
          · intro a ha a2 ha2
            rcases List.mem_map.mp ha2 with ⟨v, hv, rfl⟩
            exact htail_le a ha
        have hinvNew : BfsInv b g start (t ++ nw.map (fun v => (v, d + 1)))
            (seen ++ nw) (settled ++ [u]) := by
          refine ⟨?_, hsortedNew, ?_, ?_, ?_, ?_, ?_, ?_, ?_⟩
          · intro e2 he2
            rcases List.mem_append.mp he2 with h2 | h2
            · exact hinv.dist e2 (List.mem_cons_of_mem _ h2)
            · rcases List.mem_map.mp h2 with ⟨v, hv, rfl⟩
              exact hPushDist v hv
          · intro a ha a2 ha2
            have hA : d ≤ a.2 ∧ a.2 ≤ d + 1 := by
              rcases List.mem_append.mp ha with h2 | h2
              · exact ⟨htail_ge a h2, htail_le a h2⟩
              · rcases List.mem_map.mp h2 with ⟨v, hv, rfl⟩
                exact ⟨by omega, le_refl _⟩
            have hB : d ≤ a2.2 := by
              rcases List.mem_append.mp ha2 with h2 | h2
              · exact htail_ge a2 h2
              · rcases List.mem_map.mp h2 with ⟨v, hv, rfl⟩
                omega
            omega
          · intro z
            constructor
            · intro hz
              rcases List.mem_append.mp hz with hz2 | hz2
              · rcases (hinv.seen_iff z).mp hz2 with hs | ⟨dz, hdzq⟩
                · exact Or.inl (List.mem_append.mpr (Or.inl hs))
                · rcases List.mem_cons.mp hdzq with heq2 | hq2
                  · rw [Prod.mk.injEq] at heq2
                    obtain ⟨rfl, rfl⟩ := heq2
                    exact Or.inl (List.mem_append.mpr
                      (Or.inr (List.mem_singleton.mpr rfl)))
                  · exact Or.inr ⟨dz, List.mem_append.mpr (Or.inl hq2)⟩
              · exact Or.inr ⟨d + 1,
                  List.mem_append.mpr (Or.inr (List.mem_map_of_mem _ hz2))⟩
            · intro hz
              rcases hz with hs | ⟨dz, hdzq⟩
              · rcases List.mem_append.mp hs with hs2 | hs2
                · exact List.mem_append.mpr (Or.inl ((hinv.seen_iff z).mpr (Or.inl hs2)))
                · simp only [List.mem_singleton] at hs2
                  subst hs2
                  exact List.mem_append.mpr (Or.inl ((hinv.seen_iff z).mpr
                    (Or.inr ⟨d, List.mem_cons_self _ _⟩)))
              · rcases List.mem_append.mp hdzq with hq2 | hq2
                · exact List.mem_append.mpr (Or.inl ((hinv.seen_iff z).mpr
                    (Or.inr ⟨dz, List.mem_cons_of_mem _ hq2⟩)))
                · rcases List.mem_map.mp hq2 with ⟨v, hv, heq2⟩
                  rw [Prod.mk.injEq] at heq2
                  obtain ⟨rfl, -⟩ := heq2
                  exact List.mem_append.mpr (Or.inr hv)
          · intro z hz
            rcases List.mem_append.mp hz with h2 | h2
            · exact hinv.settled_nogoal z h2
            · simp only [List.mem_singleton] at h2
              subst h2
              exact hgoal
          · intro z hz v hvn
            rcases List.mem_append.mp hz with h2 | h2
            · exact List.mem_append.mpr (Or.inl (hinv.settled_closed z h2 v hvn))
            · simp only [List.mem_singleton] at h2
              subst h2
              rcases hcov v hvn with hs | hn
              · exact List.mem_append.mpr (Or.inl hs)
              · exact List.mem_append.mpr (Or.inr hn)
          · exact List.mem_append.mpr (Or.inl hinv.start_seen)
          · intro e2 he2
            rcases List.mem_append.mp he2 with h2 | h2
            · exact hinv.qInB e2 (List.mem_cons_of_mem _ h2)
            · rcases List.mem_map.mp h2 with ⟨v, hv, rfl⟩
              exact hnwIn v hv
          · intro z m hw u2 dd2 hhead hm
            have hq2mem : (u2, dd2) ∈ t ++ nw.map (fun v => (v, d + 1)) :=
              List.mem_of_mem_head? (by simp [hhead])
            have hdd2_le : dd2 ≤ d + 1 := by
              rcases List.mem_append.mp hq2mem with h2 | h2
              · exact htail_le (u2, dd2) h2
              · rcases List.mem_map.mp h2 with ⟨v, hv, heq2⟩
                rw [Prod.mk.injEq] at heq2
                omega
            by_cases hmd : m ≤ d
            · exact List.mem_append.mpr (Or.inl (hinv.threshold z m hw u d rfl hmd))
            · have hmeq : m = d + 1 := by omega
              subst hmeq
              rcases (WalkN.snoc_iff b d start z).mp hw with ⟨y, hy, hadj⟩
              have hyseen := hinv.threshold y d hy u d rfl (le_refl d)
              rcases (hinv.seen_iff y).mp hyseen with hyset | ⟨dy, hdyq⟩
              · exact List.mem_append.mpr (Or.inl (hinv.settled_closed y hyset z hadj))
              · rcases List.mem_cons.mp hdyq with heq2 | hq2
                · rw [Prod.mk.injEq] at heq2
                  obtain ⟨rfl, -⟩ := heq2
                  rcases hcov z hadj with hs | hn
                  · exact List.mem_append.mpr (Or.inl hs)
                  · exact List.mem_append.mpr (Or.inr hn)
                · exfalso
                  have hdy_le : dy ≤ d := (hinv.dist (y, dy) hdyq).2 d hy
                  have hddmin : dd2 ≤ dy :=
                    head_min_of_sorted _ hsortedNew (u2, dd2) hhead (y, dy)
                      (List.mem_append.mpr (Or.inl hq2))
                  omega
        have hfuelNew :
            (t ++ nw.map (fun v => (v, d + 1))).length + unseenCount b (seen ++ nw) ≤ f := by
          have hcnt := unseenCount_append b seen nw hnd (fun v hv => (hprop v hv).2) hnwIn
          simp only [List.length_append, List.length_map, List.length_cons] at hfuel ⊢
          omega
        exact ihf _ _ _ hinvNew hfuelNew

/-- The BFS invariant holds at the initial queue of bfsDistToGoal. -/
theorem bfsInv_init (b : Board) (g : List Int) (start : Cell) (hs : InB b start) :
    BfsInv b g start [(start, 0)] [start] [] := by
  refine ⟨?_, ?_, ?_, ?_, ?_, ?_, ?_, ?_, ?_⟩
  · intro e he
    rcases List.mem_singleton.mp he with rfl
    exact ⟨WalkN.refl start, fun m _ => Nat.zero_le m⟩
  · exact List.pairwise_singleton _ _
  · intro a ha a2 ha2
    rcases List.mem_singleton.mp ha with rfl
    rcases List.mem_singleton.mp ha2 with rfl
    exact Nat.le_succ _
  · intro z
    constructor
    · intro hz
      rcases List.mem_singleton.mp hz with rfl
      exact Or.inr ⟨0, List.mem_singleton.mpr rfl⟩
    · rintro (hset | ⟨dz, hdz⟩)
      · exact absurd hset (List.not_mem_nil _)
      · have h2 := List.mem_singleton.mp hdz
        rw [Prod.mk.injEq] at h2
        rw [h2.1]
        exact List.mem_singleton.mpr rfl
  · intro z hz
    exact absurd hz (List.not_mem_nil _)
  · intro z hz
    exact absurd hz (List.not_mem_nil _)
  · exact List.mem_singleton.mpr rfl
  · intro e he
    rcases List.mem_singleton.mp he with rfl
    exact hs
  · intro z m hw u dd hhead hm
    simp only [List.head?_cons, Option.some_inj, Prod.mk.injEq] at hhead
    have hm0 : m = 0 := by omega
    subst hm0
    cases hw with
    | refl => exact List.mem_singleton.mpr rfl

/-- Exactness of bfsDistToGoal from an in-bounds start: a some result is the
least walk length to a goal-row cell and a none result means none exists. -/
theorem bfsDistToGoal_exact (b : Board) (start : Cell) (g : List Int) (hs : InB b start) :
    (∀ dd, b.bfsDistToGoal start g = some dd → IsLeastGoalDist b start g dd) ∧
    (b.bfsDistToGoal start g = none → ∀ n z, z.r ∈ g → ¬ WalkN b n start z) := by
  have hfuel : ([((start : Cell), (0 : ℕ))]).length + unseenCount b [start] ≤ b.bfsFuel := by
    have := unseenCount_le b [start]
    unfold Board.bfsFuel
    simp only [List.length_singleton]
    omega
  exact bfsAux_correct b g start b.bfsFuel _ _ _ (bfsInv_init b g start hs) hfuel

/-- pathExistsFor from an in-bounds start is exactly reachability of a
goal-row cell in the neighbor graph. -/
theorem pathExistsFor_iff (b : Board) (start : Cell) (g : List Int) (hs : InB b start) :
    b.pathExistsFor start g = true ↔ ∃ n z, z.r ∈ g ∧ WalkN b n start z := by
  unfold Board.pathExistsFor
  rw [Option.isSome_iff_exists]
  constructor
  · rintro ⟨dd, hdd⟩
    rcases ((bfsDistToGoal_exact b start g hs).1 dd hdd).1 with ⟨z, hz, hw⟩
    exact ⟨dd, z, hz, hw⟩
  · rintro ⟨n, z, hz, hw⟩
    rcases hopt : b.bfsDistToGoal start g with _ | dd
    · exact absurd hw ((bfsDistToGoal_exact b start g hs).2 hopt n z hz)
    · exact ⟨dd, rfl⟩

/-- blockedEdge is symmetric in its two cells. -/
theorem blockedEdge_symm (b : Board) (a q : Cell) :
    b.blockedEdge a q = b.blockedEdge q a := by
  unfold Board.blockedEdge
  by_cases h1 : a.r = q.r
  · rw [if_pos h1, if_pos h1.symm]
    by_cases h2 : (a.c - q.c).natAbs ≠ 1
    · rw [if_pos h2, if_pos (by omega)]
    · rw [if_neg h2, if_neg (by omega)]
      dsimp only
      rw [min_comm, h1]
  · by_cases h2 : a.c = q.c
    · rw [if_neg h1, if_pos h2,
        if_neg (show ¬(q.r = a.r) from fun hh => h1 hh.symm), if_pos h2.symm]
      by_cases h3 : (a.r - q.r).natAbs ≠ 1
      · rw [if_pos h3, if_pos (show (q.r - a.r).natAbs ≠ 1 by omega)]
      · rw [if_neg h3, if_neg (show ¬((q.r - a.r).natAbs ≠ 1) by omega)]
        dsimp only
        rw [min_comm, h2]
    · rw [if_neg h1, if_neg h2,
        if_neg (show ¬(q.r = a.r) from fun hh => h1 hh.symm),
        if_neg (show ¬(q.c = a.c) from fun hh => h2 hh.symm)]

/-- A unit orthogonal step to an in-bounds cell along an unblocked edge is a
neighbor. -/
theorem step_mem_neighbors (b : Board) (u x : Cell) (hx : InB b x)
    (hoff : (x.r = u.r - 1 ∧ x.c = u.c) ∨ (x.r = u.r + 1 ∧ x.c = u.c) ∨
            (x.r = u.r ∧ x.c = u.c - 1) ∨ (x.r = u.r ∧ x.c = u.c + 1))
    (hbl : b.blockedEdge u x = false) : x ∈ b.neighbors u := by
  obtain ⟨hx1, hx2, hx3, hx4⟩ := hx
  refine (mem_neighbors_iff b u x).mpr ⟨hbl, ?_⟩
  obtain ⟨hxr, hxc⟩ | ⟨hxr, hxc⟩ | ⟨hxr, hxc⟩ | ⟨hxr, hxc⟩ := hoff
  · exact Or.inl ⟨by omega, cell_ext _ _ hxr hxc⟩
  · exact Or.inr (Or.inl ⟨by omega, cell_ext _ _ hxr hxc⟩)
  · exact Or.inr (Or.inr (Or.inl ⟨by omega, cell_ext _ _ hxr hxc⟩))
  · exact Or.inr (Or.inr (Or.inr ⟨by omega, cell_ext _ _ hxr hxc⟩))

/-- Adjacency is symmetric between in-bounds cells. -/
theorem adj_symm (b : Board) (p q : Cell) (hp : InB b p) (h : q ∈ b.neighbors p) :
    p ∈ b.neighbors q := by
  have hbl : b.blockedEdge q p = false := by
    rw [blockedEdge_symm]
    exact mem_neighbors_unblocked b p q h
  refine step_mem_neighbors b q p hp ?_ hbl
  rcases ((mem_neighbors_iff b p q).mp h).2 with ⟨hb, rfl⟩ | ⟨hb, rfl⟩ | ⟨hb, rfl⟩ | ⟨hb, rfl⟩
  · exact Or.inr (Or.inl ⟨by dsimp only; omega, by dsimp only⟩)
  · exact Or.inl ⟨by dsimp only; omega, by dsimp only⟩
  · exact Or.inr (Or.inr (Or.inr ⟨by dsimp only, by dsimp only; omega⟩))
  · exact Or.inr (Or.inr (Or.inl ⟨by dsimp only, by dsimp only; omega⟩))

/-- Walks from an in-bounds start reverse. -/
theorem WalkN.reverse {b : Board} {n : ℕ} {s z : Cell}
    (h : WalkN b n s z) : InB b s → WalkN b n z s := by
  induction h with
  | refl u => exact fun _ => WalkN.refl u
  | cons ha ht ih =>
    intro hs
    have h2 := (ih (mem_neighbors_bounds _ _ _ hs ha)).append
      (WalkN.single (adj_symm _ _ _ hs ha))
    simpa using h2

/-- Connectivity to the goal rows transfers along a walk from an in-bounds
cell. -/
theorem pathExistsFor_of_walk (b : Board) (y x : Cell) (g : List Int) (k : ℕ)
    (hy : InB b y) (hw : WalkN b k y x)
    (hp : b.pathExistsFor y g = true) : b.pathExistsFor x g = true := by
  have hx : InB b x := hw.inB hy
  rcases (pathExistsFor_iff b y g hy).mp hp with ⟨n, z, hz, hwz⟩
  exact (pathExistsFor_iff b x g hx).mpr ⟨k + n, z, hz, (hw.reverse hy).append hwz⟩

/-- Every legal pawn destination is within two unblocked steps of the mover's
pawn in the board graph. -/
theorem legalPawnMoves_walk (s : GameState) (x : Cell) (hN : s.board.N = s.N)
    (hx : x ∈ s.legalPawnMoves) :
    ∃ k, WalkN s.board k s.myPawn x := by
  have hIB : ∀ y : Cell, s.inBounds y = true → InB s.board y := by
    intro y hy
    unfold GameState.inBounds at hy
    have h2 := of_decide_eq_true hy
    exact ⟨h2.1, by rw [hN]; exact h2.2.1, h2.2.2.1, by rw [hN]; exact h2.2.2.2⟩
  rcases (mem_legalPawnMoves_iff s x).mp hx with ⟨q, hq, hqo, rfl⟩ | ⟨hq, hcase⟩
  · exact ⟨1, WalkN.single hq⟩
  · rcases hcase with ⟨⟨hib, hbl⟩, rfl⟩ | ⟨hso, d, hd, rfl, hib, hbl1, hbl2⟩
    · have hnb : s.jumpDest ∈ s.board.neighbors s.oppPawn := by
        apply step_mem_neighbors s.board s.oppPawn s.jumpDest (hIB _ hib)
        · have hjr : s.jumpDest.r = s.oppPawn.r + (s.oppPawn.r - s.myPawn.r) := rfl
          have hjc : s.jumpDest.c = s.oppPawn.c + (s.oppPawn.c - s.myPawn.c) := rfl
          rcases ((mem_neighbors_iff _ _ _).mp hq).2 with
            ⟨_, he⟩ | ⟨_, he⟩ | ⟨_, he⟩ | ⟨_, he⟩
          all_goals
            (have hr := congrArg Cell.r he
             have hc := congrArg Cell.c he
             dsimp only at hr hc
             first
             | exact Or.inl ⟨by omega, by omega⟩
             | exact Or.inr (Or.inl ⟨by omega, by omega⟩)
             | exact Or.inr (Or.inr (Or.inl ⟨by omega, by omega⟩))
             | exact Or.inr (Or.inr (Or.inr ⟨by omega, by omega⟩)))
        · simpa using hbl
      exact ⟨2, WalkN.cons hq (WalkN.single hnb)⟩
    · have hnb : (⟨s.oppPawn.r + d.r, s.oppPawn.c + d.c⟩ : Cell) ∈
          s.board.neighbors s.oppPawn := by
        apply step_mem_neighbors s.board s.oppPawn _ (hIB _ hib)
        · simp only [jumpDirs, List.mem_cons, List.not_mem_nil, or_false] at hd
          rcases hd with rfl | rfl | rfl | rfl
          · exact Or.inl
              ⟨by show s.oppPawn.r + (-1 : Int) = s.oppPawn.r - 1; omega,
               by show s.oppPawn.c + (0 : Int) = s.oppPawn.c; omega⟩
          · exact Or.inr (Or.inl
              ⟨by show s.oppPawn.r + (1 : Int) = s.oppPawn.r + 1; omega,
               by show s.oppPawn.c + (0 : Int) = s.oppPawn.c; omega⟩)
          · exact Or.inr (Or.inr (Or.inl
              ⟨by show s.oppPawn.r + (0 : Int) = s.oppPawn.r; omega,
               by show s.oppPawn.c + (-1 : Int) = s.oppPawn.c - 1; omega⟩))
          · exact Or.inr (Or.inr (Or.inr
              ⟨by show s.oppPawn.r + (0 : Int) = s.oppPawn.r; omega,
               by show s.oppPawn.c + (1 : Int) = s.oppPawn.c + 1; omega⟩))
        · simpa using hbl1
      exact ⟨2, WalkN.cons hq (WalkN.single hnb)⟩

theorem Pawns.get_set (ps : Pawns) (i j : Fin 2) (c : Cell) :
    (ps.set i c).get j = if j = i then c else ps.get j := by
  fin_cases i <;> fin_cases j <;> simp [Pawns.get, Pawns.set]

/-- Inversion of a successful PAWN apply: the destination was legal and the
result is the relocated state over the pushed snapshot. -/
theorem apply_pawn_inv (s s2 : GameState) (dst : Cell) (rh : Bool)
    (h : s.apply (.pawn dst) rh = (none, s2)) :
    (⟨dst.r, dst.c⟩ : Cell) ∈ s.legalPawnMoves ∧
    s2 = { s.pushSnap rh with
      pawns := s.pawns.set s.toMove ⟨dst.r, dst.c⟩
      toMove := 1 - s.toMove } := by
  by_cases hc : s.legalPawnMoves.any (fun p => decide (p.r = dst.r ∧ p.c = dst.c)) = true
  · have h2 := (apply_pawn_anatomy s dst rh).1 hc
    rw [h] at h2
    refine ⟨?_, congrArg Prod.snd h2⟩
    rcases List.any_eq_true.mp hc with ⟨p, hp, hpe⟩
    have hpe2 := of_decide_eq_true hpe
    have hpd : p = ⟨dst.r, dst.c⟩ := cell_ext _ _ hpe2.1 hpe2.2
    exact hpd ▸ hp
  · have h2 := (apply_pawn_anatomy s dst rh).2 hc
    rw [h] at h2
    exact absurd (congrArg Prod.fst h2) (by simp)

/-- Inversion of a successful WALL apply: both connectivity probes passed and
the result is the committed state over the pushed snapshot. -/
theorem apply_wall_inv (s s2 : GameState) (w : Wall) (rh : Bool)
    (h : s.apply (.wall w) rh = (none, s2)) :
    (s.board.addWall w (some s.toMove)).pathExistsFor (s.pawns.get 0) (s.goalRows 0) = true ∧
    (s.board.addWall w (some s.toMove)).pathExistsFor (s.pawns.get 1) (s.goalRows 1) = true ∧
    s2 = { s.pushSnap rh with
      board := s.board.addWall w (some s.toMove)
      wallsLeft := s.wallsLeft.set s.toMove (s.wallsLeft.get s.toMove - 1)
      toMove := 1 - s.toMove } := by
  obtain ⟨ha1, ha2, ha3, ha4⟩ := apply_wall_anatomy s w rh
  by_cases h0 : s.wallsLeft.get s.toMove ≤ 0
  · rw [h] at ha1
    exact absurd (congrArg Prod.fst (ha1 h0)) (by simp)
  · by_cases hleg : s.board.wallLegal w = true
    · by_cases hp0 : (s.board.addWall w (some s.toMove)).pathExistsFor
          (s.pawns.get 0) (s.goalRows 0) = true
      · by_cases hp1 : (s.board.addWall w (some s.toMove)).pathExistsFor
            (s.pawns.get 1) (s.goalRows 1) = true
        · have h2 := ha4 (by omega) hleg hp0 hp1
          rw [h] at h2
          exact ⟨hp0, hp1, congrArg Prod.snd h2⟩
        · have h2 := ha3 (by omega) hleg (fun hcc => hp1 hcc.2)
          rw [h] at h2
          exact absurd (congrArg Prod.fst h2) (by simp)
      · have h2 := ha3 (by omega) hleg (fun hcc => hp0 hcc.1)
        rw [h] at h2
        exact absurd (congrArg Prod.fst h2) (by simp)
    · have h2 := ha2 (by omega) (by
        cases hb : s.board.wallLegal w
        · rfl
        · exact absurd hb hleg)
      rw [h] at h2
      exact absurd (congrArg Prod.fst h2) (by simp)

/-- States reachable from the standard 9x9 initial state by successful apply
calls (with or without history recording). -/
inductive Reachable : GameState → Prop
  | init : Reachable (GameState.initial 9)
  | step {s s2 : GameState} {mv : Move} {rh : Bool} :
      Reachable s → s.apply mv rh = (none, s2) → Reachable s2

/-- The connectivity invariant: both players can reach their goal rows. -/
def ConnInv (s : GameState) : Prop :=
  ∀ p : Fin 2, s.board.pathExistsFor (s.pawns.get p) (s.goalRows p) = true

/-- Structural well-formedness used by the pawn-step argument: the duplicated
board size agrees and both pawns are on the board. -/
def StateWf (s : GameState) : Prop :=
  s.board.N = s.N ∧ ∀ p : Fin 2, InB s.board (s.pawns.get p)

instance (s : GameState) : Decidable (ConnInv s) := by
  unfold ConnInv
  infer_instance

instance (s : GameState) : Decidable (StateWf s) := by
  unfold StateWf
  infer_instance

/-- Every reachable state is well-formed and keeps both players connected. -/
theorem reachable_inv (s : GameState) (h : Reachable s) : StateWf s ∧ ConnInv s := by
  induction h with
  | init => decide
  | @step s s2 mv rh _ happly ih =>
    obtain ⟨⟨hN, hpb⟩, hconn⟩ := ih
    cases mv with
    | pawn dst =>
      obtain ⟨hleg, hs2⟩ := apply_pawn_inv s s2 dst rh happly
      have hb2 : s2.board = s.board := by rw [hs2]; exact pushSnap_board s rh
      have hN2 : s2.N = s.N := by rw [hs2]; exact pushSnap_N s rh
      have hp2 : s2.pawns = s.pawns.set s.toMove ⟨dst.r, dst.c⟩ := by rw [hs2]
      have hgr : ∀ p, s2.goalRows p = s.goalRows p := by
        intro p
        unfold GameState.goalRows
        rw [hN2]
      obtain ⟨k, hwalk⟩ := legalPawnMoves_walk s ⟨dst.r, dst.c⟩ hN hleg
      have hmyIn : InB s.board s.myPawn := hpb s.toMove
      have hdstIn : InB s.board ⟨dst.r, dst.c⟩ := hwalk.inB hmyIn
      have hget : ∀ p : Fin 2, s2.pawns.get p =
          if p = s.toMove then (⟨dst.r, dst.c⟩ : Cell) else s.pawns.get p := by
        intro p
        rw [hp2]
        exact Pawns.get_set s.pawns s.toMove p _
      constructor
      · refine ⟨by rw [hb2, hN2]; exact hN, ?_⟩
        intro p
        rw [hb2, hget p]
        split_ifs
        · exact hdstIn
        · exact hpb p
      · intro p
        rw [hb2, hget p, hgr p]
        split_ifs with hpm
        · subst hpm
          exact pathExistsFor_of_walk s.board s.myPawn _ _ k hmyIn hwalk (hconn s.toMove)
        · exact hconn p
    | wall w =>
      obtain ⟨hp0, hp1, hs2⟩ := apply_wall_inv s s2 w rh happly
      have hb2 : s2.board = s.board.addWall w (some s.toMove) := by
        rw [hs2]
      have hN2 : s2.N = s.N := by rw [hs2]; exact pushSnap_N s rh
      have hp2 : s2.pawns = s.pawns := by rw [hs2]; exact pushSnap_pawns s rh
      have hgr : ∀ p, s2.goalRows p = s.goalRows p := by
        intro p
        unfold GameState.goalRows
        rw [hN2]
      constructor
      · refine ⟨by rw [hb2, hN2, addWall_N]; exact hN, ?_⟩
        intro p
        rw [hb2, hp2]
        have := hpb p
        unfold InB at this ⊢
        rw [addWall_N]
        exact this
      · intro p
        rw [hb2, hp2, hgr p]
        fin_cases p
        · exact hp0
        · exact hp1

/-- C1: in every state reachable from the standard initial state by
successful apply calls, both players have a path from their pawn to their
goal rows; every wall offered by legalWallMoves keeps both players connected
on the tentatively extended board, and every wall committed by a successful
apply leaves both players connected in the resulting state. -/
theorem C1_connectivity_invariant (s : GameState) (h : Reachable s) :
    (s.board.pathExistsFor (s.pawns.get 0) (s.goalRows 0) = true ∧
     s.board.pathExistsFor (s.pawns.get 1) (s.goalRows 1) = true) ∧
    (∀ w ∈ s.legalWallMoves,
      (s.board.addWall w none).pathExistsFor (s.pawns.get 0) (s.goalRows 0) = true ∧
      (s.board.addWall w none).pathExistsFor (s.pawns.get 1) (s.goalRows 1) = true) ∧
    (∀ w rh s2, s.apply (.wall w) rh = (none, s2) →
      s2.board.pathExistsFor (s2.pawns.get 0) (s2.goalRows 0) = true ∧
      s2.board.pathExistsFor (s2.pawns.get 1) (s2.goalRows 1) = true) := by
  refine ⟨⟨(reachable_inv s h).2 0, (reachable_inv s h).2 1⟩, ?_, ?_⟩
  · intro w hw
    have hprobe := (mem_legalWallMoves s w hw).2.2
    rw [Bool.and_eq_true] at hprobe
    exact hprobe
  · intro w rh s2 happly
    exact ⟨(reachable_inv s2 (Reachable.step h happly)).2 0,
      (reachable_inv s2 (Reachable.step h happly)).2 1⟩

/-- C1 applied to the initial state itself. -/
theorem C1_connectivity_invariant_witness :
    ((GameState.initial 9).board.pathExistsFor ((GameState.initial 9).pawns.get 0)
        ((GameState.initial 9).goalRows 0) = true ∧
     (GameState.initial 9).board.pathExistsFor ((GameState.initial 9).pawns.get 1)
        ((GameState.initial 9).goalRows 1) = true) ∧
    (∀ w ∈ (GameState.initial 9).legalWallMoves,
      ((GameState.initial 9).board.addWall w none).pathExistsFor
        ((GameState.initial 9).pawns.get 0) ((GameState.initial 9).goalRows 0) = true ∧
      ((GameState.initial 9).board.addWall w none).pathExistsFor
        ((GameState.initial 9).pawns.get 1) ((GameState.initial 9).goalRows 1) = true) ∧
    (∀ w rh s2, (GameState.initial 9).apply (.wall w) rh = (none, s2) →
      s2.board.pathExistsFor (s2.pawns.get 0) (s2.goalRows 0) = true ∧
      s2.board.pathExistsFor (s2.pawns.get 1) (s2.goalRows 1) = true) :=
  C1_connectivity_invariant (GameState.initial 9) Reachable.init

/-! ## Binary-heap verification (MinPQ), towards the A* / BFS agreement -/

theorem get?_set {α : Type} (a : List α) (n k : ℕ) (x : α) :
    (a.set n x).get? k = if k = n ∧ n < a.length then some x else a.get? k := by
  induction a generalizing n k with
  | nil => simp
  | cons h t ih =>
    cases n with
    | zero =>
      cases k with
      | zero => simp
      | succ k => simp
    | succ n =>
      cases k with
      | zero => simp [List.set]
      | succ k =>
        simp only [List.set, List.get?, List.length_cons]
        rw [ih n k]
        by_cases hk : k = n ∧ n < t.length
        · rw [if_pos hk, if_pos (by omega)]
        · rw [if_neg hk, if_neg (by omega)]

theorem mem_get_iff {α : Type} {x : α} {l : List α} : x ∈ l ↔ ∃ n, l.get? n = some x := by
  induction l with
  | nil => simp
  | cons h t ih =>
    simp only [List.mem_cons, ih]
    constructor
    · rintro (rfl | ⟨n, hn⟩)
      · exact ⟨0, rfl⟩
      · exact ⟨n + 1, hn⟩
    · rintro ⟨n, hn⟩
      cases n with
      | zero => exact Or.inl (Option.some_inj.mp hn).symm
      | succ n => exact Or.inr ⟨n, hn⟩

theorem listSwap_oob (a : List (Cell × ℕ)) (i j : ℕ)
    (h : ¬(i < a.length ∧ j < a.length)) : listSwap a i j = a := by
  unfold listSwap
  split
  · next x y hx hy =>
    exfalso
    apply h
    constructor
    · by_contra hc
      rw [List.get?_eq_none.mpr (by omega)] at hx
      cases hx
    · by_contra hc
      rw [List.get?_eq_none.mpr (by omega)] at hy
      cases hy
  · rfl

theorem listSwap_get? (a : List (Cell × ℕ)) (i j : ℕ)
    (hi : i < a.length) (hj : j < a.length) (k : ℕ) :
    (listSwap a i j).get? k =
      if k = j then a.get? i else if k = i then a.get? j else a.get? k := by
  unfold listSwap
  split
  · next x y hx hy =>
    rw [get?_set, get?_set]
    simp only [List.length_set]
    by_cases hkj : k = j
    · rw [if_pos ⟨hkj, hj⟩, if_pos hkj, hx]
    · rw [if_neg (fun hc => hkj hc.1), if_neg hkj]
      by_cases hki : k = i
      · rw [if_pos ⟨hki, hi⟩, if_pos hki, hy]
      · rw [if_neg (fun hc => hki hc.1), if_neg hki]
  · next hno =>
    exfalso
    obtain ⟨x, hx⟩ := Option.isSome_iff_exists.mp
      (show (a.get? i).isSome = true by rw [List.get?_eq_get hi]; rfl)
    obtain ⟨y, hy⟩ := Option.isSome_iff_exists.mp
      (show (a.get? j).isSome = true by rw [List.get?_eq_get hj]; rfl)
    exact hno x y hx hy

theorem listSwap_mem_iff (x : Cell × ℕ) (a : List (Cell × ℕ)) (i j : ℕ) :
    x ∈ listSwap a i j ↔ x ∈ a := by
  by_cases hij : i < a.length ∧ j < a.length
  · obtain ⟨hi, hj⟩ := hij
    constructor
    · intro hm
      obtain ⟨n, hn⟩ := mem_get_iff.mp hm
      rw [listSwap_get? a i j hi hj n] at hn
      split_ifs at hn
      · exact mem_get_iff.mpr ⟨i, hn⟩
      · exact mem_get_iff.mpr ⟨j, hn⟩
      · exact mem_get_iff.mpr ⟨n, hn⟩
    · intro hm
      obtain ⟨n, hn⟩ := mem_get_iff.mp hm
      by_cases hni : n = i
      · refine mem_get_iff.mpr ⟨j, ?_⟩
        rw [listSwap_get? a i j hi hj j, if_pos rfl, ← hni]
        exact hn
      · by_cases hnj : n = j
        · refine mem_get_iff.mpr ⟨i, ?_⟩
          rw [listSwap_get? a i j hi hj i]
          by_cases hieq : i = j
          · rw [if_pos hieq, hieq, ← hnj]
            exact hn
          · rw [if_neg hieq, if_pos rfl, ← hnj]
            exact hn
        · refine mem_get_iff.mpr ⟨n, ?_⟩
          rw [listSwap_get? a i j hi hj n, if_neg hnj, if_neg hni]
          exact hn
  · rw [listSwap_oob a i j hij]

theorem heapPrio_eq (a : List (Cell × ℕ)) (k : ℕ) (e : Cell × ℕ)
    (h : a.get? k = some e) : heapPrio a k = e.2 := by
  unfold heapPrio
  rw [h]
  rfl

theorem heapPrio_listSwap (a : List (Cell × ℕ)) (i j : ℕ)
    (hi : i < a.length) (hj : j < a.length) (k : ℕ) :
    heapPrio (listSwap a i j) k =
      if k = j then heapPrio a i else if k = i then heapPrio a j else heapPrio a k := by
  unfold heapPrio
  rw [listSwap_get? a i j hi hj k]
  split_ifs <;> rfl

/-- The binary min-heap shape invariant of MinPQ: every non-root slot has a
parent with no larger priority. -/
def IsHeap (a : List (Cell × ℕ)) : Prop :=
  ∀ i, 0 < i → i < a.length → heapPrio a ((i - 1) / 2) ≤ heapPrio a i

theorem isHeap_root_le (a : List (Cell × ℕ)) (h : IsHeap a) :
    ∀ i, i < a.length → heapPrio a 0 ≤ heapPrio a i := by
  intro i
  induction i using Nat.strong_induction_on with
  | _ i ih =>
    intro hi
    rcases Nat.eq_zero_or_pos i with h0 | h0
    · rw [h0]
    · have hp := h i h0 hi
      have := ih ((i - 1) / 2) (by omega) (by omega)
      omega

theorem siftUp_zero (a : List (Cell × ℕ)) : siftUp a 0 = a := by
  unfold siftUp
  rfl

theorem siftUp_succ (a : List (Cell × ℕ)) (i : ℕ) :
    siftUp a (i + 1) =
      if heapPrio a (i / 2) ≤ heapPrio a (i + 1) then a
      else siftUp (listSwap a (i / 2) (i + 1)) (i / 2) := by
  conv_lhs => rw [siftUp]

theorem siftUp_length (m : ℕ) : ∀ (a : List (Cell × ℕ)) (i : ℕ), i ≤ m →
    (siftUp a i).length = a.length := by
  induction m with
  | zero =>
    intro a i him
    obtain rfl : i = 0 := by omega
    rw [siftUp_zero]
  | succ m ihm =>
    intro a i him
    cases i with
    | zero => rw [siftUp_zero]
    | succ k =>
      rw [siftUp_succ]
      split_ifs
      · rfl
      · rw [ihm _ (k / 2) (by omega), listSwap_length]

theorem siftUp_mem_iff (m : ℕ) : ∀ (a : List (Cell × ℕ)) (i : ℕ), i ≤ m →
    ∀ x : Cell × ℕ, (x ∈ siftUp a i ↔ x ∈ a) := by
  induction m with
  | zero =>
    intro a i him x
    obtain rfl : i = 0 := by omega
    rw [siftUp_zero]
  | succ m ihm =>
    intro a i him x
    cases i with
    | zero => rw [siftUp_zero]
    | succ k =>
      rw [siftUp_succ]
      split_ifs
      · exact Iff.rfl
      · rw [ihm _ (k / 2) (by omega), listSwap_mem_iff]

theorem siftUp_isHeap (m : ℕ) : ∀ (a : List (Cell × ℕ)) (i : ℕ), i ≤ m → i < a.length →
    (∀ j, 0 < j → j < a.length → j ≠ i → heapPrio a ((j - 1) / 2) ≤ heapPrio a j) →
    (0 < i → ∀ j, 0 < j → j < a.length → (j - 1) / 2 = i →
      heapPrio a ((i - 1) / 2) ≤ heapPrio a j) →
    IsHeap (siftUp a i) := by
  induction m with
  | zero =>
    intro a i him hi h1 h2
    obtain rfl : i = 0 := by omega
    rw [siftUp_zero]
    intro j hj0 hjlen
    exact h1 j hj0 hjlen (by omega)
  | succ m ihm =>
    intro a i him hi h1 h2
    cases i with
    | zero =>
      rw [siftUp_zero]
      intro j hj0 hjlen
      exact h1 j hj0 hjlen (by omega)
    | succ k =>
      rw [siftUp_succ]
      split_ifs with hle
      · intro j hj0 hjlen
        by_cases hj : j = k + 1
        · subst hj
          have hh : (k + 1 - 1) / 2 = k / 2 := by omega
          rw [hh]
          exact hle
        · exact h1 j hj0 hjlen hj
      · have hp : k / 2 < a.length := by omega
        have hlt : heapPrio a (k + 1) < heapPrio a (k / 2) := by omega
        have hswap := fun k2 => heapPrio_listSwap a (k / 2) (k + 1) hp hi k2
        have e1 : heapPrio (listSwap a (k / 2) (k + 1)) (k + 1) = heapPrio a (k / 2) := by
          rw [hswap (k + 1), if_pos rfl]
        have e2 : heapPrio (listSwap a (k / 2) (k + 1)) (k / 2) = heapPrio a (k + 1) := by
          rw [hswap (k / 2), if_neg (by omega), if_pos rfl]
        have e3 : ∀ k2, k2 ≠ k / 2 → k2 ≠ k + 1 →
            heapPrio (listSwap a (k / 2) (k + 1)) k2 = heapPrio a k2 := by
          intro k2 h2p h2k
          rw [hswap k2, if_neg h2k, if_neg h2p]
        apply ihm (listSwap a (k / 2) (k + 1)) (k / 2) (by omega)
          (by rw [listSwap_length]; omega)
        · intro j hj0 hjlen hjne
          rw [listSwap_length] at hjlen
          by_cases hj : j = k + 1
          · subst hj
            have hq : (k + 1 - 1) / 2 = k / 2 := by omega
            rw [hq, e2, e1]
            omega
          · rw [e3 j hjne hj]
            by_cases hq1 : (j - 1) / 2 = k / 2
            · rw [hq1, e2]
              have := h1 j hj0 hjlen hj
              rw [hq1] at this
              omega
            · by_cases hq2 : (j - 1) / 2 = k + 1
              · rw [hq2, e1]
                have := h2 (by omega) j hj0 hjlen hq2
                have hq3 : (k + 1 - 1) / 2 = k / 2 := by omega
                rw [hq3] at this
                exact this
              · rw [e3 _ hq1 hq2]
                exact h1 j hj0 hjlen hj
        · intro hp0 j hj0 hjlen hjpar
          rw [listSwap_length] at hjlen
          have hpp1 : (k / 2 - 1) / 2 ≠ k / 2 := by omega
          have hpp2 : (k / 2 - 1) / 2 ≠ k + 1 := by omega
          rw [e3 _ hpp1 hpp2]
          by_cases hj : j = k + 1
          · subst hj
            rw [e1]
            exact h1 (k / 2) hp0 hp (by omega)
          · have hjp : j ≠ k / 2 := by omega
            rw [e3 j hjp hj]
            have ha := h1 (k / 2) hp0 hp (by omega)
            have hb := h1 j hj0 hjlen hj
            rw [hjpar] at hb
            omega

theorem heapPrio_append (a l : List (Cell × ℕ)) (k : ℕ) (h : k < a.length) :
    heapPrio (a ++ l) k = heapPrio a k := by
  unfold heapPrio
  rw [List.get?_append h]

theorem heapPush_isHeap (a : List (Cell × ℕ)) (h : IsHeap a) (k : Cell) (pri : ℕ) :
    IsHeap (heapPush a k pri) := by
  unfold heapPush
  apply siftUp_isHeap a.length _ a.length le_rfl (by simp)
  · intro j hj0 hjlen hj
    simp only [List.length_append, List.length_singleton] at hjlen
    have hjl : j < a.length := by omega
    rw [heapPrio_append _ _ _ hjl, heapPrio_append _ _ _ (by omega)]
    exact h j hj0 hjl
  · intro hpos j hj0 hjlen hpar
    simp only [List.length_append, List.length_singleton] at hjlen
    omega

theorem heapPush_length (a : List (Cell × ℕ)) (k : Cell) (pri : ℕ) :
    (heapPush a k pri).length = a.length + 1 := by
  unfold heapPush
  rw [siftUp_length a.length _ _ le_rfl]
  simp

theorem heapPush_mem_iff (x : Cell × ℕ) (a : List (Cell × ℕ)) (k : Cell) (pri : ℕ) :
    x ∈ heapPush a k pri ↔ x ∈ a ∨ x = (k, pri) := by
  unfold heapPush
  rw [siftUp_mem_iff a.length _ _ le_rfl]
  simp

theorem siftDown_eq (a : List (Cell × ℕ)) (i : ℕ) :
    siftDown a i = if sdTarget a i = i then a
      else siftDown (listSwap a (sdTarget a i) i) (sdTarget a i) := by
  conv_lhs => rw [siftDown]
  rw [dite_eq_ite]

theorem sdTarget_min (a : List (Cell × ℕ)) (i : ℕ) :
    heapPrio a (sdTarget a i) ≤ heapPrio a i ∧
    ∀ j, 0 < j → j < a.length → (j - 1) / 2 = i →
      heapPrio a (sdTarget a i) ≤ heapPrio a j := by
  unfold sdTarget
  dsimp only
  constructor
  · split_ifs <;> omega
  · intro j hj0 hjlen hpar
    have hj : j = i * 2 + 1 ∨ j = i * 2 + 1 + 1 := by omega
    split_ifs <;> rcases hj with rfl | rfl <;> omega

theorem sdTarget_child (a : List (Cell × ℕ)) (i : ℕ) (h : sdTarget a i ≠ i) :
    (sdTarget a i - 1) / 2 = i := by
  unfold sdTarget at h ⊢
  dsimp only at h ⊢
  split_ifs at h ⊢ <;> omega

theorem siftDown_length (m : ℕ) : ∀ (a : List (Cell × ℕ)) (i : ℕ), a.length - i ≤ m →
    (siftDown a i).length = a.length := by
  induction m with
  | zero =>
    intro a i hm
    rw [siftDown_eq]
    rcases sdTarget_eq_or_lt a i with h | ⟨h1, h2⟩
    · rw [if_pos h]
    · omega
  | succ m ihm =>
    intro a i hm
    rw [siftDown_eq]
    split_ifs with ht
    · rfl
    · rcases sdTarget_eq_or_lt a i with h | ⟨h1, h2⟩
      · exact absurd h ht
      · rw [ihm _ _ (by rw [listSwap_length]; omega), listSwap_length]

theorem siftDown_mem_iff (m : ℕ) : ∀ (a : List (Cell × ℕ)) (i : ℕ), a.length - i ≤ m →
    ∀ x : Cell × ℕ, (x ∈ siftDown a i ↔ x ∈ a) := by
  induction m with
  | zero =>
    intro a i hm x
    rw [siftDown_eq]
    rcases sdTarget_eq_or_lt a i with h | ⟨h1, h2⟩
    · rw [if_pos h]
    · omega
  | succ m ihm =>
    intro a i hm x
    rw [siftDown_eq]
    split_ifs with ht
    · exact Iff.rfl
    · rcases sdTarget_eq_or_lt a i with h | ⟨h1, h2⟩
      · exact absurd h ht
      · rw [ihm _ _ (by rw [listSwap_length]; omega), listSwap_mem_iff]

theorem siftDown_isHeap (m : ℕ) : ∀ (a : List (Cell × ℕ)) (i : ℕ), a.length - i ≤ m →
    i < a.length →
    (∀ j, 0 < j → j < a.length → (j - 1) / 2 ≠ i → heapPrio a ((j - 1) / 2) ≤ heapPrio a j) →
    (0 < i → ∀ j, 0 < j → j < a.length → (j - 1) / 2 = i →
      heapPrio a ((i - 1) / 2) ≤ heapPrio a j) →
    IsHeap (siftDown a i) := by
  induction m with
  | zero =>
    intro a i hm hi h1 h2
    omega
  | succ m ihm =>
    intro a i hm hi h1 h2
    rw [siftDown_eq]
    split_ifs with ht
    · intro j hj0 hjlen
      by_cases hpar : (j - 1) / 2 = i
      · have := (sdTarget_min a i).2 j hj0 hjlen hpar
        rw [ht] at this
        rw [hpar]
        exact this
      · exact h1 j hj0 hjlen hpar
    · have htlt : i < sdTarget a i ∧ sdTarget a i < a.length := by
        rcases sdTarget_eq_or_lt a i with h | hh
        · exact absurd h ht
        · exact hh
      have hswap := fun k2 => heapPrio_listSwap a (sdTarget a i) i htlt.2 hi k2
      have e1 : heapPrio (listSwap a (sdTarget a i) i) i = heapPrio a (sdTarget a i) := by
        rw [hswap i, if_pos rfl]
      have e2 : heapPrio (listSwap a (sdTarget a i) i) (sdTarget a i) = heapPrio a i := by
        rw [hswap (sdTarget a i), if_neg (by omega), if_pos rfl]
      have e3 : ∀ k2, k2 ≠ i → k2 ≠ sdTarget a i →
          heapPrio (listSwap a (sdTarget a i) i) k2 = heapPrio a k2 := by
        intro k2 h2i h2t
        rw [hswap k2, if_neg h2i, if_neg h2t]
      have hmin := sdTarget_min a i
      apply ihm _ (sdTarget a i) (by rw [listSwap_length]; omega)
        (by rw [listSwap_length]; exact htlt.2)
      · intro j hj0 hjlen hjne
        rw [listSwap_length] at hjlen
        by_cases hpar : (j - 1) / 2 = i
        · by_cases hjt : j = sdTarget a i
          · rw [hpar, hjt, e1, e2]
            exact hmin.1
          · by_cases hji : j = i
            · omega
            · rw [hpar, e1, e3 j hji hjt]
              exact hmin.2 j hj0 hjlen hpar
        · by_cases hji : j = i
          · subst hji
            have h0 : 0 < j := hj0
            have hpi1 : (j - 1) / 2 ≠ j := by omega
            have hpi2 : (j - 1) / 2 ≠ sdTarget a j := by omega
            rw [e3 _ hpi1 hpi2, e1]
            exact h2 h0 (sdTarget a j) (by omega) htlt.2 (sdTarget_child a j ht)
          · have hjt : j ≠ sdTarget a i :=
              fun hc => hpar (by rw [hc]; exact sdTarget_child a i ht)
            by_cases hq2 : (j - 1) / 2 = sdTarget a i
            · exact absurd hq2 hjne
            · rw [e3 _ hpar hq2, e3 j hji hjt]
              exact h1 j hj0 hjlen hpar
      · intro ht0 j hj0 hjlen hjpar
        rw [listSwap_length] at hjlen
        rw [sdTarget_child a i ht, e1]
        have hjgt : sdTarget a i < j := by omega
        have hji : j ≠ i := by omega
        have hjt : j ≠ sdTarget a i := by omega
        rw [e3 j hji hjt]
        have hh := h1 j hj0 hjlen (by rw [hjpar]; exact ht)
        rw [hjpar] at hh
        exact hh

theorem get?_dropLast {α : Type} (l : List α) (j : ℕ) (h : j + 1 < l.length) :
    l.dropLast.get? j = l.get? j := by
  induction l generalizing j with
  | nil => simp at h
  | cons a t ih =>
    cases t with
    | nil => simp at h
    | cons b t2 =>
      cases j with
      | zero => rfl
      | succ j =>
        show (b :: t2).dropLast.get? j = (b :: t2).get? j
        exact ih j (by simpa using h)

/-- Every entry of a heap has at least the root priority; for a cons list the
root priority is the head entry's. -/
theorem isHeap_head_min (e : Cell × ℕ) (op1 : List (Cell × ℕ))
    (h : IsHeap (e :: op1)) : ∀ x ∈ e :: op1, e.2 ≤ x.2 := by
  intro x hx
  obtain ⟨n, hn⟩ := mem_get_iff.mp hx
  have hxp : heapPrio (e :: op1) n = x.2 := heapPrio_eq _ _ _ hn
  have hlen : n < (e :: op1).length := by
    by_contra hc
    rw [List.get?_eq_none.mpr (by omega)] at hn
    cases hn
  have h0 : heapPrio (e :: op1) 0 = e.2 := rfl
  have := isHeap_root_le (e :: op1) h n hlen
  omega

theorem heapPop_fst (e : Cell × ℕ) (op1 : List (Cell × ℕ)) :
    (heapPop (e :: op1)).1 = some e.1 := by
  unfold heapPop
  cases op1 <;> rfl

/-- The array MinPQ.pop sifts down: the last entry moved onto the root slot,
over the old array without its last entry. -/
theorem heapPop_base (e b : Cell × ℕ) (t : List (Cell × ℕ)) :
    (heapPop (e :: b :: t)).2 =
      siftDown (((e :: b :: t).getLast (by simp)) :: (b :: t).dropLast) 0 := by
  rfl

theorem heapPop_nil_snd (e : Cell × ℕ) : (heapPop [e]).2 = [] := rfl

theorem siftDown_length2 (a : List (Cell × ℕ)) (i : ℕ) :
    (siftDown a i).length = a.length :=
  siftDown_length a.length a i (by omega)

theorem siftDown_mem_iff2 (a : List (Cell × ℕ)) (i : ℕ) (x : Cell × ℕ) :
    x ∈ siftDown a i ↔ x ∈ a :=
  siftDown_mem_iff a.length a i (by omega) x

theorem heapPop_mem_iff (x e : Cell × ℕ) (op1 : List (Cell × ℕ)) :
    x ∈ (heapPop (e :: op1)).2 ↔ x ∈ op1 := by
  cases op1 with
  | nil => rw [heapPop_nil_snd]
  | cons b t =>
    rw [heapPop_base, siftDown_mem_iff2]
    have hsplit : (b :: t) = (b :: t).dropLast ++ [(b :: t).getLast (by simp)] :=
      (List.dropLast_append_getLast (by simp)).symm
    rw [List.getLast_cons (by simp)]
    constructor
    · intro hm
      rcases List.mem_cons.mp hm with rfl | hm2
      · exact List.getLast_mem _
      · exact List.dropLast_subset _ hm2
    · intro hm
      rw [hsplit] at hm
      rcases List.mem_append.mp hm with hm2 | hm2
      · exact List.mem_cons_of_mem _ hm2
      · rw [List.mem_singleton.mp hm2]
        exact List.mem_cons_self _ _

theorem heapPop_length (e : Cell × ℕ) (op1 : List (Cell × ℕ)) :
    ((heapPop (e :: op1)).2).length = op1.length := by
  cases op1 with
  | nil => rw [heapPop_nil_snd]
  | cons b t =>
    rw [heapPop_base, siftDown_length2]
    simp [List.length_dropLast]

theorem heapPop_isHeap (e : Cell × ℕ) (op1 : List (Cell × ℕ))
    (h : IsHeap (e :: op1)) : IsHeap ((heapPop (e :: op1)).2) := by
  cases op1 with
  | nil =>
    rw [heapPop_nil_snd]
    intro j hj0 hjlen
    simp at hjlen
  | cons b t =>
    rw [heapPop_base]
    have hbl : (((e :: b :: t).getLast (by simp)) :: (b :: t).dropLast).length =
        t.length + 2 - 1 := by
      simp [List.length_dropLast]
    have hkeep : ∀ k, 0 < k → k < t.length + 2 - 1 →
        heapPrio (((e :: b :: t).getLast (by simp)) :: (b :: t).dropLast) k =
          heapPrio (e :: b :: t) k := by
      intro k hk0 hklen
      unfold heapPrio
      have h1 : (((e :: b :: t).getLast (by simp)) :: (b :: t).dropLast).get? k =
          (b :: t).dropLast.get? (k - 1) := by
        cases k with
        | zero => omega
        | succ k => simp
      rw [h1]
      have h2 : (b :: t).dropLast.get? (k - 1) = (b :: t).get? (k - 1) :=
        get?_dropLast _ _ (by simp; omega)
      rw [h2]
      have h3 : (e :: b :: t).get? k = (b :: t).get? (k - 1) := by
        cases k with
        | zero => omega
        | succ k => simp
      rw [h3]
    apply siftDown_isHeap (t.length + 2) _ 0 (by omega) (by rw [hbl]; omega)
    · intro j hj0 hjlen hjpar
      rw [hbl] at hjlen
      rw [hkeep j hj0 hjlen, hkeep ((j - 1) / 2) (by omega) (by omega)]
      exact h j (by omega) (by simp; omega)
    · intro h0
      omega

/-! ## The A* heuristic: row distance to the nearest goal row -/

theorem foldl_min_le (p : Cell) (gs : List Int) : ∀ init : ℕ,
    gs.foldl (fun best g2 => min best ((p.r - g2).natAbs)) init ≤ init ∧
    ∀ gr ∈ gs, gs.foldl (fun best g2 => min best ((p.r - g2).natAbs)) init ≤
      (p.r - gr).natAbs := by
  induction gs with
  | nil =>
    intro init
    exact ⟨le_rfl, fun gr hgr => absurd hgr (List.not_mem_nil _)⟩
  | cons g0 t ih =>
    intro init
    constructor
    · exact le_trans (ih (min init ((p.r - g0).natAbs))).1 (by omega)
    · intro gr hgr
      rcases List.mem_cons.mp hgr with rfl | hgr2
      · exact le_trans (ih (min init ((p.r - gr).natAbs))).1 (by omega)
      · exact (ih (min init ((p.r - g0).natAbs))).2 gr hgr2

theorem foldl_min_eq (p : Cell) (gs : List Int) : ∀ init : ℕ,
    gs.foldl (fun best g2 => min best ((p.r - g2).natAbs)) init = init ∨
    ∃ gr ∈ gs, gs.foldl (fun best g2 => min best ((p.r - g2).natAbs)) init =
      (p.r - gr).natAbs := by
  induction gs with
  | nil => exact fun init => Or.inl rfl
  | cons g0 t ih =>
    intro init
    rcases ih (min init ((p.r - g0).natAbs)) with h | ⟨gr, hgr, h⟩
    · rcases Nat.le_total init ((p.r - g0).natAbs) with hle | hle
      · left
        rw [List.foldl_cons, h]
        omega
      · right
        refine ⟨g0, List.mem_cons_self _ _, ?_⟩
        rw [List.foldl_cons, h]
        omega
    · right
      exact ⟨gr, List.mem_cons_of_mem _ hgr, by rw [List.foldl_cons, h]⟩

theorem hToGoal_le (b : Board) (g : List Int) (p : Cell) (gr : Int) (h : gr ∈ g) :
    b.hToGoal g p ≤ (p.r - gr).natAbs := by
  unfold Board.hToGoal
  cases g with
  | nil => exact absurd h (List.not_mem_nil _)
  | cons g0 t =>
    rcases List.mem_cons.mp h with rfl | h2
    · exact le_trans (foldl_min_le p t _).1 le_rfl
    · exact (foldl_min_le p t _).2 gr h2

theorem hToGoal_mem (b : Board) (g : List Int) (p : Cell) (hne : g ≠ []) :
    ∃ gr ∈ g, b.hToGoal g p = (p.r - gr).natAbs := by
  unfold Board.hToGoal
  cases g with
  | nil => exact absurd rfl hne
  | cons g0 t =>
    rcases foldl_min_eq p t ((p.r - g0).natAbs) with h | ⟨gr, hgr, h⟩
    · exact ⟨g0, List.mem_cons_self _ _, h⟩
    · exact ⟨gr, List.mem_cons_of_mem _ hgr, h⟩

theorem hToGoal_goal (b : Board) (g : List Int) (z : Cell) (h : z.r ∈ g) :
    b.hToGoal g z = 0 := by
  have := hToGoal_le b g z z.r h
  omega

/-- The heuristic is consistent across one unblocked step (rows change by at
most one). -/
theorem hToGoal_adj (b : Board) (g : List Int) (u v : Cell) (h : v ∈ b.neighbors u) :
    b.hToGoal g u ≤ b.hToGoal g v + 1 := by
  have hrow : (u.r - v.r).natAbs ≤ 1 := by
    rcases ((mem_neighbors_iff b u v).mp h).2 with ⟨_, rfl⟩ | ⟨_, rfl⟩ | ⟨_, rfl⟩ | ⟨_, rfl⟩ <;>
      (dsimp only; omega)
  cases g with
  | nil =>
    have h1 : b.hToGoal [] u = 0 := rfl
    have h2 : b.hToGoal [] v = 0 := rfl
    omega
  | cons g0 t =>
    obtain ⟨gr, hgr, hv⟩ := hToGoal_mem b (g0 :: t) v (by simp)
    have hu := hToGoal_le b (g0 :: t) u gr hgr
    omega

/-- The heuristic is consistent along a walk. -/
theorem hToGoal_walk (b : Board) (g : List Int) {n : ℕ} {y t : Cell}
    (h : WalkN b n y t) : b.hToGoal g y ≤ n + b.hToGoal g t := by
  induction h with
  | refl u => omega
  | cons ha ht2 ih =>
    have := hToGoal_adj b g _ _ ha
    omega

theorem jsMapGet_set {κ ν : Type} [DecidableEq κ] (l : List (κ × ν)) (k k2 : κ) (v : ν) :
    jsMapGet (jsMapSet l k v) k2 = if k2 = k then some v else jsMapGet l k2 := by
  induction l with
  | nil =>
    show jsMapGet [(k, v)] k2 = _
    show (if k = k2 then some v else jsMapGet [] k2) = _
    by_cases h : k = k2
    · rw [if_pos h, if_pos h.symm]
    · rw [if_neg h, if_neg (fun hc => h hc.symm)]
  | cons e t ih =>
    rcases e with ⟨k0, v0⟩
    show jsMapGet (if k0 = k then (k, v) :: t else (k0, v0) :: jsMapSet t k v) k2 = _
    by_cases h0 : k0 = k
    · rw [if_pos h0]
      show (if k = k2 then some v else jsMapGet t k2) = _
      by_cases h2 : k2 = k
      · rw [if_pos h2.symm, if_pos h2]
      · rw [if_neg (fun hc => h2 hc.symm), if_neg h2]
        show _ = if k0 = k2 then some v0 else jsMapGet t k2
        rw [if_neg (fun hc : k0 = k2 => h2 (hc ▸ h0))]
    · rw [if_neg h0]
      show (if k0 = k2 then some v0 else jsMapGet (jsMapSet t k v) k2) = _
      by_cases h3 : k0 = k2
      · rw [if_pos h3, if_neg (fun hc => h0 (h3.trans hc))]
        show some v0 = if k0 = k2 then some v0 else jsMapGet t k2
        rw [if_pos h3]
      · rw [if_neg h3, ih]
        by_cases h4 : k2 = k
        · rw [if_pos h4, if_pos h4]
        · rw [if_neg h4, if_neg h4]
          show _ = if k0 = k2 then some v0 else jsMapGet t k2
          rw [if_neg h3]

/-! ## A* loop analysis -/

/-- The neighbor-relaxation step of the A* loop (the foldl body of astarAux,
named for the proofs). -/
def relaxStep (b : Board) (goalRows : List Int) (gu : Option ℕ) :
    (List (Cell × ℕ) × List (Cell × ℕ) × List (Cell × ℕ)) → Cell →
    (List (Cell × ℕ) × List (Cell × ℕ) × List (Cell × ℕ)) :=
  fun st v =>
    match gu, v with
    | none, _ => st
    | some g, v =>
      let tentative := g + 1
      if (match jsMapGet st.2.1 v with
          | none => true
          | some gv => decide (tentative < gv)) then
        let fv := tentative + b.hToGoal goalRows v
        (heapPush st.1 v fv, jsMapSet st.2.1 v tentative, jsMapSet st.2.2 v fv)
      else st

theorem astarAux_nil (b : Board) (g : List Int) (fuel : ℕ)
    (gS fS : List (Cell × ℕ)) (seen : List Cell) :
    b.astarAux g fuel [] gS fS seen = none := by
  cases fuel <;> rfl

theorem astarAux_cons (b : Board) (g : List Int) (fuel : ℕ) (e : Cell × ℕ)
    (op1 gS fS : List (Cell × ℕ)) (seen : List Cell) :
    b.astarAux g (fuel + 1) (e :: op1) gS fS seen =
      if e.1 ∈ seen then b.astarAux g fuel ((heapPop (e :: op1)).2) gS fS seen
      else if e.1.r ∈ g then jsMapGet gS e.1
      else
        b.astarAux g fuel
          ((b.neighbors e.1).foldl (relaxStep b g (jsMapGet gS e.1))
            ((heapPop (e :: op1)).2, gS, fS)).1
          ((b.neighbors e.1).foldl (relaxStep b g (jsMapGet gS e.1))
            ((heapPop (e :: op1)).2, gS, fS)).2.1
          ((b.neighbors e.1).foldl (relaxStep b g (jsMapGet gS e.1))
            ((heapPop (e :: op1)).2, gS, fS)).2.2
          (seen ++ [e.1]) := by
  conv_lhs => rw [Board.astarAux]
  rfl

theorem relaxStep_cases (b : Board) (g : List Int) (gu : ℕ)
    (op gS fS : List (Cell × ℕ)) (v : Cell) :
    (∃ gv, jsMapGet gS v = some gv ∧ ¬ gu + 1 < gv ∧
      relaxStep b g (some gu) (op, gS, fS) v = (op, gS, fS)) ∨
    ((jsMapGet gS v = none ∨ ∃ gv, jsMapGet gS v = some gv ∧ gu + 1 < gv) ∧
      relaxStep b g (some gu) (op, gS, fS) v =
        (heapPush op v (gu + 1 + b.hToGoal g v), jsMapSet gS v (gu + 1),
         jsMapSet fS v (gu + 1 + b.hToGoal g v))) := by
  unfold relaxStep
  dsimp only
  rcases hvg : jsMapGet gS v with _ | gv
  · right
    refine ⟨Or.inl rfl, ?_⟩
    simp
  · by_cases hlt : gu + 1 < gv
    · right
      refine ⟨Or.inr ⟨gv, rfl, hlt⟩, ?_⟩
      simp [hlt]
    · left
      refine ⟨gv, rfl, hlt, ?_⟩
      simp [hlt]

theorem IsDist_unique (b : Board) (s u : Cell) (d1 d2 : ℕ)
    (h1 : IsDist b s u d1) (h2 : IsDist b s u d2) : d1 = d2 :=
  le_antisymm (h1.2 d2 h2.1) (h2.2 d1 h1.1)

theorem IsLeastGoalDist_unique (b : Board) (s : Cell) (g : List Int) (d1 d2 : ℕ)
    (h1 : IsLeastGoalDist b s g d1) (h2 : IsLeastGoalDist b s g d2) : d1 = d2 := by
  obtain ⟨⟨z1, hz1, hw1⟩, hmin1⟩ := h1
  obtain ⟨⟨z2, hz2, hw2⟩, hmin2⟩ := h2
  exact le_antisymm (hmin1 d2 z2 hz2 hw2) (hmin2 d1 z1 hz1 hw1)

/-- A walk from a visited cell to an unvisited one crosses the frontier: a
visited cell with an unvisited neighbor on the walk. -/
theorem exists_frontier_cross (b : Board) (seen : List Cell) :
    ∀ (n : ℕ) (s z : Cell), WalkN b n s z → s ∈ seen → z ∉ seen →
      ∃ p y k k2, p ∈ seen ∧ y ∉ seen ∧ y ∈ b.neighbors p ∧
        WalkN b k s p ∧ WalkN b k2 y z ∧ k + 1 + k2 = n := by
  intro n s z hw
  induction hw with
  | refl u =>
    intro hs hz
    exact absurd hs hz
  | @cons u v w n2 ha ht ih =>
    intro hs hz
    by_cases hv : v ∈ seen
    · obtain ⟨p, y, k, k2, hp, hy, hyp, hwp, hwy, hkn⟩ := ih hv hz
      exact ⟨p, y, k + 1, k2, hp, hy, hyp, WalkN.cons ha hwp, hwy, by omega⟩
    · exact ⟨u, v, 0, n2, hs, hv, ha, WalkN.refl u, ht, by omega⟩

theorem neighbors_length_le (b : Board) (u : Cell) : (b.neighbors u).length ≤ 4 := by
  unfold Board.neighbors
  dsimp only
  apply le_trans (List.length_filter_le _ _)
  split_ifs <;> simp

/-- The A* loop invariant between iterations: the open heap is well-shaped
over in-bounds keys; every open entry's priority dominates its key's current
gScore plus heuristic; gScores are realizable walk lengths (start fixed at 0);
settled cells carry exact distances, are non-goal, and their neighborhoods
are covered; every labelled unsettled cell has a dominated open entry. -/
structure AInv (b : Board) (g : List Int) (start : Cell)
    (op gS : List (Cell × ℕ)) (seen : List Cell) : Prop where
  heap : IsHeap op
  okeys : ∀ e ∈ op, InB b e.1
  entry_ge : ∀ e ∈ op, ∃ gz, jsMapGet gS e.1 = some gz ∧ gz + b.hToGoal g e.1 ≤ e.2
  sound : ∀ z gz, jsMapGet gS z = some gz → WalkN b gz start z ∧ InB b z
  start0 : jsMapGet gS start = some 0
  settled : ∀ z ∈ seen, ∃ gz, jsMapGet gS z = some gz ∧ IsDist b start z gz
  nogoal : ∀ z ∈ seen, z.r ∉ g
  closed : ∀ z ∈ seen, ∀ v ∈ b.neighbors z, v ∈ seen ∨
    ∃ gv gz, jsMapGet gS v = some gv ∧ jsMapGet gS z = some gz ∧ gv ≤ gz + 1
  frontier : ∀ z, z ∉ seen → ∀ gz, jsMapGet gS z = some gz →
    ∃ f, (z, f) ∈ op ∧ f ≤ gz + b.hToGoal g z
  seenInB : ∀ z ∈ seen, InB b z

/-- The invariant inside the relaxation fold of one settle step (u just
settled, its neighborhood coverage still being built). -/
structure MI (b : Board) (g : List Int) (start : Cell)
    (seenOld : List Cell) (u : Cell)
    (op gS : List (Cell × ℕ)) : Prop where
  heap : IsHeap op
  okeys : ∀ e ∈ op, InB b e.1
  entry_ge : ∀ e ∈ op, ∃ gz, jsMapGet gS e.1 = some gz ∧ gz + b.hToGoal g e.1 ≤ e.2
  sound : ∀ z gz, jsMapGet gS z = some gz → WalkN b gz start z ∧ InB b z
  start0 : jsMapGet gS start = some 0
  settled : ∀ z ∈ seenOld ++ [u], ∃ gz, jsMapGet gS z = some gz ∧ IsDist b start z gz
  frontier : ∀ z, z ∉ seenOld ++ [u] → ∀ gz, jsMapGet gS z = some gz →
    ∃ f, (z, f) ∈ op ∧ f ≤ gz + b.hToGoal g z
  closedOld : ∀ z ∈ seenOld, ∀ v ∈ b.neighbors z, v ∈ seenOld ++ [u] ∨
    ∃ gv gz, jsMapGet gS v = some gv ∧ jsMapGet gS z = some gz ∧ gv ≤ gz + 1

/-- One relaxation step preserves the mid-fold invariant, adds at most one
open entry, only lowers gScores, and leaves the stepped neighbor either
settled or labelled at most gu + 1. -/
theorem relaxStep_spec (b : Board) (g : List Int) (start u : Cell) (gu : ℕ)
    (seenOld : List Cell) (v : Cell)
    (hv : v ∈ b.neighbors u)
    (hUin : InB b u)
    (hu_ex : IsDist b start u gu)
    (op gS fS : List (Cell × ℕ))
    (hMI : MI b g start seenOld u op gS) :
    MI b g start seenOld u (relaxStep b g (some gu) (op, gS, fS) v).1
      (relaxStep b g (some gu) (op, gS, fS) v).2.1 ∧
    (relaxStep b g (some gu) (op, gS, fS) v).1.length ≤ op.length + 1 ∧
    (∀ z gz, jsMapGet gS z = some gz →
      ∃ gz2, jsMapGet (relaxStep b g (some gu) (op, gS, fS) v).2.1 z = some gz2 ∧ gz2 ≤ gz) ∧
    (v ∈ seenOld ++ [u] ∨
      ∃ gv, jsMapGet (relaxStep b g (some gu) (op, gS, fS) v).2.1 v = some gv ∧
        gv ≤ gu + 1) := by
  rcases relaxStep_cases b g gu op gS fS v with ⟨gv, hgv, hnlt, heq⟩ | ⟨hcase, heq⟩
  · rw [heq]
    dsimp only
    refine ⟨hMI, by omega, ?_, ?_⟩
    · intro z gz h
      exact ⟨gz, h, le_rfl⟩
    · right
      exact ⟨gv, hgv, by omega⟩
  · rw [heq]
    dsimp only
    have hVin : InB b v := mem_neighbors_bounds b u v hUin hv
    have hwalkv : WalkN b (gu + 1) start v := by
      have := hu_ex.1.append (WalkN.single hv)
      simpa using this
    have hvnotset : v ∉ seenOld ++ [u] := by
      intro hvs
      obtain ⟨gz, hgz, hdist⟩ := hMI.settled v hvs
      have hle : gz ≤ gu + 1 := hdist.2 _ hwalkv
      rcases hcase with hnone | ⟨gv, hgv, hlt⟩
      · rw [hgz] at hnone
        cases hnone
      · rw [hgz] at hgv
        obtain rfl := Option.some_inj.mp hgv
        omega
    refine ⟨⟨?_, ?_, ?_, ?_, ?_, ?_, ?_, ?_⟩, ?_, ?_, ?_⟩
    · exact heapPush_isHeap op hMI.heap v _
    · intro e he
      rcases (heapPush_mem_iff e op v _).mp he with he2 | rfl
      · exact hMI.okeys e he2
      · exact hVin
    · intro e he
      rcases (heapPush_mem_iff e op v _).mp he with he2 | rfl
      · obtain ⟨gz, hgz, hb⟩ := hMI.entry_ge e he2
        by_cases hez : e.1 = v
        · refine ⟨gu + 1, ?_, ?_⟩
          · rw [hez, jsMapGet_set, if_pos rfl]
          · rcases hcase with hnone | ⟨gv, hgv, hlt⟩
            · rw [hez] at hgz
              rw [hgz] at hnone
              cases hnone
            · rw [hez] at hgz hb
              rw [hgz] at hgv
              obtain rfl := Option.some_inj.mp hgv
              rw [hez]
              omega
        · refine ⟨gz, ?_, hb⟩
          rw [jsMapGet_set, if_neg hez]
          exact hgz
      · refine ⟨gu + 1, ?_, ?_⟩
        · dsimp only
          rw [jsMapGet_set, if_pos rfl]
        · dsimp only
          omega
    · intro z gz h
      rw [jsMapGet_set] at h
      split_ifs at h with hz
      · obtain rfl := Option.some_inj.mp h
        subst hz
        exact ⟨hwalkv, hVin⟩
      · exact hMI.sound z gz h
    · have hsv : start ≠ v := by
        intro hsv
        rcases hcase with hnone | ⟨gv, hgv, hlt⟩
        · rw [← hsv, hMI.start0] at hnone
          cases hnone
        · rw [← hsv, hMI.start0] at hgv
          obtain rfl := Option.some_inj.mp hgv
          omega
      rw [jsMapGet_set, if_neg hsv]
      exact hMI.start0
    · intro z hz
      obtain ⟨gz, hgz, hdist⟩ := hMI.settled z hz
      have hznv : z ≠ v := fun hc => hvnotset (hc ▸ hz)
      refine ⟨gz, ?_, hdist⟩
      rw [jsMapGet_set, if_neg hznv]
      exact hgz
    · intro z hz gz hgz
      rw [jsMapGet_set] at hgz
      split_ifs at hgz with hzv
      · obtain rfl := Option.some_inj.mp hgz
        subst hzv
        exact ⟨gu + 1 + b.hToGoal g z, (heapPush_mem_iff _ op z _).mpr (Or.inr rfl), le_rfl⟩
      · obtain ⟨fz, hfz, hfzb⟩ := hMI.frontier z hz gz hgz
        exact ⟨fz, (heapPush_mem_iff _ op v _).mpr (Or.inl hfz), hfzb⟩
    · intro z hz w hw
      rcases hMI.closedOld z hz w hw with hws | ⟨gw, gz, hgw, hgz, hb⟩
      · exact Or.inl hws
      · right
        have hzneqv : z ≠ v := fun hzv =>
          hvnotset (hzv ▸ List.mem_append.mpr (Or.inl hz))
        by_cases hwv : w = v
        · refine ⟨gu + 1, gz, ?_, ?_, ?_⟩
          · rw [hwv, jsMapGet_set, if_pos rfl]
          · rw [jsMapGet_set, if_neg hzneqv]
            exact hgz
          · rcases hcase with hnone | ⟨gv, hgv, hlt⟩
            · rw [hwv] at hgw
              rw [hgw] at hnone
              cases hnone
            · rw [hwv] at hgw
              rw [hgw] at hgv
              obtain rfl := Option.some_inj.mp hgv
              omega
        · refine ⟨gw, gz, ?_, ?_, hb⟩
          · rw [jsMapGet_set, if_neg hwv]
            exact hgw
          · rw [jsMapGet_set, if_neg hzneqv]
            exact hgz
    · rw [heapPush_length]
    · intro z gz h
      by_cases hzv : z = v
      · refine ⟨gu + 1, ?_, ?_⟩
        · rw [jsMapGet_set, if_pos hzv]
        · rcases hcase with hnone | ⟨gv, hgv, hlt⟩
          · rw [hzv] at h
            rw [h] at hnone
            cases hnone
          · rw [hzv] at h
            rw [h] at hgv
            obtain rfl := Option.some_inj.mp hgv
            omega
      · refine ⟨gz, ?_, le_rfl⟩
        rw [jsMapGet_set, if_neg hzv]
        exact h
    · right
      refine ⟨gu + 1, ?_, le_rfl⟩
      rw [jsMapGet_set, if_pos rfl]

/-- The whole relaxation fold: invariant preserved, at most one push per
neighbor, labels only decrease, every processed neighbor ends settled or
labelled at most gu + 1. -/
theorem relaxFold_spec (b : Board) (g : List Int) (start u : Cell) (gu : ℕ)
    (seenOld : List Cell) (hUin : InB b u) (hu_ex : IsDist b start u gu) :
    ∀ (l : List Cell), (∀ v ∈ l, v ∈ b.neighbors u) →
    ∀ (op gS fS : List (Cell × ℕ)),
      MI b g start seenOld u op gS →
      MI b g start seenOld u (l.foldl (relaxStep b g (some gu)) (op, gS, fS)).1
        (l.foldl (relaxStep b g (some gu)) (op, gS, fS)).2.1 ∧
      (l.foldl (relaxStep b g (some gu)) (op, gS, fS)).1.length ≤ op.length + l.length ∧
      (∀ z gz, jsMapGet gS z = some gz →
        ∃ gz2, jsMapGet (l.foldl (relaxStep b g (some gu)) (op, gS, fS)).2.1 z = some gz2 ∧
          gz2 ≤ gz) ∧
      (∀ v ∈ l, v ∈ seenOld ++ [u] ∨
        ∃ gv, jsMapGet (l.foldl (relaxStep b g (some gu)) (op, gS, fS)).2.1 v = some gv ∧
          gv ≤ gu + 1) := by
  intro l
  induction l with
  | nil =>
    intro hl op gS fS hMI
    exact ⟨hMI, by simp, fun z gz h => ⟨gz, h, le_rfl⟩,
      fun v hv => absurd hv (List.not_mem_nil _)⟩
  | cons v l2 ih =>
    intro hl op gS fS hMI
    have hv := hl v (List.mem_cons_self _ _)
    obtain ⟨hMI1, hlen1, hdec1, hpost1⟩ :=
      relaxStep_spec b g start u gu seenOld v hv hUin hu_ex op gS fS hMI
    rcases hst1 : relaxStep b g (some gu) (op, gS, fS) v with ⟨op1, gS1, fS1⟩
    rw [hst1] at hMI1 hlen1 hdec1 hpost1
    dsimp only at hMI1 hlen1 hdec1 hpost1
    rw [List.foldl_cons, hst1]
    obtain ⟨hMI2, hlen2, hdec2, hpost2⟩ :=
      ih (fun w hw => hl w (List.mem_cons_of_mem _ hw)) op1 gS1 fS1 hMI1
    refine ⟨hMI2, ?_, ?_, ?_⟩
    · simp only [List.length_cons]
      omega
    · intro z gz h
      obtain ⟨gz1, h1, hle1⟩ := hdec1 z gz h
      obtain ⟨gz2, h2, hle2⟩ := hdec2 z gz1 h1
      exact ⟨gz2, h2, by omega⟩
    · intro w hw
      rcases List.mem_cons.mp hw with rfl | hw2
      · rcases hpost1 with hs | ⟨gv, hgv, hgvb⟩
        · exact Or.inl hs
        · obtain ⟨gz2, h2, hle2⟩ := hdec2 w gv hgv
          exact Or.inr ⟨gz2, h2, by omega⟩
      · exact hpost2 w hw2

/-- With an empty open heap the invariant excludes any goal-row walk. -/
theorem ainv_empty_none (b : Board) (g : List Int) (start : Cell)
    (gS : List (Cell × ℕ)) (seen : List Cell)
    (hinv : AInv b g start [] gS seen) :
    ∀ n z, z.r ∈ g → ¬ WalkN b n start z := by
  have hstart : start ∈ seen := by
    by_contra hc
    obtain ⟨f, hf, _⟩ := hinv.frontier start hc 0 hinv.start0
    exact absurd hf (List.not_mem_nil _)
  have hreach : ∀ n z, WalkN b n start z → z ∈ seen := by
    intro n
    induction n with
    | zero =>
      intro z hw
      cases hw with
      | refl => exact hstart
    | succ n ihn =>
      intro z hw
      obtain ⟨y, hy, hadj⟩ := (WalkN.snoc_iff b n start z).mp hw
      have hys := ihn y hy
      rcases hinv.closed y hys z hadj with hz | ⟨gz, gy, hgz, hgy, hb⟩
      · exact hz
      · by_cases hzs : z ∈ seen
        · exact hzs
        · obtain ⟨f, hf, _⟩ := hinv.frontier z hzs gz hgz
          exact absurd hf (List.not_mem_nil _)
  intro n z hzg hw
  exact hinv.nogoal z (hreach n z hw) hzg

/-- Master correctness of the A* loop: under the invariant and enough fuel, a
some result is the exact least goal distance and a none result means no
goal-row cell is reachable. -/
theorem astarAux_correct (b : Board) (g : List Int) (start : Cell) :
    ∀ (fuel : ℕ) (op gS fS : List (Cell × ℕ)) (seen : List Cell),
      AInv b g start op gS seen →
      op.length + 5 * unseenCount b seen ≤ fuel →
      (∀ dd, b.astarAux g fuel op gS fS seen = some dd → IsLeastGoalDist b start g dd) ∧
      (b.astarAux g fuel op gS fS seen = none → ∀ n z, z.r ∈ g → ¬ WalkN b n start z) := by
  intro fuel
  induction fuel with
  | zero =>
    intro op gS fS seen hinv hfuel
    have hop : op = [] := by
      cases op with
      | nil => rfl
      | cons e t =>
        exfalso
        simp only [List.length_cons] at hfuel
        omega
    subst hop
    rw [astarAux_nil]
    exact ⟨fun dd h => Option.noConfusion h, fun _ => ainv_empty_none b g start gS seen hinv⟩
  | succ f ihf =>
    intro op gS fS seen hinv hfuel
    cases op with
    | nil =>
      rw [astarAux_nil]
      exact ⟨fun dd h => Option.noConfusion h, fun _ => ainv_empty_none b g start gS seen hinv⟩
    | cons e op1 =>
      rw [astarAux_cons]
      have hheap2 : IsHeap ((heapPop (e :: op1)).2) := heapPop_isHeap e op1 hinv.heap
      have hmem2 : ∀ x : Cell × ℕ, x ∈ (heapPop (e :: op1)).2 ↔ x ∈ op1 :=
        fun x => heapPop_mem_iff x e op1
      have hlen2 : ((heapPop (e :: op1)).2).length = op1.length := heapPop_length e op1
      have hmin := isHeap_head_min e op1 hinv.heap
      by_cases hseen : e.1 ∈ seen
      · rw [if_pos hseen]
        refine ihf _ _ _ _ ?_ ?_
        · refine ⟨hheap2, ?_, ?_, hinv.sound, hinv.start0, hinv.settled, hinv.nogoal,
            hinv.closed, ?_, hinv.seenInB⟩
          · intro e2 he2
            exact hinv.okeys e2 (List.mem_cons_of_mem _ ((hmem2 e2).mp he2))
          · intro e2 he2
            exact hinv.entry_ge e2 (List.mem_cons_of_mem _ ((hmem2 e2).mp he2))
          · intro z hz gz hgz
            obtain ⟨fz, hfz, hfzb⟩ := hinv.frontier z hz gz hgz
            rcases List.mem_cons.mp hfz with heq2 | hfz2
            · exfalso
              apply hz
              rw [show z = e.1 from congrArg Prod.fst heq2]
              exact hseen
            · exact ⟨fz, (hmem2 _).mpr hfz2, hfzb⟩
        · simp only [List.length_cons] at hfuel
          omega
      · rw [if_neg hseen]
        obtain ⟨gu, hgu, hgub⟩ := hinv.entry_ge e (List.mem_cons_self _ _)
        have hUin : InB b e.1 := hinv.okeys e (List.mem_cons_self _ _)
        have core : ∀ n t, t ∉ seen → WalkN b n start t →
            e.2 ≤ n + b.hToGoal g t := by
          intro n t hts hw
          by_cases hss : start ∈ seen
          · obtain ⟨p, y, k, k2, hp, hy, hyp, hwp, hwy, hkn⟩ :=
              exists_frontier_cross b seen n start t hw hss hts
            obtain ⟨gp, hgp, hdp⟩ := hinv.settled p hp
            have hgpk : gp ≤ k := hdp.2 k hwp
            rcases hinv.closed p hp y hyp with hy2 | ⟨gy, gz, hgy, hgz2, hbzz⟩
            · exact absurd hy2 hy
            · have hgzgp : gz = gp := Option.some_inj.mp (hgz2.symm.trans hgp)
              obtain ⟨fy, hfy, hfyb⟩ := hinv.frontier y hy gy hgy
              have hminy : e.2 ≤ fy := hmin (y, fy) hfy
              have hcons := hToGoal_walk b g hwy
              omega
          · obtain ⟨f0, hf0, hf0b⟩ := hinv.frontier start hss 0 hinv.start0
            have hmin0 : e.2 ≤ f0 := hmin (start, f0) hf0
            have hcons := hToGoal_walk b g hw
            omega
        have hu_ex : IsDist b start e.1 gu := by
          refine ⟨(hinv.sound e.1 gu hgu).1, ?_⟩
          intro m hm
          have h1 := core m e.1 hseen hm
          omega
        by_cases hgoal : e.1.r ∈ g
        · rw [if_pos hgoal]
          refine ⟨?_, ?_⟩
          · intro dd hdd
            rw [hgu] at hdd
            obtain rfl := Option.some_inj.mp hdd
            constructor
            · exact ⟨e.1, hgoal, (hinv.sound e.1 gu hgu).1⟩
            · intro m z hzg hw
              have hzs : z ∉ seen := fun hc => hinv.nogoal z hc hzg
              have h1 := core m z hzs hw
              have h2 := hToGoal_goal b g z hzg
              have h3 := hToGoal_goal b g e.1 hgoal
              omega
          · intro hnone
            rw [hgu] at hnone
            cases hnone
        · rw [if_neg hgoal, hgu]
          have hMI0 : MI b g start seen e.1 ((heapPop (e :: op1)).2) gS := by
            refine ⟨hheap2, ?_, ?_, hinv.sound, hinv.start0, ?_, ?_, ?_⟩
            · intro e2 he2
              exact hinv.okeys e2 (List.mem_cons_of_mem _ ((hmem2 e2).mp he2))
            · intro e2 he2
              exact hinv.entry_ge e2 (List.mem_cons_of_mem _ ((hmem2 e2).mp he2))
            · intro z hz
              rcases List.mem_append.mp hz with hz2 | hz2
              · exact hinv.settled z hz2
              · rw [List.mem_singleton.mp hz2]
                exact ⟨gu, hgu, hu_ex⟩
            · intro z hz gz hgz
              have hz2 : z ∉ seen := fun hc => hz (List.mem_append.mpr (Or.inl hc))
              have hz3 : z ≠ e.1 := fun hc =>
                hz (List.mem_append.mpr (Or.inr (List.mem_singleton.mpr hc)))
              obtain ⟨fz, hfz, hfzb⟩ := hinv.frontier z hz2 gz hgz
              rcases List.mem_cons.mp hfz with heq2 | hfz2
              · exact absurd (congrArg Prod.fst heq2) hz3
              · exact ⟨fz, (hmem2 _).mpr hfz2, hfzb⟩
            · intro z hz w hw
              rcases hinv.closed z hz w hw with hws | hrest
              · exact Or.inl (List.mem_append.mpr (Or.inl hws))
              · exact Or.inr hrest
          obtain ⟨hMIf, hlenf, hdecf, hpostf⟩ :=
            relaxFold_spec b g start e.1 gu seen hUin hu_ex (b.neighbors e.1)
              (fun v hv => hv) ((heapPop (e :: op1)).2) gS fS hMI0
          refine ihf _ _ _ _ ?_ ?_
          · refine ⟨hMIf.heap, hMIf.okeys, hMIf.entry_ge, hMIf.sound, hMIf.start0,
              hMIf.settled, ?_, ?_, hMIf.frontier, ?_⟩
            · intro z hz
              rcases List.mem_append.mp hz with hz2 | hz2
              · exact hinv.nogoal z hz2
              · rw [List.mem_singleton.mp hz2]
                exact hgoal
            · intro z hz w hw
              rcases List.mem_append.mp hz with hz2 | hz2
              · exact hMIf.closedOld z hz2 w hw
              · have hze : z = e.1 := List.mem_singleton.mp hz2
                subst hze
                rcases hpostf w hw with hws | ⟨gw, hgw, hgwb⟩
                · exact Or.inl hws
                · right
                  obtain ⟨gz2, hgz2, hdz2⟩ := hMIf.settled e.1
                    (List.mem_append.mpr (Or.inr (List.mem_singleton.mpr rfl)))
                  have hgz2gu : gz2 = gu := IsDist_unique b start e.1 gz2 gu hdz2 hu_ex
                  subst hgz2gu
                  exact ⟨gw, gz2, hgw, hgz2, by omega⟩
            · intro z hz
              rcases List.mem_append.mp hz with hz2 | hz2
              · exact hinv.seenInB z hz2
              · rw [List.mem_singleton.mp hz2]
                exact hUin
          · have hnb := neighbors_length_le b e.1
            have hcnt := unseenCount_append b seen [e.1] (by simp)
              (by
                intro v hv
                rw [List.mem_singleton.mp hv]
                exact hseen)
              (by
                intro v hv
                rw [List.mem_singleton.mp hv]
                exact hUin)
            simp only [List.length_cons, List.length_singleton] at hfuel hcnt
            omega

/-- Exactness of astarDistToGoal from an in-bounds start. -/
theorem astarDistToGoal_exact (b : Board) (start : Cell) (g : List Int) (hs : InB b start) :
    (∀ dd, b.astarDistToGoal start g = some dd → IsLeastGoalDist b start g dd) ∧
    (b.astarDistToGoal start g = none → ∀ n z, z.r ∈ g → ¬ WalkN b n start z) := by
  have hget0 : jsMapGet [((start : Cell), (0 : ℕ))] start = some 0 := by
    show (if start = start then some 0 else jsMapGet [] start) = some 0
    rw [if_pos rfl]
  have hinit : AInv b g start [(start, b.hToGoal g start)] [(start, 0)] [] := by
    refine ⟨?_, ?_, ?_, ?_, hget0, ?_, ?_, ?_, ?_, ?_⟩
    · intro i h0 hlen
      simp only [List.length_singleton] at hlen
      omega
    · intro e he
      rcases List.mem_singleton.mp he with rfl
      exact hs
    · intro e he
      rcases List.mem_singleton.mp he with rfl
      exact ⟨0, hget0, by dsimp only; omega⟩
    · intro z gz h
      have h2 : (if start = z then some 0 else jsMapGet [] z) = some gz := h
      split_ifs at h2 with hz
      · obtain rfl := Option.some_inj.mp h2
        subst hz
        exact ⟨WalkN.refl start, hs⟩
      · cases h2
    · intro z hz
      exact absurd hz (List.not_mem_nil _)
    · intro z hz
      exact absurd hz (List.not_mem_nil _)
    · intro z hz
      exact absurd hz (List.not_mem_nil _)
    · intro z hz gz h
      have h2 : (if start = z then some 0 else jsMapGet [] z) = some gz := h
      split_ifs at h2 with hz2
      · obtain rfl := Option.some_inj.mp h2
        subst hz2
        exact ⟨b.hToGoal g start, List.mem_singleton.mpr rfl, by omega⟩
      · cases h2
    · intro z hz
      exact absurd hz (List.not_mem_nil _)
  have hfuel : ([((start : Cell), b.hToGoal g start)]).length +
      5 * unseenCount b [] ≤ b.astarFuel := by
    have := unseenCount_le b []
    unfold Board.astarFuel
    simp only [List.length_singleton]
    omega
  have hpush : heapPush [] start (b.hToGoal g start) = [(start, b.hToGoal g start)] := by
    show siftUp [(start, b.hToGoal g start)] 0 = [(start, b.hToGoal g start)]
    exact siftUp_zero _
  have hd : b.astarDistToGoal start g =
      b.astarAux g b.astarFuel [(start, b.hToGoal g start)] [(start, 0)]
        [(start, b.hToGoal g start)] [] := by
    unfold Board.astarDistToGoal
    dsimp only
    rw [hpush]
  rw [hd]
  exact astarAux_correct b g start b.astarFuel [(start, b.hToGoal g start)]
    [(start, 0)] [(start, b.hToGoal g start)] [] hinit hfuel

/-- C5: astarDistToGoal agrees with bfsDistToGoal on every board, every
in-bounds start cell anywhere inside the N x N grid, and every goal-row set:
the same finite shortest distance when a goal row is reachable, and null when
unreachable. -/
theorem C5_astar_eq_bfs (b : Board) (start : Cell) (g : List Int)
    (hs : InB b start) :
    b.astarDistToGoal start g = b.bfsDistToGoal start g := by
  obtain ⟨hbfsS, hbfsN⟩ := bfsDistToGoal_exact b start g hs
  obtain ⟨hastS, hastN⟩ := astarDistToGoal_exact b start g hs
  rcases hb : b.bfsDistToGoal start g with _ | d
  · rcases ha : b.astarDistToGoal start g with _ | d2
    · rfl
    · exfalso
      obtain ⟨⟨z, hz, hw⟩, _⟩ := hastS d2 ha
      exact hbfsN hb _ z hz hw
  · rcases ha : b.astarDistToGoal start g with _ | d2
    · exfalso
      obtain ⟨⟨z, hz, hw⟩, _⟩ := hbfsS d hb
      exact hastN ha _ z hz hw
    · rw [IsLeastGoalDist_unique b start g d2 d (hastS d2 ha) (hbfsS d hb)]

/-- A tiny concrete board exercising the A*/BFS agreement. -/
def bC5 : Board := { N := 2, hWalls := [], vWalls := [], hOwners := [], vOwners := [] }

/-- C5 applied at a concrete board and query. -/
theorem C5_astar_eq_bfs_witness :
    InB bC5 ⟨0, 0⟩ ∧ bC5.astarDistToGoal ⟨0, 0⟩ [1] = bC5.bfsDistToGoal ⟨0, 0⟩ [1] :=
  ⟨by decide, C5_astar_eq_bfs bC5 ⟨0, 0⟩ [1] (by decide)⟩

end Quoridor
